import Mathlib

/-!
# The infrastructure layer of `just`: paths and digests

A shallow embedding of `src/src/infra/path.c` and `src/src/infra/hash.c`.

* A C string is the list of its characters before the terminating NUL.
* A pointer argument is modelled by the value it points to; the functions
  below are the bodies reached once the NULL checks have passed.
* Allocation (`malloc`, `strdup`) is assumed to succeed.
* A function whose C body can store outside an array returns an `Option`;
  `none` stands for that out-of-bounds store, after which the C program has
  no defined behaviour.
-/

namespace Just

/-! ## Definitions: path.c -/

/-- A C string: its characters up to, and without, the terminating NUL. -/
abbrev CStr := List Char

/-- The constant of `<linux/limits.h>`; `path_normalize` sizes its segment
stack with it (`char *stack[PATH_MAX]`). -/
def PATH_MAX : Nat := 4096

/-- The string literal `"."`. -/
def dot : CStr := ['.']

/-- The string literal `".."`. -/
def dotdot : CStr := ['.', '.']

/-- The `/`-delimited fields of a string, empty fields included
(`"a//b"` has the fields `a`, the empty string and `b`). -/
def segments : CStr → List CStr
  | [] => [[]]
  | c :: cs =>
    if c = '/' then [] :: segments cs
    else
      match segments cs with
      | [] => [[c]]
      | t :: ts => (c :: t) :: ts

/-- The tokens handed out by `strtok(tmp, "/")` followed by `strtok(NULL, "/")`
until it returns NULL: `strtok` skips every run of delimiters, so these are the
non-empty fields, in order. -/
def strtok_all (s : CStr) : List CStr :=
  (segments s).filter (fun t => !t.isEmpty)

/-- The store `stack[depth++] = token`. The list holds `stack[depth-1]` first.
The array has `PATH_MAX` slots and the C code does not test `depth` against
them: a store at `depth = PATH_MAX` lies outside the array (`none`). -/
def stack_push (stack : List CStr) (token : CStr) : Option (List CStr) :=
  if stack.length < PATH_MAX then some (token :: stack) else none

/-- One pass through the body of the `while (token)` loop of `path_normalize`
(path.c lines 75-84). -/
def normalize_step (is_absolute : Bool) (stack : List CStr) (token : CStr) :
    Option (List CStr) :=
  if token = dot then some stack
  else if token = dotdot then
    if 0 < stack.length ∧ stack.head? ≠ some dotdot then some stack.tail
    else if !is_absolute then stack_push stack token
    else some stack
  else stack_push stack token

/-- The `while (token)` loop of `path_normalize` over the successive tokens. -/
def normalize_loop (is_absolute : Bool) : List CStr → List CStr → Option (List CStr)
  | [], stack => some stack
  | token :: rest, stack =>
    match normalize_step is_absolute stack token with
    | none => none
    | some stack1 => normalize_loop is_absolute rest stack1

/-- The copy loop of `path_normalize` (lines 104-112): every stacked segment,
with a `/` after each one but the last. The argument is in array order. -/
def join_segments : List CStr → CStr
  | [] => []
  | [s] => s
  | s :: t :: rest => s ++ '/' :: join_segments (t :: rest)

/-- The test `path[0] == '/'` (the first character of the empty string is the
NUL). -/
def first_is_slash (path : CStr) : Bool :=
  decide (path.head? = some '/')

/-- The end of `path_normalize` (lines 87-115) on the stack left by the loop:
`"/"` or `"."` when `depth == 0`, otherwise the segments in array order,
joined by `/`, after a `/` when the input was absolute. -/
def assemble (is_absolute : Bool) (stack : List CStr) : CStr :=
  if stack.length = 0 then (if is_absolute then ['/'] else ['.'])
  else (if is_absolute then ['/'] else []) ++ join_segments stack.reverse

/-- The function `path_normalize` of path.c on a non-NULL argument. -/
def path_normalize (path : CStr) : Option CStr :=
  match normalize_loop (first_is_slash path) (strtok_all path) [] with
  | none => none
  | some stack => some (assemble (first_is_slash path) stack)

/-! ### Notions used to state the properties of `path_normalize` -/

/-- A token: a non-empty string without `/`. -/
def IsToken (t : CStr) : Prop := t ≠ [] ∧ '/' ∉ t

/-- A named segment: a token that is neither `"."` nor `".."`. -/
def IsName (t : CStr) : Prop := t ≠ [] ∧ '/' ∉ t ∧ t ≠ dot ∧ t ≠ dotdot

/-- The body of the loop of `path_normalize` on a stack without a capacity:
what `normalize_step` computes whenever its store stays inside the array. -/
def resolve_step (is_absolute : Bool) (stack : List CStr) (token : CStr) : List CStr :=
  if token = dot then stack
  else if token = dotdot then
    if 0 < stack.length ∧ stack.head? ≠ some dotdot then stack.tail
    else if !is_absolute then token :: stack
    else stack
  else token :: stack

/-- The segments that survive the tokens, on a stack without a capacity
(`stack[depth-1]` first). -/
def resolve (is_absolute : Bool) : List CStr → List CStr → List CStr
  | [], stack => stack
  | token :: rest, stack => resolve is_absolute rest (resolve_step is_absolute stack token)

/-- The shape of the stack of `path_normalize` (`stack[depth-1]` first): named
segments above a run of `".."`, the run being empty for an absolute path. -/
def StackOK (is_absolute : Bool) : List CStr → Prop
  | [] => True
  | t :: s =>
    (IsName t ∨ (t = dotdot ∧ is_absolute = false ∧ ∀ x ∈ s, x = dotdot)) ∧
      StackOK is_absolute s

/-- A path of `k` segments `a`: `a/a/.../a`. -/
def deep_path (k : Nat) : CStr := join_segments (List.replicate k ['a'])

/-- A path of `k` segments `a` followed by `k` segments `..`:
`a/.../a/../.../..`. -/
def cancelled_path (k : Nat) : CStr :=
  join_segments (List.replicate k ['a'] ++ List.replicate k dotdot)

/-! ## Definitions: hash.c -/

/-- The macro `HASH_SIZE` of hash.h. -/
abbrev HASH_SIZE : Nat := 32

/-- The macro `HASH_HEX_SIZE` of hash.h. -/
abbrev HASH_HEX_SIZE : Nat := 65

/-- The struct `hash_t` of hash.h: `unsigned char data[HASH_SIZE]`. -/
@[ext]
structure hash_t where
  data : Fin HASH_SIZE → Fin 256

/-- The digit that `%x` prints for a value below 16. -/
def hex_digit (n : Nat) : Char :=
  if n < 10 then Char.ofNat (48 + n) else Char.ofNat (87 + n)

/-- The output of `sprintf(buf, "%02x", b)` for an `unsigned char` b: two
lower-case hexadecimal digits, the high nibble first. -/
def sprintf_02x (b : Fin 256) : CStr :=
  [hex_digit (b.val / 16), hex_digit (b.val % 16)]

/-- The `for` loop of `hash_to_hex` over the bytes of the digest: each `sprintf`
stores two digits at offset `2 * i` (and a NUL that the next call overwrites). -/
def to_hex_loop : List (Fin 256) → CStr
  | [] => []
  | b :: bs => sprintf_02x b ++ to_hex_loop bs

/-- The function `hash_to_hex` of hash.c on non-NULL arguments: the string left
in `hex_str`, terminated at index `HASH_HEX_SIZE - 1`. -/
def hash_to_hex (hash : hash_t) : CStr :=
  to_hex_loop (List.ofFn hash.data)

/-- The `isxdigit` of `<ctype.h>`: the characters `0-9`, `a-f` and `A-F`. -/
def isxdigit (c : Char) : Bool :=
  (48 ≤ c.toNat && c.toNat ≤ 57) || (97 ≤ c.toNat && c.toNat ≤ 102) ||
    (65 ≤ c.toNat && c.toNat ≤ 70)

/-- The value of a hexadecimal digit, in either case. -/
def hex_value (c : Char) : Nat :=
  if c.toNat ≤ 57 then c.toNat - 48
  else if 97 ≤ c.toNat then c.toNat - 87
  else c.toNat - 55

/-- The conversion `sscanf(s, "%2x", &byte)` on a string that starts with a
hexadecimal digit: at most two digits are read and `some` of their value is
stored (the call returns 1). `hash_from_hex` calls it only after `isxdigit` has
accepted every character, so the white space, sign and `0x` forms of `%x`
cannot occur; on them, as at the end of the string, the model reports a
matching failure (`none`: the call does not return 1). -/
def sscanf_2x (s : CStr) : Option Nat :=
  match s with
  | [] => none
  | [c1] => if isxdigit c1 then some (hex_value c1) else none
  | c1 :: c2 :: _ =>
    if isxdigit c1 then
      if isxdigit c2 then some (16 * hex_value c1 + hex_value c2) else some (hex_value c1)
    else none

/-- The second `for` loop of `hash_from_hex` (lines 66-73) over the indices
still to be filled: returns the return value together with `*out`. -/
def from_hex_fill (hex_str : CStr) : List (Fin HASH_SIZE) → hash_t → Int × hash_t
  | [], out => (0, out)
  | i :: rest, out =>
    match sscanf_2x (hex_str.drop (i.val * 2)) with
    | none => (-1, out)
    | some byte =>
      from_hex_fill hex_str rest
        ⟨Function.update out.data i ⟨byte % 256, Nat.mod_lt _ (by decide)⟩⟩

/-- The function `hash_from_hex` of hash.c on non-NULL arguments: the return
value and the content of `*out` after the call. -/
def hash_from_hex (hex_str : CStr) (out : hash_t) : Int × hash_t :=
  let len := hex_str.length
  if len ≠ HASH_HEX_SIZE - 1 then (-1, out)
  else if hex_str.any (fun c => !isxdigit c) then (-1, out)
  else from_hex_fill hex_str (List.finRange HASH_SIZE) out

/-- The function `hash_equals` of hash.c on non-NULL arguments:
`memcmp(a->data, b->data, HASH_SIZE) == 0`. -/
def hash_equals (a b : hash_t) : Int :=
  if List.ofFn a.data = List.ofFn b.data then 1 else 0

/-! ### SHA-256

`hash_compute` calls `SHA256` of OpenSSL, which is not part of the repository.
It is modelled by the algorithm of FIPS 180-4 on 32-bit words (`Nat` reduced
modulo `2 ^ 32`). -/

/-- Reduction to an unsigned 32-bit word. -/
def u32 (x : Nat) : Nat := x % 2 ^ 32

/-- Rotation of a 32-bit word to the right. -/
def rotr (x n : Nat) : Nat := u32 ((x >>> n) ||| (x <<< (32 - n)))

/-- The 64 round constants of SHA-256. -/
def sha_K : List Nat :=
  [0x428A2F98, 0x71374491, 0xB5C0FBCF, 0xE9B5DBA5, 0x3956C25B, 0x59F111F1, 0x923F82A4, 0xAB1C5ED5,
   0xD807AA98, 0x12835B01, 0x243185BE, 0x550C7DC3, 0x72BE5D74, 0x80DEB1FE, 0x9BDC06A7, 0xC19BF174,
   0xE49B69C1, 0xEFBE4786, 0x0FC19DC6, 0x240CA1CC, 0x2DE92C6F, 0x4A7484AA, 0x5CB0A9DC, 0x76F988DA,
   0x983E5152, 0xA831C66D, 0xB00327C8, 0xBF597FC7, 0xC6E00BF3, 0xD5A79147, 0x06CA6351, 0x14292967,
   0x27B70A85, 0x2E1B2138, 0x4D2C6DFC, 0x53380D13, 0x650A7354, 0x766A0ABB, 0x81C2C92E, 0x92722C85,
   0xA2BFE8A1, 0xA81A664B, 0xC24B8B70, 0xC76C51A3, 0xD192E819, 0xD6990624, 0xF40E3585, 0x106AA070,
   0x19A4C116, 0x1E376C08, 0x2748774C, 0x34B0BCB5, 0x391C0CB3, 0x4ED8AA4A, 0x5B9CCA4F, 0x682E6FF3,
   0x748F82EE, 0x78A5636F, 0x84C87814, 0x8CC70208, 0x90BEFFFA, 0xA4506CEB, 0xBEF9A3F7, 0xC67178F2]

/-- The padded message: the bytes, `0x80`, zero bytes up to 56 modulo 64, and
the bit length as 8 big-endian bytes. -/
def sha_pad (msg : List Nat) : List Nat :=
  let l := msg.length
  let k := (119 - l % 64) % 64
  msg ++ [0x80] ++ List.replicate k 0 ++
    (List.range 8).map (fun i => (8 * l) >>> (8 * (7 - i)) % 256)

/-- A big-endian 32-bit word. -/
def be32 (b0 b1 b2 b3 : Nat) : Nat := ((b0 * 256 + b1) * 256 + b2) * 256 + b3

/-- The big-endian words of a byte sequence. -/
def sha_words : List Nat → List Nat
  | b0 :: b1 :: b2 :: b3 :: rest => be32 b0 b1 b2 b3 :: sha_words rest
  | _ => []

/-- The function sigma-0 of FIPS 180-4. -/
def ssig0 (x : Nat) : Nat := rotr x 7 ^^^ rotr x 18 ^^^ (x >>> 3)

/-- The function sigma-1 of FIPS 180-4. -/
def ssig1 (x : Nat) : Nat := rotr x 17 ^^^ rotr x 19 ^^^ (x >>> 10)

/-- The function Sigma-0 of FIPS 180-4. -/
def bsig0 (x : Nat) : Nat := rotr x 2 ^^^ rotr x 13 ^^^ rotr x 22

/-- The function Sigma-1 of FIPS 180-4. -/
def bsig1 (x : Nat) : Nat := rotr x 6 ^^^ rotr x 11 ^^^ rotr x 25

/-- The function Ch of FIPS 180-4. -/
def sha_ch (x y z : Nat) : Nat := (x &&& y) ^^^ ((x ^^^ (2 ^ 32 - 1)) &&& z)

/-- The function Maj of FIPS 180-4. -/
def sha_maj (x y z : Nat) : Nat := (x &&& y) ^^^ (x &&& z) ^^^ (y &&& z)

/-- The message schedule, extended by `n` words; `w` holds the words so far,
the most recent one first. -/
def sha_schedule : Nat → List Nat → List Nat
  | 0, w => w
  | n + 1, w =>
    sha_schedule n
      (u32 (ssig1 (w.getD 1 0) + w.getD 6 0 + ssig0 (w.getD 14 0) + w.getD 15 0) :: w)

/-- The eight working variables of SHA-256. -/
structure ShaState where
  a : Nat
  b : Nat
  c : Nat
  d : Nat
  e : Nat
  f : Nat
  g : Nat
  h : Nat

/-- One round of the compression function, on a round constant and a
schedule word. -/
def sha_round (s : ShaState) (kw : Nat × Nat) : ShaState :=
  let t1 := s.h + bsig1 s.e + sha_ch s.e s.f s.g + kw.1 + kw.2
  let t2 := bsig0 s.a + sha_maj s.a s.b s.c
  { a := u32 (t1 + t2), b := s.a, c := s.b, d := s.c,
    e := u32 (s.d + t1), f := s.e, g := s.f, h := s.g }

/-- The compression of one 64-byte block into the hash state. -/
def sha_block (s : ShaState) (block : List Nat) : ShaState :=
  let w := (sha_schedule 48 (sha_words block).reverse).reverse
  let r := (sha_K.zip w).foldl sha_round s
  { a := u32 (s.a + r.a), b := u32 (s.b + r.b), c := u32 (s.c + r.c), d := u32 (s.d + r.d),
    e := u32 (s.e + r.e), f := u32 (s.f + r.f), g := u32 (s.g + r.g), h := u32 (s.h + r.h) }

/-- The compression of `n` successive 64-byte blocks. -/
def sha_blocks : Nat → ShaState → List Nat → ShaState
  | 0, s, _ => s
  | n + 1, s, bytes => sha_blocks n (sha_block s (bytes.take 64)) (bytes.drop 64)

/-- The four big-endian bytes of a 32-bit word. -/
def word_bytes (x : Nat) : List Nat :=
  [x >>> 24 % 256, x >>> 16 % 256, x >>> 8 % 256, x % 256]

/-- The SHA-256 digest (FIPS 180-4) of a byte sequence, as 32 bytes. -/
def SHA256 (msg : List Nat) : List Nat :=
  let p := sha_pad msg
  let s := sha_blocks (p.length / 64)
    ⟨0x6A09E667, 0xBB67AE85, 0x3C6EF372, 0xA54FF53A,
     0x510E527F, 0x9B05688C, 0x1F83D9AB, 0x5BE0CD19⟩ p
  word_bytes s.a ++ word_bytes s.b ++ word_bytes s.c ++ word_bytes s.d ++
    word_bytes s.e ++ word_bytes s.f ++ word_bytes s.g ++ word_bytes s.h

/-- The function `hash_compute` of hash.c on non-NULL pointers, `data` being the
`len` bytes of the buffer: the content of `*out` after the call. With `len == 0`
the function sets `errno` and returns without touching `*out`. -/
def hash_compute (data : List (Fin 256)) (out : hash_t) : hash_t :=
  if data.length = 0 then out
  else ⟨fun i => ⟨(SHA256 (data.map Fin.val)).getD i.val 0 % 256, Nat.mod_lt _ (by decide)⟩⟩

/-- The lower-case hexadecimal spelling of a byte sequence: two characters of
`0123456789abcdef` for each byte, the high nibble first. -/
def lower_hex (bytes : List Nat) : CStr :=
  match bytes with
  | [] => []
  | b :: bs =>
    "0123456789abcdef".toList.getD (b / 16) '0' ::
      "0123456789abcdef".toList.getD (b % 16) '0' :: lower_hex bs

/-- The characters of the class `[0-9a-fA-F]`. -/
def hex_class : List Char := "0123456789abcdefABCDEF".toList

/-! ## Definitions: the other functions of path.c -/

/-- The NUL character. -/
def nul : Char := Char.ofNat 0

/-- The function `path_join` of path.c on non-NULL arguments: `strcpy` of the
base, `strcat` of `"/"` when `need_separator` is set, `strcat` of the
component. -/
def path_join (base component : CStr) : CStr :=
  let base_len := base.length
  let need_separator : Bool :=
    decide (0 < base_len) && decide (base.getD (base_len - 1) nul ≠ '/')
  (base ++ (if need_separator then ['/'] else [])) ++ component

/-- The `strrchr` of `<string.h>`: the index of the last occurrence of `c` in
`s`, or `none` when the function returns NULL. -/
def strrchr (s : CStr) (c : Char) : Option Nat :=
  match s with
  | [] => none
  | x :: xs =>
    match strrchr xs c with
    | some i => some (i + 1)
    | none => if x = c then some 0 else none

/-- The function `path_basename` of path.c on a non-NULL argument. It has no
result where `path_normalize` has none. -/
def path_basename (path : CStr) : Option CStr :=
  if path = [] then some []
  else
    match path_normalize path with
    | none => none
    | some norm =>
      let base : CStr :=
        match strrchr norm '/' with
        | some i => norm.drop (i + 1)
        | none => norm
      if norm.head? = some '/' ∧ norm.tail = [] then some norm else some base

/-- The loops `while (q > tmp && *q == '/') q--` of `path_dirname`, started at
index `i` of `tmp`: the index at which the loop stops. -/
def back_over_slashes (tmp : CStr) : Nat → Nat
  | 0 => 0
  | i + 1 => if tmp.getD (i + 1) nul = '/' then back_over_slashes tmp i else i + 1

/-- The function `path_dirname` of path.c on a non-NULL argument. The first
loop stores a NUL over every trailing `/` it steps over, and `*(slash + 1) = 0`
cuts the copy after the index at which the second loop stops. -/
def path_dirname (path : CStr) : CStr :=
  if path = [] then ['.']
  else
    let len := path.length
    let tmp := path.take (back_over_slashes path (len - 1) + 1)
    if tmp.head? = some '/' ∧ tmp.tail = [] then tmp
    else
      match strrchr tmp '/' with
      | none => ['.']
      | some slash =>
        let cut := tmp.take (back_over_slashes tmp slash + 1)
        if cut = [] then ['/'] else cut

/-- The function `path_is_absolute` of path.c; `none` is the NULL pointer. -/
def path_is_absolute (path : Option CStr) : Int :=
  match path with
  | none => 0
  | some p => if p.head? = some '/' then 1 else 0

/-- The function `path_absolute` of path.c on a non-NULL argument, `cwd` being
the string that `getcwd` stores when it is called and succeeds. -/
def path_absolute (cwd path : CStr) : Option CStr :=
  if path_is_absolute (some path) ≠ 0 then path_normalize path
  else path_normalize (path_join cwd path)

/-- The value of `EINVAL` in `<errno.h>`. -/
def EINVAL : Int := 22

/-- The outcome of a call that returns a `char *`: the string returned (`none`
for NULL) and the value of `errno` after the call. -/
structure StrResult where
  ret : Option CStr
  errno : Int

/-- A call of `path_join`; `none` is the NULL pointer, `errno` the value of
`errno` before the call. -/
def path_join_call (base component : Option CStr) (errno : Int) : StrResult :=
  match base, component with
  | some b, some c => ⟨some (path_join b c), errno⟩
  | _, _ => ⟨none, EINVAL⟩

/-- A call of `path_normalize`. -/
def path_normalize_call (path : Option CStr) (errno : Int) : Option StrResult :=
  match path with
  | none => some ⟨none, EINVAL⟩
  | some p =>
    match path_normalize p with
    | none => none
    | some r => some ⟨some r, errno⟩

/-- A call of `path_basename`. -/
def path_basename_call (path : Option CStr) (errno : Int) : Option StrResult :=
  match path with
  | none => some ⟨none, errno⟩
  | some p =>
    match path_basename p with
    | none => none
    | some r => some ⟨some r, errno⟩

/-- A call of `path_dirname`. -/
def path_dirname_call (path : Option CStr) (errno : Int) : StrResult :=
  match path with
  | none => ⟨none, EINVAL⟩
  | some p => ⟨some (path_dirname p), errno⟩

/-- A call of `path_absolute`. `getcwd` is what the call of `getcwd` yields if
it is made: the working directory, or the `errno` it sets when it fails. -/
def path_absolute_call (getcwd : Except Int CStr) (path : Option CStr) (errno : Int) :
    Option StrResult :=
  match path with
  | none => some ⟨none, EINVAL⟩
  | some p =>
    if path_is_absolute (some p) ≠ 0 then
      match path_normalize p with
      | none => none
      | some r => some ⟨some r, errno⟩
    else
      match getcwd with
      | .error e => some ⟨none, e⟩
      | .ok cwd =>
        match path_normalize (path_join cwd p) with
        | none => none
        | some r => some ⟨some r, errno⟩

/-! ### Notions used to state the properties of `path_dirname` -/

/-- The string `s` without its trailing `/` characters. -/
def drop_trailing_slashes (s : CStr) : CStr :=
  (s.reverse.dropWhile (fun c => c = '/')).reverse

/-- The part `s` of the string `u`, stripped of trailing `/` characters without
ever removing the first character of `u`. -/
def strip_keeping_first (u s : CStr) : CStr :=
  if drop_trailing_slashes s = [] then u.take 1 else drop_trailing_slashes s

/-- The part of `t` that ends just before its last `/`. -/
def before_last_slash (t : CStr) : CStr :=
  ((t.reverse.dropWhile (fun c => c ≠ '/')).drop 1).reverse

/-- The directory name as the specification words it: `.` for the empty path;
otherwise, with `t` the path stripped of trailing `/`, `/` if `t` is `/`, `.`
if `t` has no `/`, and otherwise the part of `t` before its last `/`, stripped
of trailing `/`. Both strippings keep the first character of the string. -/
def dirname_words (p : CStr) : CStr :=
  if p = [] then ['.']
  else
    let t := strip_keeping_first p p
    if t = ['/'] then ['/']
    else if '/' ∉ t then ['.']
    else strip_keeping_first t (before_last_slash t)

/-! ## Definitions: the buffer written by `hash_to_hex` -/

/-- A character buffer, by offset. -/
abbrev Buffer := Nat → Char

/-- What `sprintf(buf + off, ...)` stores for the output `s`: its characters
and a terminating NUL. -/
def store_string (buf : Buffer) (off : Nat) : CStr → Buffer
  | [] => Function.update buf off nul
  | c :: cs => store_string (Function.update buf off c) (off + 1) cs

/-- The `for` loop of `hash_to_hex` from index `i` on, over the bytes still to
be written. -/
def to_hex_buffer_loop : List (Fin 256) → Nat → Buffer → Buffer
  | [], _, buf => buf
  | b :: bs, i, buf => to_hex_buffer_loop bs (i + 1) (store_string buf (i * 2) (sprintf_02x b))

/-- The content of `hex_str` after `hash_to_hex` on non-NULL arguments. -/
def hash_to_hex_buffer (hash : hash_t) (hex_str : Buffer) : Buffer :=
  Function.update (to_hex_buffer_loop (List.ofFn hash.data) 0 hex_str) (HASH_HEX_SIZE - 1) nul

/-- The C string found at offset `off` of a buffer, read over at most `n`
characters. -/
def read_cstr (buf : Buffer) : Nat → Nat → CStr
  | 0, _ => []
  | n + 1, off => if buf off = nul then [] else buf off :: read_cstr buf n (off + 1)

/-- The value of a hexadecimal digit in either case: its position in
`0123456789abcdef` once put in lower case. -/
def digit_value (c : Char) : Nat :=
  "0123456789abcdef".toList.indexOf c.toLower

/-- The digest whose bytes are `0x00, 0x01, ..., 0x1f`. -/
def digest_00_1f : hash_t :=
  ⟨fun i => ⟨i.val, Nat.lt_trans i.isLt (by decide)⟩⟩

/-! ## Definitions: calls of the hash functions with absent arguments -/

/-- What a call of `hash_from_hex` leaves behind: the return value, the content
of `*out` (`none` when `out` is NULL) and `errno`. -/
structure FromHexResult where
  ret : Int
  out : Option hash_t
  errno : Int

/-- A call of `hash_from_hex` (hash.c lines 47-75); `none` is the NULL pointer.
Every `return -1` of the function is preceded by `errno = EINVAL`. -/
def hash_from_hex_call (hex_str : Option CStr) (out : Option hash_t) (errno : Int) :
    FromHexResult :=
  match hex_str, out with
  | some s, some o =>
    let r := hash_from_hex s o
    ⟨r.1, some r.2, if r.1 = -1 then EINVAL else errno⟩
  | _, _ => ⟨-1, out, EINVAL⟩

/-- A call of `hash_equals` (hash.c lines 77-84); `none` is the NULL pointer. -/
def hash_equals_call (a b : Option hash_t) : Int :=
  match a, b with
  | some x, some y => hash_equals x y
  | _, _ => 0

/-- The digest that `SHA256(data, len, out->data)` stores for the message
`msg`. -/
def sha256_digest (msg : List (Fin 256)) : hash_t :=
  ⟨fun i => ⟨(SHA256 (msg.map Fin.val)).getD i.val 0 % 256, Nat.mod_lt _ (by decide)⟩⟩

/-- A call of `hash_compute` (hash.c lines 26-33): the content of `*out` after
the call (`none` when `out` is NULL) and `errno`. `data` is `none` for the NULL
pointer and otherwise the bytes of the buffer, of which there are at least
`len`. -/
def hash_compute_call (data : Option (List (Fin 256))) (len : Nat) (out : Option hash_t)
    (errno : Int) : Option hash_t × Int :=
  match data, out with
  | some bytes, some _ =>
    if len = 0 then (out, EINVAL)
    else (some (sha256_digest (bytes.take len)), errno)
  | _, _ => (out, EINVAL)

/-! ## Definitions: error.c

The catalog `infra/error.def`, from which both the enumeration `error_code_t`
and `error_table` are generated, is not among the sources: the table and the
enumerator `ERR_OK` are parameters of the functions that use them. -/

/-- The values of the enumeration `error_code_t`. -/
abbrev error_code_t := Int

/-- The struct `error_info_t` of error.c. -/
structure error_info_t where
  message : CStr
  code : error_code_t
  posix_errno : Int

/-- The function `error_string` of error.c: the `for` loop over the table, and
the literal returned after it. -/
def error_string (error_table : List error_info_t) (code : error_code_t) : CStr :=
  match error_table with
  | [] => "Unknow error".toList
  | e :: rest => if e.code = code then e.message else error_string rest code

/-- The thread-local `last_error` of the running thread, and its `errno`. -/
structure ErrorState where
  last_error : error_code_t
  errno : Int

/-- The `for` loop of `error_set` over the entries still to visit: the value of
`errno` after it. The loop has no `break`. -/
def error_set_loop (code : error_code_t) : List error_info_t → Int → Int
  | [], errno => errno
  | e :: rest, errno =>
    error_set_loop code rest (if e.code = code ∧ e.posix_errno ≠ 0 then e.posix_errno else errno)

/-- The function `error_set` of error.c. -/
def error_set (error_table : List error_info_t) (code : error_code_t) (s : ErrorState) :
    ErrorState :=
  ⟨code, error_set_loop code error_table s.errno⟩

/-- The function `error_get` of error.c: the value returned, and the state
after the call. -/
def error_get (s : ErrorState) : error_code_t × ErrorState := (s.last_error, s)

/-- The function `error_clear` of error.c. -/
def error_clear (ERR_OK : error_code_t) (s : ErrorState) : ErrorState :=
  ⟨ERR_OK, s.errno⟩

/-- The state of a thread before its first call: `last_error` is initialised
to `ERR_OK`. -/
def error_initial (ERR_OK : error_code_t) (errno : Int) : ErrorState := ⟨ERR_OK, errno⟩

/-- A call of `error_set` or of `error_clear`. -/
inductive ErrorCall where
  | set (code : error_code_t)
  | clear
deriving DecidableEq

/-- A sequence of calls made by one thread, in order. -/
def error_run (error_table : List error_info_t) (ERR_OK : error_code_t) :
    List ErrorCall → ErrorState → ErrorState
  | [], s => s
  | ErrorCall.set code :: rest, s => error_run error_table ERR_OK rest (error_set error_table code s)
  | ErrorCall.clear :: rest, s => error_run error_table ERR_OK rest (error_clear ERR_OK s)

/-- A catalog of three kinds, the last of which has no platform code. -/
def sample_table : List error_info_t :=
  [⟨"Success".toList, 0, 0⟩, ⟨"Invalid argument".toList, 1, 22⟩, ⟨"Corrupt object".toList, 2, 0⟩]

/-! ## Definitions: fs.c

The functions of fs.c call the platform (`fopen`, `fwrite`, `fclose`, `fread`,
`malloc`, `mkdir`, `dirname`). The regular files are modelled by a store, and
what the platform decides on its own is an argument of the function that asks
it. All functions return a `uint8_t`. -/

/-- Value of `<errno.h>` on Linux. -/
def ENOENT : Nat := 2

/-- Value of `<errno.h>` on Linux. -/
def EIO : Nat := 5

/-- Value of `<errno.h>` on Linux. -/
def ENOMEM : Nat := 12

/-- Value of `<errno.h>` on Linux. -/
def EACCES : Nat := 13

/-- Value of `<errno.h>` on Linux. -/
def EEXIST : Nat := 17

/-- The conversion of an `int` that is not negative to the return type
`uint8_t`. -/
def to_uint8 (x : Nat) : Nat := x % 256

/-- A regular file: its bytes, and whether the caller may open it for reading
and for writing. -/
structure FileNode where
  content : List (Fin 256)
  readable : Bool
  writable : Bool

/-- The regular files by path, and what the creation of a file at a path where
there is none yields: the `errno` of the failure, or the permissions (readable,
writable) of the new file. -/
structure FileStore where
  files : CStr → Option FileNode
  create : CStr → Except Nat (Bool × Bool)

/-- The store with the file at `path` replaced. -/
def FileStore.put (st : FileStore) (path : CStr) (f : FileNode) : FileStore :=
  ⟨fun p => if p = path then some f else st.files p, st.create⟩

/-- The call `fopen(path, "wb")`: the `errno` of the failure, or the store with
the file truncated to length zero or created. -/
def fopen_wb (st : FileStore) (path : CStr) : Except Nat FileStore :=
  match st.files path with
  | some f => if f.writable then Except.ok (st.put path ⟨[], f.readable, f.writable⟩)
              else Except.error EACCES
  | none =>
    match st.create path with
    | Except.error e => Except.error e
    | Except.ok (r, w) => Except.ok (st.put path ⟨[], r, w⟩)

/-- The file at `path` with its content replaced. -/
def FileStore.store (st : FileStore) (path : CStr) (bytes : List (Fin 256)) : FileStore :=
  match st.files path with
  | some f => st.put path ⟨bytes, f.readable, f.writable⟩
  | none => st

/-- The function `fs_write_file` of fs.c on non-NULL arguments: the store after
the call and the return value. `content` holds at least `size` bytes.
`fwrite_count` is the value `fwrite` returns, and `flushed` the number of bytes
that have reached the file when `fclose` returns; the function does not look at
the result of `fclose`. -/
def fs_write_file (st : FileStore) (path : CStr) (content : List (Fin 256)) (size : Nat)
    (fwrite_count flushed : Nat) : FileStore × Nat :=
  match fopen_wb st path with
  | Except.error e => (st, to_uint8 e)
  | Except.ok st1 =>
    let st2 := st1.store path ((content.take size).take flushed)
    if fwrite_count ≠ size then (st2, EIO) else (st2, 0)

/-- What `fs_read_file` leaves behind: the return value, and `*content` with
`*size` when it has stored them. -/
structure ReadResult where
  ret : Nat
  content : Option (List (Fin 256))
  size : Option Nat
deriving DecidableEq

/-- A return of `fs_read_file` before it has stored anything. -/
def read_failure (ret : Nat) : ReadResult := ⟨ret, none, none⟩

/-- The function `fs_read_file` of fs.c on non-NULL arguments, over regular
files. `malloc_ok` tells whether `malloc` returns a buffer, `fread_count` is the
value `fread` returns. The buffer holds the bytes read and a final NUL;
`content` is its first `len` bytes. -/
def fs_read_file (st : FileStore) (path : CStr) (malloc_ok : Bool) (fread_count : Nat) :
    ReadResult :=
  match st.files path with
  | none => read_failure (to_uint8 ENOENT)
  | some f =>
    if !f.readable then read_failure (to_uint8 EACCES)
    else
      let len := f.content.length
      if !malloc_ok then read_failure ENOMEM
      else if fread_count ≠ len then read_failure EIO
      else ⟨0, some (f.content.take len), some len⟩

/-- An empty store on which every creation succeeds, with the given
permissions. -/
def empty_store (readable writable : Bool) : FileStore :=
  ⟨fun _ => none, fun _ => Except.ok (readable, writable)⟩

/-- A store whose only file, `f`, may be written but not read by the caller. -/
def write_only_store : FileStore :=
  ⟨fun p => if p = ['f'] then some ⟨[], false, true⟩ else none,
   fun _ => Except.error EACCES⟩

/-- The part of the platform that `fs_mkdir` and `fs_mkdir_recursive` call:
`mkdir` on a state of the file system, which yields the new state and `none`
when it returns 0 or the `errno` it sets when it fails; `dirname` of
`<libgen.h>`; and the value of `errno` after the call
`fprintf(stderr, ...)` that reports a failure, as a function of its value
before the call (the same value when the message is written without an error,
the `errno` of the failed write otherwise). -/
structure DirPlatform (σ : Type) where
  mkdir : σ → CStr → σ × Option Nat
  dirname : CStr → CStr
  fprintf_errno : Nat → Nat

/-- The last statements of `fs_mkdir_recursive` (fs.c lines 57-63): the call of
`mkdir` on `path` and the test of `errno`; `return errno` comes after the call
of `fprintf`. -/
def mkdir_or_exists {σ : Type} (P : DirPlatform σ) (fs : σ) (path : CStr) : σ × Nat :=
  match P.mkdir fs path with
  | (fs1, some e) => if e ≠ EEXIST then (fs1, to_uint8 (P.fprintf_errno e)) else (fs1, 0)
  | (fs1, none) => (fs1, 0)

/-- The function `fs_mkdir_recursive` of fs.c on a non-NULL argument: the state
of the file system after the call, and the return value. `depth` is the number
of nested activations the stack affords; the result is `none` when the
recursion goes deeper. -/
def fs_mkdir_recursive {σ : Type} (P : DirPlatform σ) : Nat → σ → CStr → Option (σ × Nat)
  | 0, _, _ => none
  | depth + 1, fs, path =>
    let tmp := path.take (PATH_MAX - 1)
    let parent := P.dirname tmp
    if parent ≠ dot ∧ parent ≠ ['/'] then
      match fs_mkdir_recursive P depth fs parent with
      | none => none
      | some (fs1, res) =>
        if res ≠ 0 ∧ res ≠ EEXIST then some (fs1, res)
        else some (mkdir_or_exists P fs1 path)
    else some (mkdir_or_exists P fs path)

/-- The paths on which one call of `fs_mkdir_recursive` calls `mkdir` when no
call fails, in the order of the calls; `none` when the recursion goes deeper
than `depth`. -/
def mkdir_levels {σ : Type} (P : DirPlatform σ) : Nat → CStr → Option (List CStr)
  | 0, _ => none
  | depth + 1, path =>
    let parent := P.dirname (path.take (PATH_MAX - 1))
    if parent ≠ dot ∧ parent ≠ ['/'] then
      (mkdir_levels P depth parent).map (fun ls => ls ++ [path])
    else some [path]

/-- What the functions rely on from a file system that nothing else modifies:
the message on `stderr` leaves `errno` as it is, the `errno` of a failed `mkdir`
is a positive value below 256, a failed `mkdir` changes nothing, a directory
just created exists, and what exists still exists after another directory is
created. A path exists when `mkdir` reports `EEXIST` for it. -/
structure DirPlatform.Steady {σ : Type} (P : DirPlatform σ) : Prop where
  stderr_quiet : ∀ e, P.fprintf_errno e = e
  errno_range : ∀ fs p fs1 e, P.mkdir fs p = (fs1, some e) → 0 < e ∧ e < 256
  failure_keeps : ∀ fs p fs1 e, P.mkdir fs p = (fs1, some e) → fs1 = fs
  created_exists : ∀ fs p fs1, P.mkdir fs p = (fs1, none) → P.mkdir fs1 p = (fs1, some EEXIST)
  exists_persists : ∀ fs p fs1 q, P.mkdir fs p = (fs1, none) →
    P.mkdir fs q = (fs, some EEXIST) → P.mkdir fs1 q = (fs1, some EEXIST)

/-- The loops `for (runp = last_slash; runp != path; --runp) if (runp[-1] != '/') break;`
of the `dirname` of the GNU C library, started at index `r`: the index at which
the loop stops. -/
def slash_run_start (path : CStr) : Nat → Nat
  | 0 => 0
  | r + 1 => if path.getD r nul ≠ '/' then r + 1 else slash_run_start path r

/-- The `dirname` of `<libgen.h>` as the GNU C library implements it, on a
non-NULL argument; the library is not part of the repository. The result is the
path cut before the last `/` that a name follows and before the `/` that end
this part; `//` when the part is exactly two `/`, `/` when it is any other
number of `/`, and `.` when the path has no such `/`. -/
def gnu_dirname (path : CStr) : CStr :=
  let last_slash : Option Nat :=
    match strrchr path '/' with
    | none => none
    | some l =>
      if l ≠ 0 ∧ l + 1 = path.length then
        let runp := slash_run_start path l
        if runp ≠ 0 then strrchr (path.take runp) '/' else some l
      else some l
  match last_slash with
  | none => dot
  | some l =>
    let runp := slash_run_start path l
    if runp = 0 then (if l = 1 then path.take (l + 1) else path.take 1)
    else path.take runp

/-- A file system that is the list of the directories created so far, each
under the very string given to `mkdir`. -/
def list_platform : DirPlatform (List CStr) :=
  ⟨fun fs p => if p ∈ fs then (fs, some EEXIST) else (p :: fs, none), gnu_dirname, fun e => e⟩

/-! ## Definitions: the other functions of fs.c -/

/-- Value of `<errno.h>` on Linux. -/
def EPERM : Nat := 1

/-- Value of `<errno.h>` on Linux. -/
def EBADF : Nat := 9

/-- The function `fs_mkdir` of fs.c: the state of the file system after the
call, and the return value. `return errno` comes after the call of `fprintf`. -/
def fs_mkdir {σ : Type} (P : DirPlatform σ) (fs : σ) (path : CStr) : σ × Nat :=
  match P.mkdir fs path with
  | (fs1, some e) => (fs1, to_uint8 (P.fprintf_errno e))
  | (fs1, none) => (fs1, 0)

/-- The platform `list_platform` in a process whose `stderr` is closed: the
write of the message fails and sets `errno` to `EBADF`. -/
def closed_stderr_platform : DirPlatform (List CStr) :=
  ⟨list_platform.mkdir, gnu_dirname, fun _ => EBADF⟩

/-- The calls of `mkdir` in the order of the levels, ancestors first: a level
whose result is neither 0 nor `EEXIST` ends the calls, and its result is
returned; the result of the last level is returned as it is. -/
def mkdir_each {σ : Type} (P : DirPlatform σ) : List CStr → σ → σ × Nat
  | [], fs => (fs, 0)
  | [q], fs => mkdir_or_exists P fs q
  | q :: r :: rest, fs =>
    if (mkdir_or_exists P fs q).2 ≠ 0 ∧ (mkdir_or_exists P fs q).2 ≠ EEXIST then
      mkdir_or_exists P fs q
    else mkdir_each P (r :: rest) (mkdir_or_exists P fs q).1

/-- The mask `S_IFMT` of `<sys/stat.h>`. -/
def S_IFMT : Nat := 0o170000

/-- The file type `S_IFDIR` of `<sys/stat.h>`. -/
def S_IFDIR : Nat := 0o040000

/-- The file type `S_IFREG` of `<sys/stat.h>`. -/
def S_IFREG : Nat := 0o100000

/-- The macro `S_ISDIR` of `<sys/stat.h>`. -/
def S_ISDIR (st_mode : Nat) : Nat := if st_mode &&& S_IFMT = S_IFDIR then 1 else 0

/-- The macro `S_ISREG` of `<sys/stat.h>`. -/
def S_ISREG (st_mode : Nat) : Nat := if st_mode &&& S_IFMT = S_IFREG then 1 else 0

/-- The function `fs_is_dir` of fs.c; `none` is the NULL pointer. `stat` is
what the call `stat(path, &st)` yields: the `errno` it sets when it fails, or
`st.st_mode`. -/
def fs_is_dir (path : Option CStr) (stat : Except Nat Nat) : Nat :=
  match path with
  | none => to_uint8 EINVAL.toNat
  | some _ =>
    match stat with
    | Except.error errno => to_uint8 errno
    | Except.ok st_mode => to_uint8 (S_ISDIR st_mode)

/-- The function `fs_is_file` of fs.c; `none` is the NULL pointer. `stat` is
what the call `stat(path, &st)` yields: the `errno` it sets when it fails, or
`st.st_mode`. -/
def fs_is_file (path : Option CStr) (stat : Except Nat Nat) : Nat :=
  match path with
  | none => to_uint8 EINVAL.toNat
  | some _ =>
    match stat with
    | Except.error errno => to_uint8 errno
    | Except.ok st_mode => to_uint8 (S_ISREG st_mode)

/-- The content of a slot of the array `list` of `fs_list_dir`: what `malloc`
left there, the NULL pointer, or a string. -/
inductive Slot where
  | garbage
  | null
  | str (s : CStr)
deriving DecidableEq

/-- What `fs_list_dir` leaves behind: the array it returns (`none` for NULL),
and the value it has stored in `*count`, if any. -/
structure ListDirResult where
  list : Option (List Slot)
  count : Option Nat
deriving DecidableEq

/-- The first `while` loop of `fs_list_dir` (lines 168-173) over the names that
`readdir` returns: the value of `n` after it. -/
def counting_pass : List CStr → Nat → Nat
  | [], n => n
  | d_name :: rest, n =>
    if d_name = dot ∨ d_name = dotdot then counting_pass rest n
    else counting_pass rest (n + 1)

/-- The store `list[n] = v`: `none` when the index is not one of the array. -/
def array_store (list : List Slot) (n : Nat) (v : Slot) : Option (List Slot) :=
  if n < list.length then some (list.set n v) else none

/-- The second `while` loop of `fs_list_dir` (lines 187-202) over the names
that `readdir` returns: `none` when a store falls outside the array,
`some none` when `strdup` fails (`strdup_ok n` tells whether the `strdup` made
for index `n` returns a string), and otherwise the array and `n` after the
loop. The loop does not compare `n` with the number of slots. -/
def filling_pass (strdup_ok : Nat → Bool) :
    List CStr → Nat → List Slot → Option (Option (List Slot × Nat))
  | [], n, list => some (some (list, n))
  | d_name :: rest, n, list =>
    if d_name = dot ∨ d_name = dotdot then filling_pass strdup_ok rest n list
    else
      match array_store list n (if strdup_ok n then Slot.str d_name else Slot.null) with
      | none => none
      | some list1 =>
        if !strdup_ok n then some none
        else filling_pass strdup_ok rest (n + 1) list1

/-- The function `fs_list_dir` of fs.c on non-NULL arguments. `pass1` and
`pass2` are what the two calls of `opendir` and the `readdir` loops yield:
`none` when `opendir` returns NULL, otherwise the names in the order of
`readdir`. `malloc_ok` tells whether `malloc` returns an array. The result is
`none` when a store falls outside the array. -/
def fs_list_dir (pass1 pass2 : Option (List CStr)) (malloc_ok : Bool)
    (strdup_ok : Nat → Bool) : Option ListDirResult :=
  match pass1 with
  | none => some ⟨none, none⟩
  | some entries1 =>
    let n := counting_pass entries1 0
    if !malloc_ok then some ⟨none, none⟩
    else
      match array_store (List.replicate (n + 1) Slot.garbage) n Slot.null with
      | none => none
      | some list =>
        match pass2 with
        | none => some ⟨none, none⟩
        | some entries2 =>
          match filling_pass strdup_ok entries2 0 list with
          | none => none
          | some none => some ⟨none, none⟩
          | some (some (list1, n1)) => some ⟨some list1, some n1⟩

/-- The names of an enumeration without every `.` and `..`, in order. -/
def listed_names (entries : List CStr) : List CStr :=
  entries.filter (fun d => decide (¬ (d = dot ∨ d = dotdot)))

/-! ## Definitions: the length computed by `path_normalize` -/

/-- The loop of `path_normalize` at lines 92-94 over the stacked segments in
array order: the length of each segment, and 1 for each one but the last. -/
def stack_len_loop : List CStr → Nat
  | [] => 0
  | [s] => s.length
  | s :: t :: rest => s.length + 1 + stack_len_loop (t :: rest)

/-- The value of `stack_len` after line 94, for the stack in array order. -/
def stack_len (is_absolute : Bool) (stack : List CStr) : Nat :=
  (if is_absolute then 1 else 0) + stack_len_loop stack

/-- The characters that a list of segments takes when each one is followed by
one more character. -/
def total_weight : List CStr → Nat
  | [] => 0
  | t :: ts => t.length + 1 + total_weight ts

/-! ## Definitions: the depth of the stack of `path_normalize` -/

/-- The greatest depth that the stack of `path_normalize` reaches while the
tokens are read, on a stack without a capacity: the depth before each token and
the depth after the last one. -/
def peak_depth (is_absolute : Bool) : List CStr → List CStr → Nat
  | [], stack => stack.length
  | token :: rest, stack =>
    max stack.length (peak_depth is_absolute rest (resolve_step is_absolute stack token))

/-- The path keeps every store `stack[depth++] = token` of `path_normalize`
inside the array: the depth of the stack never exceeds `PATH_MAX`. -/
abbrev fits_stack (path : CStr) : Prop :=
  peak_depth (first_is_slash path) (strtok_all path) [] ≤ PATH_MAX

/-! ## Theorems -/

/-! ## Lemmas on paths -/

/-! ### Fields and tokens -/

theorem PATH_MAX_eq : PATH_MAX = 4096 := rfl

theorem segments_ne_nil (s : CStr) : segments s ≠ [] := by
  cases s with
  | nil => simp [segments]
  | cons c cs =>
    simp only [segments]
    split
    · simp
    · split <;> simp

theorem segments_append_slash (a b : CStr) :
    segments (a ++ '/' :: b) = segments a ++ segments b := by
  induction a with
  | nil => simp [segments]
  | cons c cs ih =>
    by_cases hc : c = '/'
    · simp [segments, hc, ih]
    · simp only [List.cons_append, segments, hc, if_false, ih]
      cases hs : segments cs with
      | nil => exact absurd hs (segments_ne_nil cs)
      | cons t ts => simp [ih, hs]

theorem segments_no_slash (t : CStr) (h : '/' ∉ t) : segments t = [t] := by
  induction t with
  | nil => rfl
  | cons c cs ih =>
    have hc : c ≠ '/' := fun e => h (by simp [e])
    have hcs : '/' ∉ cs := fun e => h (List.mem_cons_of_mem _ e)
    simp [segments, hc, ih hcs]

theorem mem_segments_no_slash (s t : CStr) (h : t ∈ segments s) : '/' ∉ t := by
  induction s generalizing t with
  | nil =>
    simp only [segments, List.mem_singleton] at h
    subst h
    simp
  | cons c cs ih =>
    by_cases hc : c = '/'
    · simp only [segments, hc, if_true, List.mem_cons] at h
      rcases h with h | h
      · subst h; simp
      · exact ih t h
    · simp only [segments, hc, if_false] at h
      cases hs : segments cs with
      | nil => exact absurd hs (segments_ne_nil cs)
      | cons u us =>
        rw [hs] at h
        simp only [List.mem_cons] at h
        rcases h with h | h
        · subst h
          have hu := ih u (by rw [hs]; exact List.mem_cons_self _ _)
          intro hm
          rcases List.mem_cons.1 hm with e | e
          · exact hc e.symm
          · exact hu e
        · exact ih t (by rw [hs]; exact List.mem_cons_of_mem _ h)

theorem strtok_all_append_slash (a b : CStr) :
    strtok_all (a ++ '/' :: b) = strtok_all a ++ strtok_all b := by
  simp [strtok_all, segments_append_slash]

theorem strtok_all_nil : strtok_all [] = [] := rfl

theorem strtok_all_slash_cons (b : CStr) : strtok_all ('/' :: b) = strtok_all b := by
  have := strtok_all_append_slash [] b
  simpa [strtok_all_nil] using this

theorem strtok_all_token (t : CStr) (h : IsToken t) : strtok_all t = [t] := by
  obtain ⟨h1, h2⟩ := h
  rw [strtok_all, segments_no_slash t h2]
  cases t with
  | nil => exact absurd rfl h1
  | cons c cs => rfl

theorem mem_strtok_all (s t : CStr) (h : t ∈ strtok_all s) : IsToken t := by
  simp only [strtok_all, List.mem_filter] at h
  refine ⟨?_, mem_segments_no_slash s t h.1⟩
  intro e
  subst e
  simp at h

theorem strtok_all_length_le (s : CStr) : (strtok_all s).length ≤ (segments s).length := by
  simp only [strtok_all]
  exact List.length_filter_le _ _

theorem IsName.isToken {t : CStr} (h : IsName t) : IsToken t := ⟨h.1, h.2.1⟩

theorem isToken_dot : IsToken dot := by
  constructor <;> decide

theorem isToken_dotdot : IsToken dotdot := by
  constructor <;> decide

theorem segments_join (ts : List CStr) (hne : ts ≠ []) (h : ∀ t ∈ ts, '/' ∉ t) :
    segments (join_segments ts) = ts := by
  induction ts with
  | nil => exact absurd rfl hne
  | cons s rest ih =>
    cases rest with
    | nil => simpa [join_segments] using segments_no_slash s (h s (List.mem_cons_self _ _))
    | cons t rest2 =>
      simp only [join_segments]
      rw [segments_append_slash, segments_no_slash s (h s (List.mem_cons_self _ _)),
        ih (by simp) (fun u hu => h u (List.mem_cons_of_mem _ hu))]
      rfl

theorem strtok_all_join (ts : List CStr) (h : ∀ t ∈ ts, IsToken t) :
    strtok_all (join_segments ts) = ts := by
  cases ts with
  | nil => rfl
  | cons s rest =>
    rw [strtok_all, segments_join _ (by simp) (fun t ht => (h t ht).2)]
    rw [List.filter_eq_self]
    intro t ht
    have := (h t ht).1
    cases t with
    | nil => exact absurd rfl this
    | cons c cs => rfl

theorem head?_join_segments (t : CStr) (rest : List CStr) (ht : t ≠ []) :
    (join_segments (t :: rest)).head? = t.head? := by
  cases t with
  | nil => exact absurd rfl ht
  | cons c cs => cases rest <;> simp [join_segments]

/-! ### The loop of `path_normalize` and its stack -/

theorem normalize_step_eq (abs : Bool) (stack : List CStr) (token : CStr)
    (h : stack.length < PATH_MAX) :
    normalize_step abs stack token = some (resolve_step abs stack token) := by
  simp only [normalize_step, resolve_step, stack_push, h, if_true]
  split
  · rfl
  · split
    · split
      · rfl
      · split <;> rfl
    · rfl

theorem resolve_step_length (abs : Bool) (stack : List CStr) (token : CStr) :
    (resolve_step abs stack token).length ≤ stack.length + 1 := by
  simp only [resolve_step]
  split
  · omega
  · split
    · split
      · rw [List.length_tail]; omega
      · split <;> simp
    · simp

theorem normalize_loop_eq (abs : Bool) (tokens stack : List CStr)
    (h : stack.length + tokens.length ≤ PATH_MAX) :
    normalize_loop abs tokens stack = some (resolve abs tokens stack) := by
  induction tokens generalizing stack with
  | nil => rfl
  | cons t rest ih =>
    simp only [List.length_cons] at h
    simp only [normalize_loop, resolve, normalize_step_eq abs stack t (by omega)]
    apply ih
    have := resolve_step_length abs stack t
    omega

theorem resolve_length (abs : Bool) (tokens stack : List CStr) :
    (resolve abs tokens stack).length ≤ stack.length + tokens.length := by
  induction tokens generalizing stack with
  | nil => simp [resolve]
  | cons t rest ih =>
    simp only [resolve, List.length_cons]
    have h1 := ih (resolve_step abs stack t)
    have h2 := resolve_step_length abs stack t
    omega

theorem resolve_append (abs : Bool) (a b stack : List CStr) :
    resolve abs (a ++ b) stack = resolve abs b (resolve abs a stack) := by
  induction a generalizing stack with
  | nil => rfl
  | cons t rest ih => simp [resolve, ih]

theorem normalize_loop_append (abs : Bool) (a b stack : List CStr) :
    normalize_loop abs (a ++ b) stack =
      (normalize_loop abs a stack).bind (normalize_loop abs b) := by
  induction a generalizing stack with
  | nil => rfl
  | cons t rest ih =>
    simp only [List.cons_append, normalize_loop]
    cases normalize_step abs stack t with
    | none => rfl
    | some s1 => exact ih s1

theorem path_normalize_eq (p : CStr) (h : (strtok_all p).length ≤ PATH_MAX) :
    path_normalize p =
      some (assemble (first_is_slash p) (resolve (first_is_slash p) (strtok_all p) [])) := by
  simp only [path_normalize, normalize_loop_eq (first_is_slash p) (strtok_all p) [] (by simpa using h)]

theorem resolve_step_name (abs : Bool) (stack : List CStr) (t : CStr) (h : IsName t) :
    resolve_step abs stack t = t :: stack := by
  simp [resolve_step, h.2.2.1, h.2.2.2]

theorem resolve_step_dot (abs : Bool) (stack : List CStr) :
    resolve_step abs stack dot = stack := by
  simp [resolve_step]

theorem resolve_step_pop (abs : Bool) (stack : List CStr) (t : CStr) (h : t ≠ dotdot) :
    resolve_step abs (t :: stack) dotdot = stack := by
  have hd : dotdot ≠ dot := by decide
  simp [resolve_step, hd, h]

theorem resolve_step_keep (stack : List CStr) (h : ∀ x ∈ stack, x = dotdot) :
    resolve_step false stack dotdot = dotdot :: stack := by
  have hd : dotdot ≠ dot := by decide
  cases stack with
  | nil => simp [resolve_step, hd]
  | cons x s =>
    have hx := h x (List.mem_cons_self _ _)
    subst hx
    simp [resolve_step, hd]

theorem StackOK_isToken (abs : Bool) (s : List CStr) (h : StackOK abs s) :
    ∀ t ∈ s, IsToken t := by
  induction s with
  | nil => simp
  | cons x s ih =>
    intro t ht
    rcases List.mem_cons.1 ht with e | e
    · subst e
      rcases h.1 with hn | ⟨hd, _, _⟩
      · exact hn.isToken
      · rw [hd]; exact isToken_dotdot
    · exact ih h.2 t e

theorem StackOK_suffix (abs : Bool) (a b : List CStr) (h : StackOK abs (a ++ b)) :
    StackOK abs b := by
  induction a with
  | nil => exact h
  | cons x a ih => exact ih h.2

theorem StackOK_abs_names (s : List CStr) (h : StackOK true s) : ∀ t ∈ s, IsName t := by
  induction s with
  | nil => simp
  | cons x s ih =>
    intro t ht
    rcases List.mem_cons.1 ht with e | e
    · subst e
      rcases h.1 with hn | ⟨_, hf, _⟩
      · exact hn
      · exact absurd hf (by decide)
    · exact ih h.2 t e

theorem StackOK_of_names (abs : Bool) (s : List CStr) (h : ∀ t ∈ s, IsName t) :
    StackOK abs s := by
  induction s with
  | nil => trivial
  | cons x s ih =>
    exact ⟨Or.inl (h x (List.mem_cons_self _ _)), ih (fun t ht => h t (List.mem_cons_of_mem _ ht))⟩

theorem StackOK_replicate (k : Nat) : StackOK false (List.replicate k dotdot) := by
  induction k with
  | zero => trivial
  | succ n ih =>
    rw [List.replicate_succ]
    exact ⟨Or.inr ⟨rfl, rfl, fun x hx => (List.mem_replicate.1 hx).2⟩, ih⟩

theorem StackOK_names_append (a : List CStr) (k : Nat) (h : ∀ t ∈ a, IsName t) :
    StackOK false (a ++ List.replicate k dotdot) := by
  induction a with
  | nil => exact StackOK_replicate k
  | cons x a ih =>
    exact ⟨Or.inl (h x (List.mem_cons_self _ _)), ih (fun t ht => h t (List.mem_cons_of_mem _ ht))⟩

theorem resolve_step_ok (abs : Bool) (s : List CStr) (t : CStr) (ht : IsToken t)
    (h : StackOK abs s) : StackOK abs (resolve_step abs s t) := by
  by_cases h1 : t = dot
  · subst h1; rw [resolve_step_dot]; exact h
  · by_cases h2 : t = dotdot
    · subst h2
      cases s with
      | nil =>
        cases abs with
        | true => simp [resolve_step, StackOK]
        | false =>
          rw [resolve_step_keep [] (by simp)]
          exact ⟨Or.inr ⟨rfl, rfl, by simp⟩, trivial⟩
      | cons x s =>
        by_cases hx : x = dotdot
        · subst hx
          rcases h.1 with hn | ⟨_, hf, hall⟩
          · exact absurd rfl hn.2.2.2
          · subst hf
            have hall2 : ∀ y ∈ dotdot :: s, y = dotdot := by
              intro y hy
              rcases List.mem_cons.1 hy with e | e
              · exact e
              · exact hall y e
            rw [resolve_step_keep _ hall2]
            exact ⟨Or.inr ⟨rfl, rfl, hall2⟩, h⟩
        · rw [resolve_step_pop abs s x hx]
          exact h.2
    · have hn : IsName t := ⟨ht.1, ht.2, h1, h2⟩
      rw [resolve_step_name abs s t hn]
      exact ⟨Or.inl hn, h⟩

theorem resolve_ok (abs : Bool) (tokens s : List CStr) (ht : ∀ t ∈ tokens, IsToken t)
    (h : StackOK abs s) : StackOK abs (resolve abs tokens s) := by
  induction tokens generalizing s with
  | nil => exact h
  | cons t rest ih =>
    exact ih _ (fun u hu => ht u (List.mem_cons_of_mem _ hu))
      (resolve_step_ok abs s t (ht t (List.mem_cons_self _ _)) h)

theorem resolve_step_fixed (abs : Bool) (s : List CStr) (x : CStr)
    (h : StackOK abs (x :: s)) : resolve_step abs s x = x :: s := by
  rcases h.1 with hn | ⟨hd, hf, hall⟩
  · exact resolve_step_name abs s x hn
  · subst hd; subst hf
    exact resolve_step_keep s hall

theorem resolve_fixed (abs : Bool) (xs s : List CStr) (h : StackOK abs (xs.reverse ++ s)) :
    resolve abs xs s = xs.reverse ++ s := by
  induction xs generalizing s with
  | nil => rfl
  | cons x xs ih =>
    have h2 : StackOK abs (xs.reverse ++ (x :: s)) := by
      simpa [List.reverse_cons, List.append_assoc] using h
    simp only [resolve]
    rw [resolve_step_fixed abs s x (StackOK_suffix abs _ _ h2), ih _ h2]
    simp [List.reverse_cons, List.append_assoc]

theorem resolve_stack_ok (p : CStr) :
    StackOK (first_is_slash p) (resolve (first_is_slash p) (strtok_all p) []) :=
  resolve_ok _ _ _ (fun t ht => mem_strtok_all p t ht) trivial

/-! ### The assembled result -/

theorem first_is_slash_join (ts : List CStr) (h : ∀ t ∈ ts, IsToken t) :
    first_is_slash (join_segments ts) = false := by
  cases ts with
  | nil => rfl
  | cons t rest =>
    obtain ⟨h1, h2⟩ := h t (List.mem_cons_self _ _)
    simp only [first_is_slash, head?_join_segments t rest h1]
    cases t with
    | nil => exact absurd rfl h1
    | cons c cs =>
      have hc : c ≠ '/' := fun e => h2 (by simp [e])
      simp [hc]

theorem first_is_slash_assemble (abs : Bool) (s : List CStr) (h : StackOK abs s) :
    first_is_slash (assemble abs s) = abs := by
  cases abs with
  | true =>
    by_cases hs : s.length = 0 <;> simp [assemble, hs, first_is_slash]
  | false =>
    by_cases hs : s.length = 0
    · simp [assemble, hs, first_is_slash]
    · simp only [assemble, hs, if_false, Bool.false_eq_true, List.nil_append]
      apply first_is_slash_join
      intro t ht
      exact StackOK_isToken false s h t (List.mem_reverse.1 ht)

theorem strtok_all_assemble (abs : Bool) (s : List CStr) (h : StackOK abs s)
    (hs : s ≠ []) : strtok_all (assemble abs s) = s.reverse := by
  have hl : ¬ s.length = 0 := fun e => hs (List.length_eq_zero.1 e)
  have htok : ∀ t ∈ s.reverse, IsToken t :=
    fun t ht => StackOK_isToken abs s h t (List.mem_reverse.1 ht)
  cases abs with
  | true =>
    simp only [assemble, hl, if_false, if_true, List.singleton_append]
    rw [strtok_all_slash_cons, strtok_all_join _ htok]
  | false =>
    simp only [assemble, hl, if_false, Bool.false_eq_true, List.nil_append]
    exact strtok_all_join _ htok

theorem strtok_all_assemble_length (abs : Bool) (s : List CStr) (h : StackOK abs s)
    (hcap : s.length ≤ PATH_MAX) : (strtok_all (assemble abs s)).length ≤ PATH_MAX := by
  by_cases hs : s = []
  · subst hs
    cases abs <;> decide
  · rw [strtok_all_assemble abs s h hs]
    simpa using hcap

theorem resolve_assemble (abs : Bool) (s : List CStr) (h : StackOK abs s) :
    resolve abs (strtok_all (assemble abs s)) [] = s := by
  by_cases hs : s = []
  · subst hs
    cases abs
    · have : strtok_all (assemble false []) = [dot] := by decide
      rw [this]
      simp [resolve, resolve_step_dot]
    · have : strtok_all (assemble true []) = [] := by decide
      rw [this]
      rfl
  · rw [strtok_all_assemble abs s h hs]
    have := resolve_fixed abs s.reverse [] (by simpa using h)
    simpa using this

theorem join_segments_ne_nil (ts : List CStr) (hne : ts ≠ []) (h : ∀ t ∈ ts, t ≠ []) :
    join_segments ts ≠ [] := by
  cases ts with
  | nil => exact absurd rfl hne
  | cons t rest =>
    have ht := h t (List.mem_cons_self _ _)
    cases t with
    | nil => exact absurd rfl ht
    | cons c cs => cases rest <;> simp [join_segments]

theorem assemble_ne_nil (abs : Bool) (s : List CStr) (h : StackOK abs s) :
    assemble abs s ≠ [] := by
  by_cases hs : s.length = 0
  · cases abs <;> simp [assemble, hs]
  · cases abs with
    | true => simp [assemble, hs]
    | false =>
      simp only [assemble, hs, if_false, Bool.false_eq_true, List.nil_append]
      apply join_segments_ne_nil
      · intro e
        exact hs (by simpa using congrArg List.length e)
      · intro t ht
        exact (StackOK_isToken false s h t (List.mem_reverse.1 ht)).1

theorem segments_assemble_abs (s : List CStr) (h : StackOK true s) (hs : s ≠ []) :
    segments (assemble true s) = [] :: s.reverse := by
  have hl : ¬ s.length = 0 := fun e => hs (List.length_eq_zero.1 e)
  simp only [assemble, hl, if_false, if_true, List.singleton_append]
  have := segments_append_slash [] (join_segments s.reverse)
  simp only [List.nil_append] at this
  rw [this, segments_join _ (by simpa using hs)
    (fun t ht => (StackOK_isToken true s h t (List.mem_reverse.1 ht)).2)]
  rfl

theorem segments_assemble_rel (s : List CStr) (h : StackOK false s) (hs : s ≠ []) :
    segments (assemble false s) = s.reverse := by
  have hl : ¬ s.length = 0 := fun e => hs (List.length_eq_zero.1 e)
  simp only [assemble, hl, if_false, Bool.false_eq_true, List.nil_append]
  exact segments_join _ (by simpa using hs)
    (fun t ht => (StackOK_isToken false s h t (List.mem_reverse.1 ht)).2)

/-- In array order a relative stack is a run of `".."` followed by segments
that are not `".."`. -/
theorem StackOK_reverse_shape (s : List CStr) (h : StackOK false s) :
    ∃ k rest, s.reverse = List.replicate k dotdot ++ rest ∧ dotdot ∉ rest := by
  induction s with
  | nil => exact ⟨0, [], rfl, by simp⟩
  | cons x s ih =>
    obtain ⟨k, rest, hk, hr⟩ := ih h.2
    rcases h.1 with hn | ⟨hd, _, hall⟩
    · refine ⟨k, rest ++ [x], by simp [List.reverse_cons, hk], ?_⟩
      intro hm
      rcases List.mem_append.1 hm with e | e
      · exact hr e
      · simp only [List.mem_singleton] at e
        exact hn.2.2.2 e.symm
    · subst hd
      refine ⟨s.length + 1, [], ?_, by simp⟩
      have hs : s = List.replicate s.length dotdot := List.eq_replicate_iff.2 ⟨rfl, hall⟩
      rw [List.reverse_cons, List.append_nil, List.replicate_succ']
      congr 1
      rw [hs, List.reverse_replicate, List.length_replicate]

/-! ### Paths that overflow the stack -/

theorem isName_a : IsName ['a'] := by
  refine ⟨by decide, by decide, by decide, by decide⟩

theorem resolve_names (abs : Bool) (xs s : List CStr) (h : ∀ t ∈ xs, IsName t) :
    resolve abs xs s = xs.reverse ++ s := by
  induction xs generalizing s with
  | nil => rfl
  | cons x xs ih =>
    simp only [resolve, resolve_step_name abs s x (h x (List.mem_cons_self _ _))]
    rw [ih _ (fun t ht => h t (List.mem_cons_of_mem _ ht))]
    simp

theorem resolve_pops (abs : Bool) (n : CStr) (hn : IsName n) (k : Nat) (s : List CStr) :
    resolve abs (List.replicate k dotdot) (List.replicate k n ++ s) = s := by
  induction k with
  | zero => rfl
  | succ k ih =>
    simp only [List.replicate_succ, List.cons_append, resolve]
    rw [resolve_step_pop abs _ n hn.2.2.2]
    exact ih

theorem normalize_loop_overflow (abs : Bool) (n : CStr) (hn : IsName n) (k : Nat)
    (s : List CStr) (hs : s.length ≤ PATH_MAX) (h : PATH_MAX < s.length + k) :
    normalize_loop abs (List.replicate k n) s = none := by
  induction k generalizing s with
  | zero => omega
  | succ k ih =>
    have hstep : normalize_step abs s n = stack_push s n := by
      simp [normalize_step, hn.2.2.1, hn.2.2.2]
    simp only [List.replicate_succ, normalize_loop, hstep, stack_push]
    by_cases hlt : s.length < PATH_MAX
    · simp only [hlt, if_true]
      apply ih
      · simp; omega
      · simp; omega
    · simp [hlt]

theorem tokens_replicate_a (k : Nat) : ∀ t ∈ List.replicate k ['a'], IsToken t := by
  intro t ht
  rw [(List.mem_replicate.1 ht).2]
  exact isName_a.isToken

theorem strtok_all_deep_path (k : Nat) : strtok_all (deep_path k) = List.replicate k ['a'] :=
  strtok_all_join _ (tokens_replicate_a k)

theorem path_normalize_deep_path (k : Nat) (h : PATH_MAX < k) :
    path_normalize (deep_path k) = none := by
  simp only [path_normalize, strtok_all_deep_path]
  rw [normalize_loop_overflow _ ['a'] isName_a k [] (by simp) (by simpa using h)]

theorem path_normalize_slash_deep_path (k : Nat) (h : PATH_MAX < k) :
    path_normalize ('/' :: deep_path k) = none := by
  simp only [path_normalize, strtok_all_slash_cons, strtok_all_deep_path]
  rw [normalize_loop_overflow _ ['a'] isName_a k [] (by simp) (by simpa using h)]

theorem path_normalize_deep_path_append (k : Nat) (h : PATH_MAX < k) (q : CStr) :
    path_normalize (deep_path k ++ '/' :: q) = none := by
  simp only [path_normalize, strtok_all_append_slash, strtok_all_deep_path,
    normalize_loop_append]
  rw [normalize_loop_overflow _ ['a'] isName_a k [] (by simp) (by simpa using h)]
  rfl

theorem first_is_slash_append_slash (p x y : CStr) :
    first_is_slash (p ++ '/' :: x) = first_is_slash (p ++ '/' :: y) := by
  cases p <;> simp [first_is_slash]

theorem strtok_all_dot : strtok_all dot = [dot] := rfl

theorem strtok_all_dotdot : strtok_all dotdot = [dotdot] := rfl

theorem deep_path_succ_head (k : Nat) (x : CStr) :
    (deep_path (k + 1) ++ x).head? = some 'a' := by
  cases k with
  | zero => rfl
  | succ n => simp [deep_path, List.replicate_succ, join_segments]

theorem path_normalize_deep_path_slash (k : Nat) (hk : k + 1 ≤ PATH_MAX) :
    path_normalize (deep_path (k + 1) ++ '/' :: []) = some (deep_path (k + 1)) := by
  have htok : strtok_all (deep_path (k + 1) ++ '/' :: []) = List.replicate (k + 1) ['a'] := by
    rw [strtok_all_append_slash, strtok_all_deep_path, strtok_all_nil, List.append_nil]
  have hf : first_is_slash (deep_path (k + 1) ++ '/' :: []) = false := by
    rw [first_is_slash, deep_path_succ_head]
    rfl
  rw [path_normalize_eq _ (by rw [htok, List.length_replicate]; exact hk), htok, hf,
    resolve_names _ _ _ (fun t ht => by rw [(List.mem_replicate.1 ht).2]; exact isName_a),
    List.append_nil]
  have hl : ¬ (List.replicate (k + 1) ['a']).reverse.length = 0 := by
    rw [List.length_reverse, List.length_replicate]; omega
  simp only [assemble, hl, if_false, Bool.false_eq_true, List.nil_append, List.reverse_reverse]
  rfl

theorem path_normalize_full_stack (k : Nat) (hk : k = PATH_MAX) (s : CStr) (hs : IsName s)
    (q : CStr) : path_normalize (deep_path k ++ '/' :: (s ++ '/' :: q)) = none := by
  have ht : strtok_all (deep_path k ++ '/' :: (s ++ '/' :: q)) =
      List.replicate k ['a'] ++ (List.replicate 1 s ++ strtok_all q) := by
    rw [strtok_all_append_slash, strtok_all_append_slash, strtok_all_deep_path,
      strtok_all_token s hs.isToken]
    rfl
  have h1 : ∀ abs, normalize_loop abs (List.replicate k ['a']) [] =
      some ((List.replicate k ['a']).reverse ++ []) := by
    intro abs
    rw [normalize_loop_eq _ _ _ (by rw [List.length_replicate, hk]; simp),
      resolve_names _ _ _ (fun t ht => by rw [(List.mem_replicate.1 ht).2]; exact isName_a)]
  have hlen : ((List.replicate k ['a']).reverse ++ ([] : List CStr)).length = PATH_MAX := by
    rw [List.append_nil, List.length_reverse, List.length_replicate, hk]
  unfold path_normalize
  rw [ht, normalize_loop_append, h1, Option.some_bind, normalize_loop_append,
    normalize_loop_overflow _ s hs 1 _ (by omega) (by omega)]
  rfl

theorem normalize_loop_dots (abs : Bool) (tokens stack : List CStr)
    (h : ∀ t ∈ tokens, t = dot) : normalize_loop abs tokens stack = some stack := by
  induction tokens with
  | nil => rfl
  | cons t rest ih =>
    have ht := h t (List.mem_cons_self _ _)
    subst ht
    simp only [normalize_loop, normalize_step, if_true]
    exact ih (fun u hu => h u (List.mem_cons_of_mem _ hu))

theorem normalize_loop_pops (abs : Bool) (n : CStr) (hn : IsName n) (k : Nat)
    (s : List CStr) :
    normalize_loop abs (List.replicate k dotdot) (List.replicate k n ++ s) = some s := by
  induction k with
  | zero => rfl
  | succ k ih =>
    have hd : dotdot ≠ dot := by decide
    have hstep : normalize_step abs (n :: (List.replicate k n ++ s)) dotdot =
        some (List.replicate k n ++ s) := by
      simp [normalize_step, hd, hn.2.2.2]
    simp only [List.replicate_succ, List.cons_append, normalize_loop, hstep]
    exact ih

theorem tokens_cancelled (k : Nat) :
    ∀ t ∈ List.replicate k ['a'] ++ List.replicate k dotdot, IsToken t := by
  intro t ht
  rcases List.mem_append.1 ht with h | h
  · rw [(List.mem_replicate.1 h).2]; exact isName_a.isToken
  · rw [(List.mem_replicate.1 h).2]; exact isToken_dotdot

theorem strtok_all_cancelled_path (k : Nat) :
    strtok_all (cancelled_path k) = List.replicate k ['a'] ++ List.replicate k dotdot :=
  strtok_all_join _ (tokens_cancelled k)

theorem first_is_slash_cancelled_path (k : Nat) : first_is_slash (cancelled_path k) = false :=
  first_is_slash_join _ (tokens_cancelled k)

theorem resolve_cancelled_path (k : Nat) :
    resolve false (strtok_all (cancelled_path k)) [] = [] := by
  have h1 : resolve false (List.replicate k ['a']) [] = List.replicate k ['a'] ++ [] := by
    rw [resolve_names _ _ _ (fun t ht => by rw [(List.mem_replicate.1 ht).2]; exact isName_a),
      List.reverse_replicate]
  rw [strtok_all_cancelled_path, resolve_append, h1]
  exact resolve_pops false ['a'] isName_a k []

theorem path_normalize_cancelled_path (k : Nat) (hk : k ≤ PATH_MAX) :
    path_normalize (cancelled_path k) = some dot := by
  have h1 : normalize_loop false (List.replicate k ['a']) [] =
      some (List.replicate k ['a'] ++ []) := by
    rw [normalize_loop_eq _ _ _ (by rw [List.length_replicate]; simpa using hk),
      resolve_names _ _ _ (fun t ht => by rw [(List.mem_replicate.1 ht).2]; exact isName_a),
      List.reverse_replicate]
  unfold path_normalize
  rw [first_is_slash_cancelled_path, strtok_all_cancelled_path, normalize_loop_append, h1,
    Option.some_bind, normalize_loop_pops false ['a'] isName_a k []]
  rfl

/-! ## Lemmas on digests -/

/-! ### Hexadecimal digits -/

theorem hex_digit_spec : ∀ n : Fin 16,
    isxdigit (hex_digit n.val) = true ∧ hex_value (hex_digit n.val) = n.val ∧
      hex_digit n.val = "0123456789abcdef".toList.getD n.val '0' := by
  decide

theorem isxdigit_hex_digit (n : Nat) (h : n < 16) : isxdigit (hex_digit n) = true :=
  (hex_digit_spec ⟨n, h⟩).1

theorem hex_value_hex_digit (n : Nat) (h : n < 16) : hex_value (hex_digit n) = n :=
  (hex_digit_spec ⟨n, h⟩).2.1

theorem hex_digit_eq_getD (n : Nat) (h : n < 16) :
    hex_digit n = "0123456789abcdef".toList.getD n '0' :=
  (hex_digit_spec ⟨n, h⟩).2.2

theorem sscanf_2x_sprintf (b : Fin 256) (rest : CStr) :
    sscanf_2x (sprintf_02x b ++ rest) = some b.val := by
  have h1 : b.val / 16 < 16 := by omega
  have h2 : b.val % 16 < 16 := by omega
  simp only [sprintf_02x, List.cons_append, List.nil_append, sscanf_2x,
    isxdigit_hex_digit _ h1, isxdigit_hex_digit _ h2, hex_value_hex_digit _ h1,
    hex_value_hex_digit _ h2, if_true]
  congr 1
  omega

theorem to_hex_loop_length (l : List (Fin 256)) : (to_hex_loop l).length = 2 * l.length := by
  induction l with
  | nil => rfl
  | cons b bs ih => simp [to_hex_loop, sprintf_02x, ih]; omega

theorem to_hex_loop_drop (l : List (Fin 256)) (i : Nat) :
    (to_hex_loop l).drop (i * 2) = to_hex_loop (l.drop i) := by
  induction l generalizing i with
  | nil => simp [to_hex_loop]
  | cons b bs ih =>
    cases i with
    | zero => simp
    | succ j =>
      have : (j + 1) * 2 = j * 2 + 2 := by omega
      rw [this]
      simp [to_hex_loop, sprintf_02x, ih]

theorem to_hex_loop_isxdigit (l : List (Fin 256)) :
    ∀ c ∈ to_hex_loop l, isxdigit c = true := by
  induction l with
  | nil => simp [to_hex_loop]
  | cons b bs ih =>
    intro c hc
    simp only [to_hex_loop, sprintf_02x, List.cons_append, List.nil_append,
      List.mem_cons] at hc
    rcases hc with rfl | rfl | hc
    · exact isxdigit_hex_digit _ (by omega)
    · exact isxdigit_hex_digit _ (by omega)
    · exact ih c hc

theorem hash_to_hex_length (d : hash_t) : (hash_to_hex d).length = 64 := by
  simp [hash_to_hex, to_hex_loop_length]

theorem sscanf_2x_hash_to_hex (d : hash_t) (i : Fin HASH_SIZE) :
    sscanf_2x ((hash_to_hex d).drop (i.val * 2)) = some (d.data i).val := by
  have hi : i.val < (List.ofFn d.data).length := by simp
  rw [hash_to_hex, to_hex_loop_drop, List.drop_eq_getElem_cons hi, to_hex_loop,
    sscanf_2x_sprintf]
  simp only [List.getElem_ofFn]

/-- Filling from a string whose pair at every listed index decodes to the byte
of `d` leaves `d` at the listed indices and the old content elsewhere. -/
theorem from_hex_fill_eq (hex : CStr) (d : hash_t)
    (l : List (Fin HASH_SIZE)) (out : hash_t)
    (h : ∀ i ∈ l, sscanf_2x (hex.drop (i.val * 2)) = some (d.data i).val) :
    from_hex_fill hex l out = (0, ⟨fun j => if j ∈ l then d.data j else out.data j⟩) := by
  induction l generalizing out with
  | nil => simp [from_hex_fill]
  | cons i rest ih =>
    have hi := h i (List.mem_cons_self _ _)
    simp only [from_hex_fill, hi]
    rw [ih _ (fun j hj => h j (List.mem_cons_of_mem _ hj))]
    congr 2
    funext j
    by_cases hj : j ∈ rest
    · simp [hj]
    · by_cases hji : j = i
      · subst hji
        simp [hj, Nat.mod_eq_of_lt (d.data j).isLt]
      · simp [hj, hji, Function.update_noteq hji]

theorem hash_from_hex_to_hex (d out : hash_t) :
    hash_from_hex (hash_to_hex d) out = (0, d) := by
  have hany : (hash_to_hex d).any (fun c => !isxdigit c) = false := by
    rw [List.any_eq_false]
    intro c hc
    simp [to_hex_loop_isxdigit _ c hc]
  simp only [hash_from_hex, hash_to_hex_length, hany]
  rw [from_hex_fill_eq (hash_to_hex d) d _ out (fun i _ => sscanf_2x_hash_to_hex d i)]
  simp

theorem isxdigit_iff_mem (c : Char) : isxdigit c = true ↔ c ∈ hex_class := by
  constructor
  · intro h
    have hc : c = Char.ofNat c.toNat := (Char.ofNat_toNat c).symm
    generalize hn : c.toNat = n at h hc
    simp only [isxdigit, Bool.or_eq_true, Bool.and_eq_true, decide_eq_true_eq, hn] at h
    subst hc
    have hcases : (48 ≤ n ∧ n ≤ 57) ∨ (97 ≤ n ∧ n ≤ 102) ∨ (65 ≤ n ∧ n ≤ 70) := by
      rcases h with (h | h) | h
      · exact Or.inl h
      · exact Or.inr (Or.inl h)
      · exact Or.inr (Or.inr h)
    clear hn h
    rcases hcases with ⟨h1, h2⟩ | ⟨h1, h2⟩ | ⟨h1, h2⟩ <;> interval_cases n <;> decide
  · intro h
    have hall : hex_class.all isxdigit = true := by decide
    exact List.all_eq_true.1 hall c h

theorem sscanf_2x_isSome (t : CStr) (c : Char) (rest : CStr) (ht : t = c :: rest)
    (hc : isxdigit c = true) : ∃ v, sscanf_2x t = some v := by
  subst ht
  cases rest with
  | nil => exact ⟨hex_value c, by simp [sscanf_2x, hc]⟩
  | cons c2 r =>
    by_cases h2 : isxdigit c2 = true
    · exact ⟨16 * hex_value c + hex_value c2, by simp [sscanf_2x, hc, h2]⟩
    · exact ⟨hex_value c, by simp [sscanf_2x, hc, h2]⟩

theorem from_hex_fill_ok (hex : CStr) (l : List (Fin HASH_SIZE)) (out : hash_t)
    (h : ∀ i ∈ l, ∃ v, sscanf_2x (hex.drop (i.val * 2)) = some v) :
    (from_hex_fill hex l out).1 = 0 := by
  induction l generalizing out with
  | nil => simp [from_hex_fill]
  | cons i rest ih =>
    obtain ⟨v, hv⟩ := h i (List.mem_cons_self _ _)
    simp only [from_hex_fill, hv]
    exact ih _ (fun j hj => h j (List.mem_cons_of_mem _ hj))

theorem hash_from_hex_valid (s : CStr) (out : hash_t) (hlen : s.length = 64)
    (hall : ∀ c ∈ s, isxdigit c = true) : (hash_from_hex s out).1 = 0 := by
  have hany : s.any (fun c => !isxdigit c) = false := by
    rw [List.any_eq_false]
    intro c hc
    simp [hall c hc]
  simp only [hash_from_hex, hlen, hany]
  apply from_hex_fill_ok
  intro i _
  have hi : i.val * 2 < s.length := by have h32 : i.val < 32 := i.isLt; omega
  refine sscanf_2x_isSome _ (s.get ⟨i.val * 2, hi⟩) (s.drop (i.val * 2 + 1)) ?_ ?_
  · exact List.drop_eq_getElem_cons hi
  · exact hall _ (List.get_mem _ _ _)

/-! ### SHA-256 and its hexadecimal spelling -/

theorem to_hex_loop_eq_lower_hex (l : List (Fin 256)) :
    to_hex_loop l = lower_hex (l.map Fin.val) := by
  induction l with
  | nil => rfl
  | cons b bs ih =>
    simp only [to_hex_loop, sprintf_02x, List.map_cons, lower_hex, ih, List.cons_append,
      List.nil_append]
    rw [hex_digit_eq_getD _ (by omega), hex_digit_eq_getD _ (by omega)]

theorem word_bytes_lt (x b : Nat) (h : b ∈ word_bytes x) : b < 256 := by
  simp only [word_bytes, List.mem_cons, List.mem_singleton, List.not_mem_nil, or_false] at h
  rcases h with h | h | h | h <;> subst h <;> exact Nat.mod_lt _ (by decide)

theorem SHA256_length (msg : List Nat) : (SHA256 msg).length = 32 := by
  simp [SHA256, word_bytes]

theorem SHA256_lt (msg : List Nat) (b : Nat) (h : b ∈ SHA256 msg) : b < 256 := by
  simp only [SHA256, List.mem_append] at h
  rcases h with ((((((h | h) | h) | h) | h) | h) | h) | h <;> exact word_bytes_lt _ _ h

theorem ofFn_getD_map_val (L : List Nat) (hlen : L.length = 32) (hlt : ∀ b ∈ L, b < 256) :
    (List.ofFn (fun i : Fin HASH_SIZE =>
      (⟨L.getD i.val 0 % 256, Nat.mod_lt _ (by decide)⟩ : Fin 256))).map Fin.val = L := by
  apply List.ext_getElem
  · simp [hlen]
  · intro n h1 h2
    simp only [List.getElem_map, List.getElem_ofFn]
    rw [List.getD_eq_getElem _ _ h2]
    exact Nat.mod_eq_of_lt (hlt _ (List.getElem_mem h2))

theorem hash_to_hex_compute (data : List (Fin 256)) (out : hash_t) (h : data ≠ []) :
    hash_to_hex (hash_compute data out) = lower_hex (SHA256 (data.map Fin.val)) := by
  have hl : ¬ data.length = 0 := by
    intro h0
    exact h (List.length_eq_zero.1 h0)
  simp only [hash_to_hex, hash_compute, hl, if_false, to_hex_loop_eq_lower_hex]
  rw [ofFn_getD_map_val _ (SHA256_length _) (SHA256_lt _)]

/-! ## The claims -/

/-- C2. Hex round trip: for every 32-byte digest `d` (and whatever the output
digest held before), `hash_from_hex` applied to the 64-character string written
by `hash_to_hex d` returns 0 and leaves exactly `d` in the output, so that
`hash_equals` on the two returns 1. -/
theorem C2_hex_round_trip (d out : hash_t) :
    (hash_to_hex d).length = 64 ∧
      (hash_from_hex (hash_to_hex d) out).1 = 0 ∧
      (hash_from_hex (hash_to_hex d) out).2 = d ∧
      hash_equals d (hash_from_hex (hash_to_hex d) out).2 = 1 := by
  rw [hash_from_hex_to_hex]
  simp [hash_to_hex_length, hash_equals]

/-- C3. For every string `s` and every prior content of the output digest,
`hash_from_hex` returns -1 exactly when the length of `s` is not 64 or `s`
contains a character outside `[0-9a-fA-F]`, and it returns 0 in every other
case. -/
theorem C3_from_hex_fails_iff (s : CStr) (out : hash_t) :
    ((hash_from_hex s out).1 = -1 ↔ (s.length ≠ 64 ∨ ∃ c ∈ s, c ∉ hex_class)) ∧
      ((hash_from_hex s out).1 = -1 ∨ (hash_from_hex s out).1 = 0) := by
  by_cases hlen : s.length = 64
  · by_cases hall : ∀ c ∈ s, isxdigit c = true
    · have h0 := hash_from_hex_valid s out hlen hall
      refine ⟨?_, Or.inr h0⟩
      rw [h0]
      constructor
      · intro h; exact absurd h (by decide)
      · rintro (h | ⟨c, hc, hn⟩)
        · exact absurd hlen h
        · exact absurd ((isxdigit_iff_mem c).1 (hall c hc)) hn
    · have hany : s.any (fun c => !isxdigit c) = true := by
        rw [List.any_eq_true]
        push_neg at hall
        obtain ⟨c, hc, hx⟩ := hall
        exact ⟨c, hc, by simpa using hx⟩
      have hm1 : (hash_from_hex s out).1 = -1 := by
        simp [hash_from_hex, hlen, hany]
      refine ⟨?_, Or.inl hm1⟩
      rw [hm1]
      refine ⟨fun _ => Or.inr ?_, fun _ => rfl⟩
      push_neg at hall
      obtain ⟨c, hc, hx⟩ := hall
      exact ⟨c, hc, fun hmem => hx ((isxdigit_iff_mem c).2 hmem)⟩
  · have hm1 : (hash_from_hex s out).1 = -1 := by
      simp [hash_from_hex, hlen]
    exact ⟨by rw [hm1]; exact ⟨fun _ => Or.inl hlen, fun _ => rfl⟩, Or.inl hm1⟩

/-- C4. `hash_compute` followed by `hash_to_hex` spells the SHA-256 digest: for
every non-empty byte sequence the output is the lower-case hexadecimal SHA-256
digest (FIPS 180-4) of that sequence, it has 64 characters, and for the five
bytes of "hello" it is
2cf24dba5fb0a30e26e83b2ac5b9e29e1b161e5c1fa7425e73043362938b9824. -/
theorem C4_compute_to_hex_is_sha256 :
    (∀ (data : List (Fin 256)) (out : hash_t), data ≠ [] →
      hash_to_hex (hash_compute data out) = lower_hex (SHA256 (data.map Fin.val)) ∧
        (hash_to_hex (hash_compute data out)).length = 64) ∧
    (∀ out : hash_t, hash_to_hex (hash_compute [104, 101, 108, 108, 111] out) =
      ("2cf24dba5fb0a30e26e83b2ac5b9e29e1b161e5c1fa7425e73043362938b9824".toList)) := by
  refine ⟨fun data out h => ⟨hash_to_hex_compute data out h, hash_to_hex_length _⟩, ?_⟩
  intro out
  rw [hash_to_hex_compute _ _ (by decide)]
  decide

/-- The general statement of C4 applied to the three bytes of "abc". -/
theorem C4_compute_to_hex_is_sha256_witness :
    ([97, 98, 99] : List (Fin 256)) ≠ [] ∧
      hash_to_hex (hash_compute [97, 98, 99] ⟨fun _ => 0⟩) =
        ("ba7816bf8f01cfea414140de5dae2223b00361a396177a9cb410ff61f20015ad".toList) := by
  refine ⟨by decide, ?_⟩
  rw [(C4_compute_to_hex_is_sha256.1 [97, 98, 99] ⟨fun _ => 0⟩ (by decide)).1]
  decide

/-! ## Lemmas on the other path functions -/

theorem getD_last_eq (base : CStr) (h : base ≠ []) :
    some (base.getD (base.length - 1) nul) = base.getLast? := by
  rw [List.getLast?_eq_getElem?, List.getD_eq_getElem?_getD]
  have hl : base.length - 1 < base.length := by
    have := List.length_pos.2 h
    omega
  rw [List.getElem?_eq_getElem hl]
  rfl

theorem need_separator_iff (base : CStr) :
    (decide (0 < base.length) && decide (base.getD (base.length - 1) nul ≠ '/')) = true ↔
      (base ≠ [] ∧ base.getLast? ≠ some '/') := by
  by_cases h : base = []
  · subst h
    simp
  · have hpos : 0 < base.length := List.length_pos.2 h
    have hlast := getD_last_eq base h
    rw [← hlast]
    simp only [Bool.and_eq_true, decide_eq_true_eq, ne_eq, Option.some.injEq]
    exact ⟨fun hx => ⟨h, hx.2⟩, fun hx => ⟨hpos, hx.2⟩⟩

theorem path_join_eq (base component : CStr) :
    path_join base component =
      base ++ (if base ≠ [] ∧ base.getLast? ≠ some '/' then ['/'] else []) ++ component := by
  show (base ++ (if (decide (0 < base.length) &&
      decide (base.getD (base.length - 1) nul ≠ '/')) = true then ['/'] else [])) ++ component = _
  by_cases hc : base ≠ [] ∧ base.getLast? ≠ some '/'
  · rw [if_pos ((need_separator_iff base).2 hc), if_pos hc]
  · rw [if_neg (fun e => hc ((need_separator_iff base).1 e)), if_neg hc]

/-! ### `path_dirname` -/

theorem drop_trailing_slashes_append_slash (s : CStr) :
    drop_trailing_slashes (s ++ ['/']) = drop_trailing_slashes s := by
  simp [drop_trailing_slashes, List.dropWhile_cons]

theorem drop_trailing_slashes_append_other (s : CStr) (c : Char) (h : c ≠ '/') :
    drop_trailing_slashes (s ++ [c]) = s ++ [c] := by
  simp [drop_trailing_slashes, List.dropWhile_cons, h]

theorem strip_keeping_first_append_slash (u s : CStr) :
    strip_keeping_first u (s ++ ['/']) = strip_keeping_first u s := by
  simp only [strip_keeping_first, drop_trailing_slashes_append_slash]

theorem take_succ_eq (s : CStr) (i : Nat) (h : i < s.length) :
    s.take (i + 1) = s.take i ++ [s.getD i nul] := by
  rw [List.take_succ, List.getD_eq_getElem?_getD, List.getElem?_eq_getElem h]
  rfl

/-- The loop that steps back over `/` cuts the string where stripping its part
up to the starting index, first character kept, cuts it. -/
theorem take_back_over_slashes (s : CStr) (i : Nat) (h : i < s.length) :
    s.take (back_over_slashes s i + 1) = strip_keeping_first s (s.take (i + 1)) := by
  induction i with
  | zero =>
    have h1 : s.take 1 = [s.getD 0 nul] := by
      rw [take_succ_eq s 0 h]; rfl
    show s.take (0 + 1) = strip_keeping_first s (s.take (0 + 1))
    rw [Nat.zero_add, h1]
    by_cases hc : s.getD 0 nul = '/'
    · have hd : drop_trailing_slashes ['/'] = [] := by decide
      rw [hc, strip_keeping_first, if_pos hd, h1, hc]
    · have h2 := drop_trailing_slashes_append_other [] (s.getD 0 nul) hc
      simp only [List.nil_append] at h2
      rw [strip_keeping_first, h2, if_neg (by simp)]
  | succ i ih =>
    have hi : i < s.length := by omega
    rw [take_succ_eq s (i + 1) h]
    by_cases hc : s.getD (i + 1) nul = '/'
    · simp only [back_over_slashes, hc, if_true]
      rw [strip_keeping_first_append_slash]
      exact ih hi
    · simp only [back_over_slashes, hc, if_false]
      rw [take_succ_eq s (i + 1) h]
      have h2 := drop_trailing_slashes_append_other (s.take (i + 1)) _ hc
      simp only [strip_keeping_first, h2]
      simp

theorem strrchr_none (t : CStr) (c : Char) : strrchr t c = none ↔ c ∉ t := by
  induction t with
  | nil => simp [strrchr]
  | cons x xs ih =>
    simp only [strrchr]
    cases hs : strrchr xs c with
    | some i =>
      have : ¬ c ∉ xs := fun e => by rw [ih.2 e] at hs; exact Option.noConfusion hs
      simp only [List.mem_cons, not_or]
      constructor
      · intro e; exact Option.noConfusion e
      · intro e; exact absurd e.2 this
    | none =>
      have hx := ih.1 hs
      by_cases hc : x = c
      · subst hc; simp
      · simp only [hc, if_false, List.mem_cons, not_or, true_iff]
        exact ⟨fun e => hc e.symm, hx⟩

theorem strrchr_some (t : CStr) (c : Char) (k : Nat) (h : strrchr t c = some k) :
    ∃ a b, t = a ++ c :: b ∧ c ∉ b ∧ k = a.length := by
  induction t generalizing k with
  | nil => simp [strrchr] at h
  | cons x xs ih =>
    simp only [strrchr] at h
    cases hs : strrchr xs c with
    | some i =>
      rw [hs] at h
      obtain ⟨a, b, hab, hb, hk⟩ := ih i hs
      refine ⟨x :: a, b, by rw [hab]; rfl, hb, ?_⟩
      simp only [Option.some.injEq] at h
      simp [← h, hk]
    | none =>
      rw [hs] at h
      by_cases hc : x = c
      · simp only [hc, if_true, Option.some.injEq] at h
        exact ⟨[], xs, by rw [hc]; rfl, (strrchr_none xs c).1 hs, by simp [← h]⟩
      · simp [hc] at h

theorem before_last_slash_eq (a b : CStr) (hb : '/' ∉ b) :
    before_last_slash (a ++ '/' :: b) = a := by
  have h1 : (b.reverse ++ '/' :: a.reverse).dropWhile (fun c => c ≠ '/') = '/' :: a.reverse := by
    have hall : ∀ x ∈ b.reverse, (decide (x ≠ '/')) = true := by
      intro x hx
      have : x ≠ '/' := fun e => hb (e ▸ List.mem_reverse.1 hx)
      simpa using this
    rw [List.dropWhile_append_of_pos hall]
    simp [List.dropWhile_cons]
  simp only [before_last_slash, List.reverse_append, List.reverse_cons, List.append_assoc,
    List.singleton_append]
  rw [h1]
  simp

theorem strip_keeping_first_ne_nil (u s : CStr) (h : u ≠ []) : strip_keeping_first u s ≠ [] := by
  unfold strip_keeping_first
  split
  · cases u with
    | nil => exact absurd rfl h
    | cons c cs => simp
  · assumption

theorem head_tail_iff (t : CStr) : (t.head? = some '/' ∧ t.tail = []) ↔ t = ['/'] := by
  cases t with
  | nil => simp
  | cons c cs => simp

theorem dirname_first_stage (p : CStr) (h : p ≠ []) :
    p.take (back_over_slashes p (p.length - 1) + 1) = strip_keeping_first p p := by
  have hpos : 0 < p.length := List.length_pos.2 h
  rw [take_back_over_slashes p (p.length - 1) (by omega)]
  have : p.length - 1 + 1 = p.length := by omega
  rw [this, List.take_length]

theorem path_dirname_eq_words (p : CStr) : path_dirname p = dirname_words p := by
  unfold path_dirname dirname_words
  by_cases h : p = []
  · simp [h]
  · simp only [h, if_false]
    rw [dirname_first_stage p h]
    have hne : strip_keeping_first p p ≠ [] := strip_keeping_first_ne_nil p p h
    generalize strip_keeping_first p p = t at hne ⊢
    by_cases ht : t = ['/']
    · simp [ht]
    · have ht2 : ¬ (t.head? = some '/' ∧ t.tail = []) := fun e => ht ((head_tail_iff t).1 e)
      simp only [ht2, if_false, ht]
      cases hs : strrchr t '/' with
      | none =>
        have := (strrchr_none t '/').1 hs
        simp [this]
      | some k =>
        obtain ⟨a, b, hab, hb, hk⟩ := strrchr_some t '/' k hs
        have hmem : '/' ∈ t := by rw [hab]; simp
        have hklt : k < t.length := by rw [hab, hk]; simp
        have hcut : t.take (back_over_slashes t k + 1) =
            strip_keeping_first t (before_last_slash t) := by
          rw [take_back_over_slashes t k hklt]
          have htk : t.take (k + 1) = a ++ ['/'] := by
            rw [hab, hk]
            simp [List.take_append_eq_append_take]
          have hbl : before_last_slash t = a := by
            rw [hab]
            exact before_last_slash_eq a b hb
          rw [htk, strip_keeping_first_append_slash, hbl]
        simp only [hmem, not_true_eq_false, if_false]
        rw [hcut]
        simp [strip_keeping_first_ne_nil t _ hne]

theorem strip_keeping_first_self_append_slash (p : CStr) (h : p ≠ []) :
    strip_keeping_first (p ++ ['/']) (p ++ ['/']) = strip_keeping_first p p := by
  have ht : (p ++ ['/']).take 1 = p.take 1 := by
    cases p with
    | nil => exact absurd rfl h
    | cons c cs => rfl
  simp only [strip_keeping_first, drop_trailing_slashes_append_slash, ht]

theorem dirname_words_append_slash (p : CStr) (h : p ≠ []) :
    dirname_words (p ++ ['/']) = dirname_words p := by
  have hne : p ++ ['/'] ≠ [] := by simp
  simp only [dirname_words, hne, h, if_false, strip_keeping_first_self_append_slash p h]

/-! ### The shape of a normalized path -/

theorem mem_tail_append_cons (xs ys : List CStr) (y : CStr) (h : xs ≠ []) :
    y ∈ (xs ++ y :: ys).tail := by
  cases xs with
  | nil => exact absurd rfl h
  | cons x xs => simp

theorem empty_segment_of_double_slash (a b : CStr) :
    [] ∈ (segments (a ++ '/' :: '/' :: b)).tail := by
  rw [segments_append_slash]
  have : segments ('/' :: b) = [] :: segments b := by simp [segments]
  rw [this]
  exact mem_tail_append_cons _ _ _ (segments_ne_nil a)

theorem empty_segment_of_trailing_slash (a : CStr) :
    [] ∈ (segments (a ++ ['/'])).tail := by
  rw [segments_append_slash]
  exact mem_tail_append_cons _ _ _ (segments_ne_nil a)

theorem StackOK_no_dot (abs : Bool) (s : List CStr) (h : StackOK abs s) : dot ∉ s := by
  induction s with
  | nil => simp
  | cons x s ih =>
    intro hm
    rcases List.mem_cons.1 hm with e | e
    · rcases h.1 with hn | ⟨hd, _, _⟩
      · exact hn.2.2.1 e.symm
      · rw [hd] at e
        exact absurd e (by decide)
    · exact ih h.2 e

theorem segments_assemble_tail (abs : Bool) (s : List CStr) (h : StackOK abs s) (hs : s ≠ []) :
    ∀ t ∈ (segments (assemble abs s)).tail, t ≠ [] := by
  intro t ht
  have hin : t ∈ s := by
    cases abs with
    | true =>
      rw [segments_assemble_abs s h hs] at ht
      exact List.mem_reverse.1 ht
    | false =>
      rw [segments_assemble_rel s h hs] at ht
      exact List.mem_reverse.1 (List.mem_of_mem_tail ht)
  exact (StackOK_isToken abs s h t hin).1

theorem assemble_nil_cases (abs : Bool) : assemble abs [] = ['/'] ∨ assemble abs [] = ['.'] := by
  cases abs
  · exact Or.inr rfl
  · exact Or.inl rfl

/-- The three properties of an assembled stack: no `//`, no trailing `/` but in
`/`, no segment `.` but in `.`. -/
theorem assemble_shape (abs : Bool) (s : List CStr) (h : StackOK abs s) :
    (∀ a b : CStr, assemble abs s ≠ a ++ '/' :: '/' :: b) ∧
    ((assemble abs s).getLast? = some '/' → assemble abs s = ['/']) ∧
    (dot ∈ segments (assemble abs s) → assemble abs s = dot) := by
  by_cases hs : s = []
  · subst hs
    refine ⟨?_, ?_, ?_⟩
    · intro a b e
      have hl := congrArg List.length e
      rcases assemble_nil_cases abs with h1 | h1 <;> rw [h1] at hl <;> simp at hl <;> omega
    · cases abs
      · intro e; exact absurd e (by decide)
      · intro _; rfl
    · cases abs
      · intro _; rfl
      · intro e; exact absurd e (by decide)
  · have htail := segments_assemble_tail abs s h hs
    refine ⟨?_, ?_, ?_⟩
    · intro a b e
      have := empty_segment_of_double_slash a b
      rw [← e] at this
      exact htail [] this rfl
    · intro e
      obtain ⟨ys, hys⟩ := List.getLast?_eq_some_iff.1 e
      have := empty_segment_of_trailing_slash ys
      rw [← hys] at this
      exact absurd rfl (htail [] this)
    · intro e
      have hd : dot ∈ s := by
        cases abs with
        | true =>
          rw [segments_assemble_abs s h hs] at e
          rcases List.mem_cons.1 e with e1 | e1
          · exact absurd e1 (by decide)
          · exact List.mem_reverse.1 e1
        | false =>
          rw [segments_assemble_rel s h hs] at e
          exact List.mem_reverse.1 e
      exact absurd hd (StackOK_no_dot abs s h)

/-! ### `path_basename` -/

theorem segments_getLast_after_slash (a b : CStr) (hb : '/' ∉ b) :
    (segments (a ++ '/' :: b)).getLast? = some b := by
  rw [segments_append_slash, segments_no_slash b hb, List.getLast?_concat]

theorem path_basename_of_normalize (p norm : CStr) (hp : p ≠ []) (hn : path_normalize p = some norm) :
    ∃ b, path_basename p = some b ∧
      (norm = ['/'] → b = ['/']) ∧
      (norm ≠ ['/'] → '/' ∉ b ∧ (norm = b ∨ ∃ a, norm = a ++ '/' :: b) ∧
        (segments norm).getLast? = some b) := by
  unfold path_basename
  simp only [hp, if_false, hn]
  by_cases h1 : norm = ['/']
  · subst h1
    exact ⟨['/'], by decide, fun _ => rfl, fun e => absurd rfl e⟩
  · have h2 : ¬ (norm.head? = some '/' ∧ norm.tail = []) := fun e => h1 ((head_tail_iff norm).1 e)
    simp only [h2, if_false]
    cases hs : strrchr norm '/' with
    | none =>
      have hno := (strrchr_none norm '/').1 hs
      refine ⟨norm, rfl, fun e => absurd e h1, fun _ => ⟨hno, Or.inl rfl, ?_⟩⟩
      rw [segments_no_slash norm hno]
      rfl
    | some k =>
      obtain ⟨a, b, hab, hb, hk⟩ := strrchr_some norm '/' k hs
      have hdrop : norm.drop (k + 1) = b := by
        rw [hab, hk]
        have : a ++ '/' :: b = (a ++ ['/']) ++ b := by simp
        rw [this]
        have hl : a.length + 1 = (a ++ ['/']).length := by simp
        rw [hl, List.drop_left]
      refine ⟨b, by simp only [hdrop], fun e => absurd e h1, fun _ => ⟨hb, Or.inr ⟨a, hab⟩, ?_⟩⟩
      rw [hab]
      exact segments_getLast_after_slash a b hb

theorem path_basename_deep_path (k : Nat) (h : PATH_MAX < k) (hk : 0 < k) :
    path_basename (deep_path k) = none := by
  have hne : deep_path k ≠ [] := by
    apply join_segments_ne_nil
    · intro e
      have := congrArg List.length e
      simp at this
      omega
    · intro t ht
      exact (tokens_replicate_a k t ht).1
  unfold path_basename
  simp only [hne, if_false, path_normalize_deep_path k h]

/-! ### `path_absolute` -/

theorem first_is_slash_iff (p : CStr) : first_is_slash p = true ↔ p.head? = some '/' := by
  simp [first_is_slash]

theorem path_is_absolute_ne_zero (p : CStr) :
    path_is_absolute (some p) ≠ 0 ↔ p.head? = some '/' := by
  by_cases h : p.head? = some '/' <;> simp [path_is_absolute, h]

theorem path_absolute_of_abs (cwd p : CStr) (h : p.head? = some '/') :
    path_absolute cwd p = path_normalize p := by
  unfold path_absolute
  rw [if_pos ((path_is_absolute_ne_zero p).2 h)]

theorem path_absolute_of_rel (cwd p : CStr) (h : p.head? ≠ some '/') :
    path_absolute cwd p = path_normalize (path_join cwd p) := by
  have : ¬ path_is_absolute (some p) ≠ 0 := fun e => h ((path_is_absolute_ne_zero p).1 e)
  unfold path_absolute
  rw [if_neg this]

theorem path_absolute_call_ok (cwd p : CStr) (errno : Int) :
    path_absolute_call (.ok cwd) (some p) errno =
      (path_absolute cwd p).map (fun r => ⟨some r, errno⟩) := by
  dsimp only [path_absolute_call, path_absolute]
  by_cases h : path_is_absolute (some p) ≠ 0
  · rw [if_pos h, if_pos h]
    cases path_normalize p <;> rfl
  · rw [if_neg h, if_neg h]
    cases path_normalize (path_join cwd p) <;> rfl

theorem head?_path_join (cwd p : CStr) (h : cwd.head? = some '/') :
    (path_join cwd p).head? = some '/' := by
  rw [path_join_eq]
  cases cwd with
  | nil => simp at h
  | cons c cs => simpa using h

theorem strtok_all_append_nil_slash (b : CStr) : strtok_all (b ++ ['/']) = strtok_all b := by
  rw [strtok_all_append_slash, strtok_all_nil, List.append_nil]

theorem strtok_all_path_join (b c : CStr) :
    strtok_all (path_join b c) = strtok_all b ++ strtok_all c := by
  rw [path_join_eq]
  by_cases hb : b = []
  · subst hb
    simp [strtok_all_nil]
  · by_cases hl : b.getLast? = some '/'
    · obtain ⟨ys, hys⟩ := List.getLast?_eq_some_iff.1 hl
      have hc : ¬ (b ≠ [] ∧ b.getLast? ≠ some '/') := fun e => e.2 hl
      rw [if_neg hc, List.append_nil, hys, strtok_all_append_nil_slash]
      have : ys ++ ['/'] ++ c = ys ++ '/' :: c := by simp
      rw [this, strtok_all_append_slash]
    · have hc : b ≠ [] ∧ b.getLast? ≠ some '/' := ⟨hb, hl⟩
      rw [if_pos hc]
      have : b ++ ['/'] ++ c = b ++ '/' :: c := by simp
      rw [this, strtok_all_append_slash]

theorem resolve_step_other (abs : Bool) (stack : List CStr) (t : CStr) (h1 : t ≠ dot)
    (h2 : t ≠ dotdot) : resolve_step abs stack t = t :: stack := by
  simp [resolve_step, h1, h2]

theorem resolve_no_dotdot (abs : Bool) (tp s : List CStr) (h : ∀ t ∈ tp, t ≠ dotdot) :
    resolve abs tp s = (tp.filter (fun t => decide (t ≠ dot))).reverse ++ s := by
  induction tp generalizing s with
  | nil => rfl
  | cons t rest ih =>
    have hrest : ∀ u ∈ rest, u ≠ dotdot := fun u hu => h u (List.mem_cons_of_mem _ hu)
    by_cases hd : t = dot
    · subst hd
      simp only [resolve, resolve_step_dot]
      rw [ih _ hrest]
      simp
    · simp only [resolve, resolve_step_other abs s t hd (h t (List.mem_cons_self _ _))]
      rw [ih _ hrest]
      simp [hd]

theorem join_segments_append_exists (a b : List CStr) :
    ∃ rest, join_segments (a ++ b) = join_segments a ++ rest := by
  induction a with
  | nil => exact ⟨join_segments b, rfl⟩
  | cons s a ih =>
    cases a with
    | nil =>
      cases b with
      | nil => exact ⟨[], by simp [join_segments]⟩
      | cons t b => exact ⟨'/' :: join_segments (t :: b), by simp [join_segments]⟩
    | cons t a =>
      obtain ⟨rest, hrest⟩ := ih
      refine ⟨rest, ?_⟩
      have hrest2 : join_segments (t :: (a ++ b)) = join_segments (t :: a) ++ rest := hrest
      show s ++ '/' :: join_segments (t :: (a ++ b)) = (s ++ '/' :: join_segments (t :: a)) ++ rest
      rw [hrest2]
      simp

theorem assemble_extends_cwd (segs names : List CStr) :
    ∃ rest, assemble true (names.reverse ++ segs.reverse) =
      ('/' :: join_segments segs) ++ rest := by
  by_cases h : (names.reverse ++ segs.reverse).length = 0
  · have hs : segs = [] := by
      simp only [List.length_append, List.length_reverse] at h
      exact List.length_eq_zero.1 (by omega)
    have hn : names = [] := by
      simp only [List.length_append, List.length_reverse] at h
      exact List.length_eq_zero.1 (by omega)
    subst hs
    subst hn
    exact ⟨[], rfl⟩
  · obtain ⟨rest, hrest⟩ := join_segments_append_exists segs names
    refine ⟨rest, ?_⟩
    simp only [assemble, h, if_false, if_true, List.reverse_append, List.reverse_reverse, hrest]
    simp

/-! ## Lemmas on the buffer of `hash_to_hex` and on digit values -/

theorem store_string_two (buf : Buffer) (off : Nat) (c1 c2 : Char) (j : Nat) :
    store_string buf off [c1, c2] j =
      if j = off then c1 else if j = off + 1 then c2 else if j = off + 2 then nul else buf j := by
  simp only [store_string, Function.update_apply]
  by_cases h0 : j = off
  · subst h0
    have h1 : ¬ j = j + 1 + 1 := by omega
    have h2 : ¬ j = j + 1 := by omega
    simp [h1, h2]
  · by_cases h1 : j = off + 1
    · subst h1
      have h2 : ¬ off + 1 = off + 1 + 1 := by omega
      simp [h2]
    · by_cases h2 : j = off + 2
      · subst h2
        simp
      · have h3 : ¬ j = off + 1 + 1 := by omega
        simp [h0, h1, h2, h3]

theorem to_hex_buffer_loop_below (bs : List (Fin 256)) (i : Nat) (buf : Buffer) (j : Nat)
    (h : j < i * 2) : to_hex_buffer_loop bs i buf j = buf j := by
  induction bs generalizing i buf with
  | nil => rfl
  | cons b bs ih =>
    simp only [to_hex_buffer_loop]
    rw [ih (i + 1) _ (by omega), sprintf_02x, store_string_two,
      if_neg (by omega), if_neg (by omega), if_neg (by omega)]

theorem to_hex_buffer_loop_above (bs : List (Fin 256)) (i : Nat) (buf : Buffer) (j : Nat)
    (h : (i + bs.length) * 2 < j) : to_hex_buffer_loop bs i buf j = buf j := by
  induction bs generalizing i buf with
  | nil => rfl
  | cons b bs ih =>
    simp only [List.length_cons] at h
    simp only [to_hex_buffer_loop]
    rw [ih (i + 1) _ (by omega), sprintf_02x, store_string_two,
      if_neg (by omega), if_neg (by omega), if_neg (by omega)]

theorem to_hex_buffer_loop_digit (bs : List (Fin 256)) (i : Nat) (buf : Buffer) (k : Nat)
    (h : k < 2 * bs.length) :
    to_hex_buffer_loop bs i buf (i * 2 + k) = (to_hex_loop bs).getD k nul := by
  induction bs generalizing i buf k with
  | nil => simp at h
  | cons b bs ih =>
    simp only [List.length_cons] at h
    simp only [to_hex_buffer_loop, to_hex_loop, sprintf_02x, List.cons_append, List.nil_append]
    match k, h with
    | 0, _ =>
      rw [to_hex_buffer_loop_below bs (i + 1) _ _ (by omega), store_string_two,
        if_pos (by omega)]
      rfl
    | 1, _ =>
      rw [to_hex_buffer_loop_below bs (i + 1) _ _ (by omega), store_string_two,
        if_neg (by omega), if_pos (by omega)]
      rfl
    | k + 2, h =>
      have e : i * 2 + (k + 2) = (i + 1) * 2 + k := by omega
      rw [e, ih (i + 1) _ k (by omega)]
      rfl

theorem to_hex_buffer_loop_nul (bs : List (Fin 256)) (i : Nat) (buf : Buffer)
    (h : 0 < bs.length) : to_hex_buffer_loop bs i buf ((i + bs.length) * 2) = nul := by
  induction bs generalizing i buf with
  | nil => simp at h
  | cons b bs ih =>
    simp only [to_hex_buffer_loop, List.length_cons]
    cases bs with
    | nil =>
      simp only [to_hex_buffer_loop, List.length_nil, sprintf_02x]
      rw [store_string_two, if_neg (by omega), if_neg (by omega), if_pos (by omega)]
    | cons c cs =>
      have e : (i + ((c :: cs).length + 1)) * 2 = (i + 1 + (c :: cs).length) * 2 := by omega
      rw [e]
      exact ih (i + 1) _ (by simp)

theorem read_cstr_eq (s : CStr) (buf : Buffer) (off n : Nat)
    (hs : ∀ k, k < s.length → buf (off + k) = s.getD k nul) (hnn : ∀ c ∈ s, c ≠ nul)
    (hend : buf (off + s.length) = nul) (hn : s.length < n) : read_cstr buf n off = s := by
  induction s generalizing off n with
  | nil =>
    cases n with
    | zero => rfl
    | succ n =>
      simp only [List.length_nil, Nat.add_zero] at hend
      simp [read_cstr, hend]
  | cons c cs ih =>
    cases n with
    | zero => simp at hn
    | succ n =>
      have h0 : buf off = c := by simpa using hs 0 (by simp)
      have hc : c ≠ nul := hnn c (List.mem_cons_self _ _)
      simp only [read_cstr, h0, hc, if_false]
      congr 1
      apply ih
      · intro k hk
        have := hs (k + 1) (by simpa using hk)
        have e : off + 1 + k = off + (k + 1) := by omega
        rw [e, this]
        rfl
      · exact fun x hx => hnn x (List.mem_cons_of_mem _ hx)
      · have e : off + 1 + cs.length = off + (c :: cs).length := by simp; omega
        rw [e]; exact hend
      · simpa using hn

theorem hex_digit_lower (n : Nat) (h : n < 16) : hex_digit n ∈ "0123456789abcdef".toList := by
  have : ∀ m : Fin 16, hex_digit m.val ∈ "0123456789abcdef".toList := by decide
  exact this ⟨n, h⟩

theorem hex_digit_ne_nul (n : Nat) (h : n < 16) : hex_digit n ≠ nul := by
  have : ∀ m : Fin 16, hex_digit m.val ≠ nul := by decide
  exact this ⟨n, h⟩

theorem to_hex_loop_mem (l : List (Fin 256)) :
    ∀ c ∈ to_hex_loop l, c ∈ "0123456789abcdef".toList ∧ c ≠ nul := by
  induction l with
  | nil => simp [to_hex_loop]
  | cons b bs ih =>
    intro c hc
    simp only [to_hex_loop, sprintf_02x, List.cons_append, List.nil_append,
      List.mem_cons] at hc
    rcases hc with rfl | rfl | hc
    · exact ⟨hex_digit_lower _ (by omega), hex_digit_ne_nul _ (by omega)⟩
    · exact ⟨hex_digit_lower _ (by omega), hex_digit_ne_nul _ (by omega)⟩
    · exact ih c hc

theorem hash_to_hex_pair (d : hash_t) (i : Fin HASH_SIZE) :
    (hash_to_hex d).drop (i.val * 2) =
      hex_digit ((d.data i).val / 16) :: hex_digit ((d.data i).val % 16) ::
        (hash_to_hex d).drop (i.val * 2 + 2) := by
  have hi : i.val < (List.ofFn d.data).length := by simp
  have h1 : (hash_to_hex d).drop (i.val * 2) = to_hex_loop ((List.ofFn d.data).drop i.val) := by
    rw [hash_to_hex, to_hex_loop_drop]
  have h2 : (hash_to_hex d).drop (i.val * 2 + 2) =
      to_hex_loop ((List.ofFn d.data).drop (i.val + 1)) := by
    have e : i.val * 2 + 2 = (i.val + 1) * 2 := by omega
    rw [hash_to_hex, e, to_hex_loop_drop]
  rw [h1, h2, List.drop_eq_getElem_cons hi, to_hex_loop, sprintf_02x]
  simp only [List.getElem_ofFn, List.cons_append, List.nil_append]

theorem getD_of_drop_eq (s : CStr) (n : Nat) (c : Char) (rest : CStr)
    (h : s.drop n = c :: rest) : s.getD n nul = c := by
  have hlt : n < s.length := by
    by_contra hge
    rw [List.drop_eq_nil_of_le (by omega)] at h
    exact List.noConfusion h
  rw [List.drop_eq_getElem_cons hlt] at h
  rw [List.getD_eq_getElem _ _ hlt]
  exact (List.cons.inj h).1

theorem hash_to_hex_buffer_read (d : hash_t) (buf : Buffer) :
    read_cstr (hash_to_hex_buffer d buf) HASH_HEX_SIZE 0 = hash_to_hex d ∧
      hash_to_hex_buffer d buf (HASH_HEX_SIZE - 1) = nul ∧
      ∀ j, HASH_HEX_SIZE - 1 < j → hash_to_hex_buffer d buf j = buf j := by
  have hlen := hash_to_hex_length d
  refine ⟨?_, ?_, ?_⟩
  · apply read_cstr_eq
    · intro k hk
      rw [hlen] at hk
      have hne : ¬ 0 + k = HASH_HEX_SIZE - 1 := by simp only [HASH_HEX_SIZE]; omega
      simp only [hash_to_hex_buffer, Function.update_apply, hne, if_false]
      have := to_hex_buffer_loop_digit (List.ofFn d.data) 0 buf k (by simp; omega)
      simpa [hash_to_hex] using this
    · exact fun c hc => (to_hex_loop_mem _ c hc).2
    · rw [hlen]
      simp [hash_to_hex_buffer]
    · rw [hlen]
      decide
  · simp [hash_to_hex_buffer]
  · intro j hj
    have hne : ¬ j = HASH_HEX_SIZE - 1 := by omega
    simp only [hash_to_hex_buffer, Function.update_apply, hne, if_false]
    apply to_hex_buffer_loop_above
    simp only [HASH_HEX_SIZE] at hj
    simp
    omega

theorem hex_class_values :
    hex_class.all (fun c => decide (hex_value c = digit_value c ∧ digit_value c < 16)) = true := by
  decide

theorem hex_value_eq_digit_value (c : Char) (h : c ∈ hex_class) :
    hex_value c = digit_value c ∧ digit_value c < 16 := by
  have := List.all_eq_true.1 hex_class_values c h
  simpa using this

theorem sscanf_2x_two (c1 c2 : Char) (rest : CStr) (h1 : c1 ∈ hex_class) (h2 : c2 ∈ hex_class) :
    sscanf_2x (c1 :: c2 :: rest) = some (16 * digit_value c1 + digit_value c2) := by
  simp only [sscanf_2x, (isxdigit_iff_mem c1).2 h1, (isxdigit_iff_mem c2).2 h2, if_true,
    (hex_value_eq_digit_value c1 h1).1, (hex_value_eq_digit_value c2 h2).1]

theorem drop_two (s : CStr) (n : Nat) (h : n + 1 < s.length) :
    s.drop n = s.getD n nul :: s.getD (n + 1) nul :: s.drop (n + 2) := by
  rw [List.drop_eq_getElem_cons (by omega : n < s.length), List.drop_eq_getElem_cons h,
    List.getD_eq_getElem _ _ (by omega : n < s.length), List.getD_eq_getElem _ _ h]

theorem getD_mem (s : CStr) (n : Nat) (h : n < s.length) : s.getD n nul ∈ s := by
  rw [List.getD_eq_getElem _ _ h]
  exact List.getElem_mem h

/-- The digest that a valid string spells. -/
theorem hash_from_hex_spelled (s : CStr) (out : hash_t) (hlen : s.length = 64)
    (hall : ∀ c ∈ s, c ∈ hex_class) :
    (hash_from_hex s out).1 = 0 ∧
      ∀ i : Fin HASH_SIZE, ((hash_from_hex s out).2.data i).val =
        16 * digit_value (s.getD (2 * i.val) nul) + digit_value (s.getD (2 * i.val + 1) nul) := by
  have hany : s.any (fun c => !isxdigit c) = false := by
    rw [List.any_eq_false]
    intro c hc
    simp [(isxdigit_iff_mem c).2 (hall c hc)]
  have hv : ∀ i : Fin HASH_SIZE,
      16 * digit_value (s.getD (2 * i.val) nul) + digit_value (s.getD (2 * i.val + 1) nul)
        < 256 := by
    intro i
    have hi : i.val < 32 := i.isLt
    have h1 := (hex_value_eq_digit_value _ (hall _ (getD_mem s (2 * i.val) (by omega)))).2
    have h2 := (hex_value_eq_digit_value _ (hall _ (getD_mem s (2 * i.val + 1) (by omega)))).2
    omega
  have hfill := from_hex_fill_eq s ⟨fun i => ⟨_, hv i⟩⟩ (List.finRange HASH_SIZE) out
    (by
      intro i _
      have hi : i.val < 32 := i.isLt
      have e : i.val * 2 = 2 * i.val := by omega
      rw [drop_two s (i.val * 2) (by omega), e]
      exact sscanf_2x_two _ _ _ (hall _ (getD_mem s (2 * i.val) (by omega)))
        (hall _ (getD_mem s (2 * i.val + 1) (by omega))))
  simp only [hash_from_hex, hlen, hany]
  rw [hfill]
  simp

theorem digit_value_toLower (c c' : Char) (h : c.toLower = c'.toLower) :
    digit_value c = digit_value c' := by
  simp only [digit_value, h]

theorem getD_toLower_eq (s t : CStr) (h : s.map Char.toLower = t.map Char.toLower) (n : Nat) :
    (s.getD n nul).toLower = (t.getD n nul).toLower := by
  have h1 := List.getD_map (l := s) (d := nul) (n := n) Char.toLower
  have h2 := List.getD_map (l := t) (d := nul) (n := n) Char.toLower
  rw [← h1, ← h2, h]

/-! ## The claims C11 to C20 -/

/-- C12. For all base and component, `path_join` returns the base, a separator
and the component, where the separator is `/` if the base is non-empty and its
last character is not `/`, and is empty otherwise; the result has one character
less than the `total_len` allocated for it. Nothing else is altered: `a` and
`b` give `a/b`, `a/` and `b` give `a/b`, `a` and the empty string give `a/`,
`a` and `/b` give `a//b`, and `a/..` and `./b` give `a/.././b`. -/
theorem C12_join_inserts_one_separator :
    (∀ base component : CStr,
      path_join base component =
        base ++ (if base ≠ [] ∧ base.getLast? ≠ some '/' then ['/'] else []) ++ component) ∧
    (∀ base component : CStr,
      (path_join base component).length + 1 =
        base.length + component.length +
          (if base ≠ [] ∧ base.getLast? ≠ some '/' then 1 else 0) + 1) ∧
    path_join ("a".toList) ("b".toList) = "a/b".toList ∧
    path_join ("a/".toList) ("b".toList) = "a/b".toList ∧
    path_join ("a".toList) [] = "a/".toList ∧
    path_join ("a".toList) ("/b".toList) = "a//b".toList ∧
    path_join ("a/..".toList) ("./b".toList) = "a/.././b".toList := by
  refine ⟨path_join_eq, ?_, by decide, by decide, by decide, by decide, by decide⟩
  intro base component
  rw [path_join_eq]
  by_cases h : base ≠ [] ∧ base.getLast? ≠ some '/'
  · rw [if_pos h, if_pos h]
    simp only [List.length_append, List.length_singleton]
    omega
  · rw [if_neg h, if_neg h]
    simp only [List.length_append, List.length_nil]
    omega

/-- C14. For every path `p`, `path_dirname p` is `.` if `p` is empty; otherwise,
with `t` = `p` stripped of trailing `/` characters (never removing its first
character): `/` if `t` is `/`, `.` if `t` contains no `/`, and otherwise the
part of `t` that ends just before its last `/`, itself stripped of trailing
`/` characters, the first character of `t` never being removed. No
normalization is applied: `a/../b` gives `a/..` and `a/./b//` gives `a/.`.
Also `a/b/c/` gives `a/b`, `/a` gives `/`, `file` gives `.` and the empty path
gives `.`. -/
theorem C14_dirname_by_cases :
    (∀ p : CStr, path_dirname p =
      if p = [] then ['.']
      else if strip_keeping_first p p = ['/'] then ['/']
      else if '/' ∉ strip_keeping_first p p then ['.']
      else strip_keeping_first (strip_keeping_first p p)
        (before_last_slash (strip_keeping_first p p))) ∧
    path_dirname ("a/b/c/".toList) = "a/b".toList ∧
    path_dirname ("/a".toList) = "/".toList ∧
    path_dirname ("file".toList) = ".".toList ∧
    path_dirname [] = ".".toList ∧
    path_dirname ("a/../b".toList) = "a/..".toList ∧
    path_dirname ("a/./b//".toList) = "a/.".toList := by
  refine ⟨fun p => ?_, by decide, by decide, by decide, by decide, by decide, by decide⟩
  rw [path_dirname_eq_words]
  rfl

/-- C15. A trailing slash does not change the directory name: for every
non-empty path `p`, `path_dirname` returns the same string on `p/` and on `p`;
on `a/b/c/` and on `a/b/c` it returns `a/b`. -/
theorem C15_dirname_trailing_slash :
    (∀ p : CStr, p ≠ [] → path_dirname (p ++ ['/']) = path_dirname p) ∧
    path_dirname ("a/b/c/".toList) = "a/b".toList ∧
    path_dirname ("a/b/c".toList) = "a/b".toList := by
  refine ⟨fun p h => ?_, by decide, by decide⟩
  rw [path_dirname_eq_words, path_dirname_eq_words, dirname_words_append_slash p h]

/-- C15 at the path `//x//`: on `//x///` and on `//x//` the directory name is
`/`. -/
theorem C15_dirname_trailing_slash_witness :
    "//x//".toList ≠ [] ∧
      path_dirname ("//x//".toList ++ ['/']) = path_dirname ("//x//".toList) ∧
      path_dirname ("//x//".toList) = "/".toList :=
  ⟨by decide, C15_dirname_trailing_slash.1 _ (by decide), by decide⟩

/-- C18. An absent input to a path operation is reported, never processed:
`path_join` with either argument NULL, `path_normalize`, `path_dirname` and
`path_absolute` return NULL and leave `EINVAL` in `errno`; `path_basename`
returns NULL (and leaves `errno` as it was); `path_is_absolute` returns 0. On a
non-NULL argument `path_is_absolute` returns 1 exactly when the first character
is `/`, and 0 otherwise. -/
theorem C18_null_is_reported (errno : Int) :
    (∀ component : Option CStr, path_join_call none component errno = ⟨none, EINVAL⟩) ∧
    (∀ base : Option CStr, path_join_call base none errno = ⟨none, EINVAL⟩) ∧
    path_normalize_call none errno = some ⟨none, EINVAL⟩ ∧
    path_dirname_call none errno = ⟨none, EINVAL⟩ ∧
    (∀ getcwd : Except Int CStr, path_absolute_call getcwd none errno = some ⟨none, EINVAL⟩) ∧
    path_basename_call none errno = some ⟨none, errno⟩ ∧
    path_is_absolute none = 0 ∧
    (∀ p : CStr, (path_is_absolute (some p) = 1 ↔ p.head? = some '/') ∧
      (path_is_absolute (some p) = 1 ∨ path_is_absolute (some p) = 0)) := by
  refine ⟨fun c => ?_, fun b => ?_, rfl, rfl, fun _ => rfl, rfl, rfl, fun p => ?_⟩
  · cases c <;> rfl
  · cases b <;> rfl
  · by_cases h : p.head? = some '/'
    · simp [path_is_absolute, h]
    · simp [path_is_absolute, h]

/-- C19. For every 32-byte digest `d`, `hash_to_hex` writes exactly 64
characters followed by a terminator: the string read back from the buffer is
the 64 characters, offset 64 holds the NUL and nothing is stored beyond it.
Every character is in `[0-9a-f]`, and for each `i` in 0..31 the characters
`2i` and `2i+1` are the high and the low hexadecimal nibble of byte `i`. The
bytes `0x00..0x1f` give `000102...1e1f`. -/
theorem C19_to_hex_layout :
    (∀ d : hash_t,
      (hash_to_hex d).length = 64 ∧
      (∀ c ∈ hash_to_hex d, c ∈ "0123456789abcdef".toList) ∧
      (∀ i : Fin HASH_SIZE,
        (hash_to_hex d).getD (2 * i.val) nul =
          "0123456789abcdef".toList.getD ((d.data i).val / 16) '0' ∧
        (hash_to_hex d).getD (2 * i.val + 1) nul =
          "0123456789abcdef".toList.getD ((d.data i).val % 16) '0') ∧
      (∀ buf : Buffer,
        read_cstr (hash_to_hex_buffer d buf) HASH_HEX_SIZE 0 = hash_to_hex d ∧
        hash_to_hex_buffer d buf 64 = nul ∧
        ∀ j, 64 < j → hash_to_hex_buffer d buf j = buf j)) ∧
    hash_to_hex digest_00_1f =
      "000102030405060708090a0b0c0d0e0f101112131415161718191a1b1c1d1e1f".toList := by
  refine ⟨fun d => ⟨hash_to_hex_length d, fun c hc => (to_hex_loop_mem _ c hc).1, fun i => ?_,
    fun buf => hash_to_hex_buffer_read d buf⟩, by decide⟩
  have hp := hash_to_hex_pair d i
  have e : i.val * 2 = 2 * i.val := by omega
  rw [e] at hp
  have h1 := getD_of_drop_eq _ _ _ _ hp
  have hp2 : (hash_to_hex d).drop (2 * i.val + 1) =
      hex_digit ((d.data i).val % 16) :: (hash_to_hex d).drop (2 * i.val + 2) := by
    have := congrArg (List.drop 1) hp
    simpa [List.drop_drop, Nat.add_comm] using this
  have h2 := getD_of_drop_eq _ _ _ _ hp2
  rw [h1, h2, hex_digit_eq_getD _ (by omega), hex_digit_eq_getD _ (by omega)]
  exact ⟨rfl, rfl⟩

/-- C20. For every string `s` of exactly 64 characters from `[0-9a-fA-F]`,
`hash_from_hex` returns 0 and sets byte `i` of the output to
`16 * v(s[2i]) + v(s[2i+1])` for `i` in 0..31, where `v` is the hexadecimal
digit value in either case; hence two such strings that differ only in the
case of their letters decode to the same digest. -/
theorem C20_from_hex_values :
    (∀ (s : CStr) (out : hash_t), s.length = 64 → (∀ c ∈ s, c ∈ hex_class) →
      (hash_from_hex s out).1 = 0 ∧
      ∀ i : Fin HASH_SIZE, ((hash_from_hex s out).2.data i).val =
        16 * digit_value (s.getD (2 * i.val) nul) +
          digit_value (s.getD (2 * i.val + 1) nul)) ∧
    (∀ (s t : CStr) (out out2 : hash_t), s.length = 64 → (∀ c ∈ s, c ∈ hex_class) →
      t.length = 64 → (∀ c ∈ t, c ∈ hex_class) →
      s.map Char.toLower = t.map Char.toLower →
      (hash_from_hex s out).2 = (hash_from_hex t out2).2) := by
  refine ⟨hash_from_hex_spelled, ?_⟩
  intro s t out out2 hs1 hs2 ht1 ht2 hst
  have h1 := (hash_from_hex_spelled s out hs1 hs2).2
  have h2 := (hash_from_hex_spelled t out2 ht1 ht2).2
  apply hash_t.ext
  funext i
  apply Fin.ext
  rw [h1 i, h2 i, digit_value_toLower _ _ (getD_toLower_eq s t hst (2 * i.val)),
    digit_value_toLower _ _ (getD_toLower_eq s t hst (2 * i.val + 1))]

/-- C20 at an upper-case and a mixed-case spelling of the same 64 digits: both
are accepted and decode to the same digest, whose first byte is `0x2c` and
whose last byte is `0x24`. -/
theorem C20_from_hex_values_witness :
    (hash_from_hex
        ("2CF24DBA5FB0A30E26E83B2AC5B9E29E1B161E5C1FA7425E73043362938B9824".toList)
        digest_00_1f).2 =
      (hash_from_hex
        ("2cF24dbA5fb0a30E26e83b2ac5B9e29e1b161E5c1fa7425e73043362938b9824".toList)
        digest_00_1f).2 ∧
    ((hash_from_hex
        ("2CF24DBA5FB0A30E26E83B2AC5B9E29E1B161E5C1FA7425E73043362938B9824".toList)
        digest_00_1f).2.data 0).val = 16 * 2 + 12 ∧
    ((hash_from_hex
        ("2CF24DBA5FB0A30E26E83B2AC5B9E29E1B161E5C1FA7425E73043362938B9824".toList)
        digest_00_1f).2.data 31).val = 16 * 2 + 4 := by
  have hA : ∀ c ∈ "2CF24DBA5FB0A30E26E83B2AC5B9E29E1B161E5C1FA7425E73043362938B9824".toList,
      c ∈ hex_class := by decide
  have hB : ∀ c ∈ "2cF24dbA5fb0a30E26e83b2ac5B9e29e1b161E5c1fa7425e73043362938b9824".toList,
      c ∈ hex_class := by decide
  refine ⟨C20_from_hex_values.2 _ _ _ _ (by decide) hA (by decide) hB (by decide), ?_, ?_⟩
  · rw [(C20_from_hex_values.1 _ digest_00_1f (by decide) hA).2 0]
    decide
  · rw [(C20_from_hex_values.1 _ digest_00_1f (by decide) hA).2 31]
    decide

/-! ## Lemmas on decoding and the calls with absent arguments -/

theorem hex_class_lower :
    hex_class.all (fun c => decide (hex_digit (digit_value c) = c.toLower)) = true := by
  decide

theorem hex_digit_digit_value (c : Char) (h : c ∈ hex_class) :
    hex_digit (digit_value c) = c.toLower := by
  have := List.all_eq_true.1 hex_class_lower c h
  simpa using this

theorem to_hex_loop_spelled (l : List (Fin 256)) :
    ∀ t : CStr, t.length = 2 * l.length → (∀ c ∈ t, c ∈ hex_class) →
      (∀ i, i < l.length → (l.getD i 0).val =
        16 * digit_value (t.getD (2 * i) nul) + digit_value (t.getD (2 * i + 1) nul)) →
      to_hex_loop l = t.map Char.toLower := by
  induction l with
  | nil =>
    intro t ht _ _
    have : t = [] := List.length_eq_zero.1 (by simpa using ht)
    subst this
    rfl
  | cons b bs ih =>
    intro t ht hall hv
    match t, ht, hall, hv with
    | [], ht, _, _ => simp at ht
    | [_], ht, _, _ => simp at ht; omega
    | c1 :: c2 :: t', ht, hall, hv =>
      have h1 := hall c1 (by simp)
      have h2 := hall c2 (by simp)
      have d1 := (hex_value_eq_digit_value c1 h1).2
      have d2 := (hex_value_eq_digit_value c2 h2).2
      have hb : b.val = 16 * digit_value c1 + digit_value c2 := by
        have := hv 0 (by simp)
        simpa using this
      have hrest := ih t' (by simp at ht; omega)
        (fun c hc => hall c (by simp [hc]))
        (by
          intro i hi
          have := hv (i + 1) (by simp; omega)
          have e1 : 2 * (i + 1) = 2 * i + 1 + 1 := by omega
          rw [e1] at this
          simpa using this)
      have q1 : b.val / 16 = digit_value c1 := by omega
      have q2 : b.val % 16 = digit_value c2 := by omega
      simp only [to_hex_loop, sprintf_02x, List.cons_append, List.nil_append, List.map_cons,
        q1, q2, hex_digit_digit_value c1 h1, hex_digit_digit_value c2 h2, hrest]

theorem hash_to_hex_from_hex (s : CStr) (out : hash_t) (hlen : s.length = 64)
    (hall : ∀ c ∈ s, c ∈ hex_class) :
    hash_to_hex (hash_from_hex s out).2 = s.map Char.toLower := by
  have hsp := (hash_from_hex_spelled s out hlen hall).2
  rw [hash_to_hex]
  apply to_hex_loop_spelled
  · simp [hlen]
  · exact hall
  · intro i hi
    have hi32 : i < HASH_SIZE := by simpa using hi
    have := hsp ⟨i, hi32⟩
    rw [List.getD_eq_getElem _ _ hi]
    simp only [List.getElem_ofFn]
    exact this

theorem hash_from_hex_atomic (s : CStr) (out : hash_t) (h : (hash_from_hex s out).1 = -1) :
    (hash_from_hex s out).2 = out := by
  by_cases hlen : s.length = 64
  · by_cases hany : s.any (fun c => !isxdigit c) = true
    · simp [hash_from_hex, hlen, hany]
    · have hall : ∀ c ∈ s, isxdigit c = true := by
        intro c hc
        by_contra hn
        exact hany (List.any_eq_true.2 ⟨c, hc, by simp [hn]⟩)
      rw [hash_from_hex_valid s out hlen hall] at h
      exact absurd h (by decide)
  · simp [hash_from_hex, hlen]

theorem hash_from_hex_rejects (s : CStr) (out : hash_t)
    (h : s.length ≠ 64 ∨ ∃ c ∈ s, c ∉ hex_class) : hash_from_hex s out = (-1, out) := by
  by_cases hlen : s.length = 64
  · rcases h with h | ⟨c, hc, hn⟩
    · exact absurd hlen h
    · have hany : s.any (fun c => !isxdigit c) = true :=
        List.any_eq_true.2 ⟨c, hc, by
          have : ¬ isxdigit c = true := fun hx => hn ((isxdigit_iff_mem c).1 hx)
          simp [this]⟩
      simp [hash_from_hex, hlen, hany]
  · simp [hash_from_hex, hlen]

theorem hash_equals_eq_one (a b : hash_t) : hash_equals a b = 1 ↔ ∀ i, a.data i = b.data i := by
  unfold hash_equals
  constructor
  · intro h i
    by_cases he : List.ofFn a.data = List.ofFn b.data
    · exact congrFun (List.ofFn_injective he) i
    · rw [if_neg he] at h
      exact absurd h (by decide)
  · intro h
    have : a.data = b.data := funext h
    rw [this, if_pos rfl]

theorem hash_equals_zero_or_one (a b : hash_t) : hash_equals a b = 0 ∨ hash_equals a b = 1 := by
  unfold hash_equals
  split
  · exact Or.inr rfl
  · exact Or.inl rfl

theorem hash_to_hex_sha256_digest (msg : List (Fin 256)) :
    hash_to_hex (sha256_digest msg) = lower_hex (SHA256 (msg.map Fin.val)) := by
  simp only [hash_to_hex, sha256_digest, to_hex_loop_eq_lower_hex]
  rw [ofFn_getD_map_val _ (SHA256_length _) (SHA256_lt _)]

theorem sha256_digest_val (msg : List (Fin 256)) (i : Fin HASH_SIZE) :
    ((sha256_digest msg).data i).val = (SHA256 (msg.map Fin.val)).getD i.val 0 := by
  simp only [sha256_digest]
  apply Nat.mod_eq_of_lt
  have hi : i.val < (SHA256 (msg.map Fin.val)).length := by
    rw [SHA256_length]; exact i.isLt
  rw [List.getD_eq_getElem _ _ hi]
  exact SHA256_lt _ _ (List.getElem_mem hi)

/-! ## The claims C21 to C30 -/

/-- C21. Decoding then encoding is lower-casing: for every string `s` of
exactly 64 characters of `[0-9a-fA-F]`, `hash_from_hex` returns 0 and
`hash_to_hex` of the digest it stores is `s` with its letters in lower case; it
is `s` itself when `s` is already in lower case, and decoding and encoding that
string once more gives the same string. -/
theorem C21_decode_encode_lowers :
    (∀ (s : CStr) (out out2 : hash_t), s.length = 64 → (∀ c ∈ s, c ∈ hex_class) →
      (hash_from_hex s out).1 = 0 ∧
      hash_to_hex (hash_from_hex s out).2 = s.map Char.toLower ∧
      (s.map Char.toLower = s → hash_to_hex (hash_from_hex s out).2 = s) ∧
      (hash_from_hex (hash_to_hex (hash_from_hex s out).2) out2).1 = 0 ∧
      hash_to_hex (hash_from_hex (hash_to_hex (hash_from_hex s out).2) out2).2 =
        hash_to_hex (hash_from_hex s out).2) ∧
    hash_to_hex (hash_from_hex
      ("000102030405060708090A0B0C0D0E0F101112131415161718191a1b1c1d1e1f".toList)
      (sha256_digest [])).2 =
      "000102030405060708090a0b0c0d0e0f101112131415161718191a1b1c1d1e1f".toList := by
  refine ⟨fun s out out2 hlen hall => ?_, ?_⟩
  · have h := hash_to_hex_from_hex s out hlen hall
    refine ⟨(hash_from_hex_spelled s out hlen hall).1, h, fun hs => ?_, ?_, ?_⟩
    · rw [h, hs]
    · rw [hash_from_hex_to_hex]
    · rw [hash_from_hex_to_hex]
  · rw [hash_to_hex_from_hex _ _ (by decide) (by decide)]
    decide

/-- C21 at a string of upper-case digits. -/
theorem C21_decode_encode_lowers_witness :
    hash_to_hex (hash_from_hex (List.replicate 64 'A') digest_00_1f).2 =
      (List.replicate 64 'A').map Char.toLower :=
  (C21_decode_encode_lowers.1 (List.replicate 64 'A') digest_00_1f digest_00_1f
    (by decide) (by decide)).2.1

/-- C22. `hash_from_hex` is atomic on failure: whenever a call returns -1, the
output digest is as it was before the call. The call returns -1 when an
argument is absent, when the length is not 64, and when a character anywhere
in the string is not a hexadecimal digit, the last one included. -/
theorem C22_from_hex_atomic :
    (∀ (hex_str : Option CStr) (out : Option hash_t) (errno : Int),
      (hash_from_hex_call hex_str out errno).ret = -1 →
        (hash_from_hex_call hex_str out errno).out = out) ∧
    (∀ (out : Option hash_t) (errno : Int), (hash_from_hex_call none out errno).ret = -1) ∧
    (∀ (hex_str : Option CStr) (errno : Int), (hash_from_hex_call hex_str none errno).ret = -1) ∧
    (∀ (s : CStr) (out : hash_t) (errno : Int),
      (s.length ≠ 64 ∨ ∃ c ∈ s, c ∉ hex_class) →
        hash_from_hex_call (some s) (some out) errno = ⟨-1, some out, EINVAL⟩) ∧
    (∀ (out : hash_t) (errno : Int),
      hash_from_hex_call (some (List.replicate 63 'a' ++ ['g'])) (some out) errno =
        ⟨-1, some out, EINVAL⟩) := by
  refine ⟨?_, ?_, ?_, ?_, ?_⟩
  · intro hex_str out errno h
    cases hex_str with
    | none => rfl
    | some s =>
      cases out with
      | none => rfl
      | some o =>
        simp only [hash_from_hex_call] at h ⊢
        rw [hash_from_hex_atomic s o h]
  · intro out errno
    rfl
  · intro hex_str errno
    cases hex_str <;> rfl
  · intro s out errno h
    simp only [hash_from_hex_call, hash_from_hex_rejects s out h, if_true]
  · intro out errno
    have h : hash_from_hex (List.replicate 63 'a' ++ ['g']) out = (-1, out) :=
      hash_from_hex_rejects _ out (Or.inr ⟨'g', by simp, by decide⟩)
    simp only [hash_from_hex_call, h, if_true]

/-- C22 at a string of 64 characters whose last one is `g`, and the digest
`00 01 ... 1f` as output. -/
theorem C22_from_hex_atomic_witness :
    (hash_from_hex_call (some (List.replicate 63 'a' ++ ['g'])) (some digest_00_1f) 0).ret = -1 ∧
    (hash_from_hex_call (some (List.replicate 63 'a' ++ ['g'])) (some digest_00_1f) 0).out =
      some digest_00_1f :=
  ⟨by rw [C22_from_hex_atomic.2.2.2.2 digest_00_1f 0],
   C22_from_hex_atomic.1 _ _ _ (by rw [C22_from_hex_atomic.2.2.2.2 digest_00_1f 0])⟩

/-- C23. `hash_equals` returns 1 if and only if both arguments are present and
all 32 bytes of one equal the corresponding bytes of the other, and 0
otherwise. It returns 0 when both arguments are absent, and when the digests
differ in the first byte only or in the last byte only. -/
theorem C23_equals_iff :
    (∀ a b : Option hash_t,
      (hash_equals_call a b = 1 ↔ ∃ x y, a = some x ∧ b = some y ∧ ∀ i, x.data i = y.data i) ∧
      (hash_equals_call a b = 0 ∨ hash_equals_call a b = 1)) ∧
    hash_equals_call none none = 0 ∧
    (∀ (x : hash_t) (v : Fin 256), v ≠ x.data 0 →
      hash_equals_call (some x) (some ⟨Function.update x.data 0 v⟩) = 0) ∧
    (∀ (x : hash_t) (v : Fin 256), v ≠ x.data 31 →
      hash_equals_call (some x) (some ⟨Function.update x.data 31 v⟩) = 0) := by
  have hdiff : ∀ (x : hash_t) (k : Fin HASH_SIZE) (v : Fin 256), v ≠ x.data k →
      hash_equals_call (some x) (some ⟨Function.update x.data k v⟩) = 0 := by
    intro x k v hv
    show hash_equals x ⟨Function.update x.data k v⟩ = 0
    rcases hash_equals_zero_or_one x ⟨Function.update x.data k v⟩ with h | h
    · exact h
    · have := (hash_equals_eq_one _ _).1 h k
      simp only [Function.update_same] at this
      exact absurd this.symm hv
  refine ⟨fun a b => ⟨?_, ?_⟩, rfl, fun x v hv => hdiff x 0 v hv, fun x v hv => hdiff x 31 v hv⟩
  · cases a with
    | none =>
      constructor
      · intro h
        have h0 : hash_equals_call none b = 0 := by cases b <;> rfl
        rw [h0] at h
        exact absurd h (by decide)
      · rintro ⟨x, y, hx, _, _⟩
        exact absurd hx (by simp)
    | some x =>
      cases b with
      | none =>
        constructor
        · intro h
          have h0 : hash_equals_call (some x) none = 0 := rfl
          rw [h0] at h
          exact absurd h (by decide)
        · rintro ⟨x, y, _, hy, _⟩
          exact absurd hy (by simp)
      | some y =>
        show hash_equals x y = 1 ↔ _
        rw [hash_equals_eq_one]
        constructor
        · intro h
          exact ⟨x, y, rfl, rfl, h⟩
        · rintro ⟨x', y', hx, hy, h⟩
          cases hx
          cases hy
          exact h
  · cases a with
    | none => cases b <;> exact Or.inl rfl
    | some x =>
      cases b with
      | none => exact Or.inl rfl
      | some y => exact hash_equals_zero_or_one x y

/-- C23 at the digest `00 01 ... 1f` and its copy with the last byte changed
to `0xff`. -/
theorem C23_equals_iff_witness :
    hash_equals_call (some digest_00_1f)
      (some ⟨Function.update digest_00_1f.data 31 255⟩) = 0 :=
  C23_equals_iff.2.2.2 digest_00_1f 255 (by decide)

/-- C24. `hash_compute` declines exactly when the data is absent, the output is
absent or the length is 0: it then sets `errno` to `EINVAL` and leaves the
output digest as it was. In every other case it leaves `errno` as it was and
stores in the output the SHA-256 digest of the first `len` bytes of the data,
whatever the output held. -/
theorem C24_compute_declines :
    (∀ (data : Option (List (Fin 256))) (len : Nat) (out : Option hash_t) (errno : Int),
      (data = none ∨ out = none ∨ len = 0) →
        hash_compute_call data len out errno = (out, EINVAL)) ∧
    (∀ (bytes : List (Fin 256)) (len : Nat) (o : hash_t) (errno : Int), len ≠ 0 →
      hash_compute_call (some bytes) len (some o) errno =
        (some (sha256_digest (bytes.take len)), errno) ∧
      (∀ i : Fin HASH_SIZE, ((sha256_digest (bytes.take len)).data i).val =
        (SHA256 ((bytes.take len).map Fin.val)).getD i.val 0) ∧
      hash_to_hex (sha256_digest (bytes.take len)) =
        lower_hex (SHA256 ((bytes.take len).map Fin.val))) ∧
    hash_compute_call (some []) 0 (some digest_00_1f) 0 = (some digest_00_1f, EINVAL) ∧
    (hash_compute_call (some [97, 98, 99, 100]) 3 (some digest_00_1f) 0).1.map hash_to_hex =
      some "ba7816bf8f01cfea414140de5dae2223b00361a396177a9cb410ff61f20015ad".toList := by
  refine ⟨?_, ?_, rfl, ?_⟩
  · intro data len out errno h
    cases data with
    | none => rfl
    | some bytes =>
      cases out with
      | none => rfl
      | some o =>
        rcases h with h | h | h
        · exact absurd h (by simp)
        · exact absurd h (by simp)
        · simp [hash_compute_call, h]
  · intro bytes len o errno h
    exact ⟨by simp [hash_compute_call, h], sha256_digest_val _, hash_to_hex_sha256_digest _⟩
  · have h : hash_compute_call (some [97, 98, 99, 100]) 3 (some digest_00_1f) 0 =
        (some (sha256_digest [97, 98, 99]), 0) := rfl
    rw [h]
    show some (hash_to_hex (sha256_digest [97, 98, 99])) = _
    rw [hash_to_hex_sha256_digest]
    decide

/-- C24 at the three bytes `abc` read from a buffer of four. -/
theorem C24_compute_declines_witness :
    hash_compute_call (some [97, 98, 99, 100]) 3 (some digest_00_1f) 7 =
      (some (sha256_digest (List.take 3 [97, 98, 99, 100])), 7) :=
  (C24_compute_declines.2.1 [97, 98, 99, 100] 3 digest_00_1f 7 (by decide)).1

/-! ## Lemmas on error.c -/

theorem error_string_no_entry (error_table : List error_info_t) (code : error_code_t)
    (h : ∀ e ∈ error_table, e.code ≠ code) :
    error_string error_table code = "Unknow error".toList := by
  induction error_table with
  | nil => rfl
  | cons e rest ih =>
    rw [error_string, if_neg (h e (List.mem_cons_self _ _))]
    exact ih (fun x hx => h x (List.mem_cons_of_mem _ hx))

theorem error_string_first (pre : List error_info_t) (e : error_info_t)
    (post : List error_info_t) (code : error_code_t) (hpre : ∀ x ∈ pre, x.code ≠ code)
    (he : e.code = code) : error_string (pre ++ e :: post) code = e.message := by
  induction pre with
  | nil => rw [List.nil_append, error_string, if_pos he]
  | cons x xs ih =>
    rw [List.cons_append, error_string, if_neg (hpre x (List.mem_cons_self _ _))]
    exact ih (fun y hy => hpre y (List.mem_cons_of_mem _ hy))

theorem error_run_append (error_table : List error_info_t) (ERR_OK : error_code_t)
    (l1 l2 : List ErrorCall) (s : ErrorState) :
    error_run error_table ERR_OK (l1 ++ l2) s =
      error_run error_table ERR_OK l2 (error_run error_table ERR_OK l1 s) := by
  induction l1 generalizing s with
  | nil => rfl
  | cons c cs ih =>
    cases c with
    | set code => exact ih _
    | clear => exact ih _

theorem error_run_clears (error_table : List error_info_t) (ERR_OK : error_code_t)
    (l : List ErrorCall) (s : ErrorState) (h : ∀ c ∈ l, c = ErrorCall.clear) :
    (error_run error_table ERR_OK l s).last_error =
      if l = [] then s.last_error else ERR_OK := by
  induction l generalizing s with
  | nil => rfl
  | cons c cs ih =>
    have hc := h c (List.mem_cons_self _ _)
    subst hc
    rw [error_run, ih _ (fun x hx => h x (List.mem_cons_of_mem _ hx))]
    by_cases hcs : cs = []
    · simp [hcs, error_clear]
    · simp [hcs]

theorem no_set_all_clear (l : List ErrorCall) (h : ∀ k, ErrorCall.set k ∉ l) :
    ∀ c ∈ l, c = ErrorCall.clear := by
  intro c hc
  cases c with
  | set k => exact absurd hc (h k)
  | clear => rfl

theorem error_set_loop_none (code : error_code_t) (error_table : List error_info_t)
    (errno : Int) (h : ∀ e ∈ error_table, ¬ (e.code = code ∧ e.posix_errno ≠ 0)) :
    error_set_loop code error_table errno = errno := by
  induction error_table generalizing errno with
  | nil => rfl
  | cons e rest ih =>
    rw [error_set_loop, if_neg (h e (List.mem_cons_self _ _))]
    exact ih errno (fun x hx => h x (List.mem_cons_of_mem _ hx))

theorem error_set_loop_last (code : error_code_t) (pre : List error_info_t) (e : error_info_t)
    (post : List error_info_t) (errno : Int) (he : e.code = code ∧ e.posix_errno ≠ 0)
    (hpost : ∀ x ∈ post, ¬ (x.code = code ∧ x.posix_errno ≠ 0)) :
    error_set_loop code (pre ++ e :: post) errno = e.posix_errno := by
  induction pre generalizing errno with
  | nil =>
    rw [List.nil_append, error_set_loop, if_pos he]
    exact error_set_loop_none code post _ hpost
  | cons x xs ih =>
    rw [List.cons_append, error_set_loop]
    exact ih _

theorem error_set_loop_some (code : error_code_t) (error_table : List error_info_t)
    (errno : Int) (h : ∃ e ∈ error_table, e.code = code ∧ e.posix_errno ≠ 0) :
    ∃ e ∈ error_table, e.code = code ∧ e.posix_errno ≠ 0 ∧
      error_set_loop code error_table errno = e.posix_errno := by
  induction error_table generalizing errno with
  | nil =>
    obtain ⟨e, he, _⟩ := h
    exact absurd he (List.not_mem_nil _)
  | cons x rest ih =>
    by_cases hrest : ∃ e ∈ rest, e.code = code ∧ e.posix_errno ≠ 0
    · obtain ⟨e, he, h1, h2, h3⟩ := ih _ hrest
      exact ⟨e, List.mem_cons_of_mem _ he, h1, h2, by rw [error_set_loop]; exact h3⟩
    · have hx : x.code = code ∧ x.posix_errno ≠ 0 := by
        obtain ⟨e, he, h1⟩ := h
        rcases List.mem_cons.1 he with rfl | he
        · exact h1
        · exact absurd ⟨e, he, h1⟩ hrest
      refine ⟨x, List.mem_cons_self _ _, hx.1, hx.2, ?_⟩
      rw [error_set_loop, if_pos hx]
      exact error_set_loop_none code rest _ (fun e he hc => hrest ⟨e, he, hc⟩)

theorem error_set_loop_unique (code : error_code_t) (error_table : List error_info_t)
    (errno : Int) (hnodup : (error_table.map (fun e => e.code)).Nodup) (e : error_info_t)
    (he : e ∈ error_table) (hc : e.code = code) (hp : e.posix_errno ≠ 0) :
    error_set_loop code error_table errno = e.posix_errno := by
  obtain ⟨e', he', h1, _, h3⟩ := error_set_loop_some code error_table errno ⟨e, he, hc, hp⟩
  have : e' = e :=
    List.inj_on_of_nodup_map hnodup he' he (by rw [h1, hc])
  rw [h3, this]

/-- C25 (the code). `error_string` returns a string for every kind: the message
of the first table entry with that kind when there is one, and otherwise the
literal `Unknow error`, which differs from the `Unknown error` of the
documentation by one letter. -/
theorem C25_error_string_fallback :
    (∀ (pre : List error_info_t) (e : error_info_t) (post : List error_info_t)
        (code : error_code_t), (∀ x ∈ pre, x.code ≠ code) → e.code = code →
      error_string (pre ++ e :: post) code = e.message) ∧
    (∀ (error_table : List error_info_t) (code : error_code_t),
      (∀ e ∈ error_table, e.code ≠ code) →
        error_string error_table code = "Unknow error".toList ∧
        error_string error_table code ≠ "Unknown error".toList) ∧
    error_string sample_table 7 = "Unknow error".toList := by
  refine ⟨error_string_first, fun error_table code h => ?_, by decide⟩
  rw [error_string_no_entry error_table code h]
  exact ⟨rfl, by decide⟩

/-- C25 at the kind 7, which the sample catalog does not have, and at the kind
1, which it has. -/
theorem C25_error_string_fallback_witness :
    error_string sample_table 7 ≠ "Unknown error".toList ∧
    error_string sample_table 1 = "Invalid argument".toList :=
  ⟨(C25_error_string_fallback.2.1 sample_table 7 (by decide)).2,
   C25_error_string_fallback.1 [⟨"Success".toList, 0, 0⟩] ⟨"Invalid argument".toList, 1, 22⟩
     [⟨"Corrupt object".toList, 2, 0⟩] 1 (by decide) rfl⟩

/-- C26. After any sequence of calls of `error_set` and `error_clear` made by
one thread, starting with the initial cell, `error_get` returns the kind given
to the most recent `error_set` when no `error_clear` came after that call, and
`ERR_OK` otherwise: when there was no `error_set` at all, and when an
`error_clear` came after the most recent one. `error_get` leaves the cell and
`errno` as they are. -/
theorem C26_get_returns_last :
    (∀ (error_table : List error_info_t) (ERR_OK : error_code_t) (errno : Int)
        (before : List ErrorCall) (kind : error_code_t) (after : List ErrorCall),
      (∀ k, ErrorCall.set k ∉ after) →
        (ErrorCall.clear ∉ after →
          (error_get (error_run error_table ERR_OK (before ++ ErrorCall.set kind :: after)
            (error_initial ERR_OK errno))).1 = kind) ∧
        (ErrorCall.clear ∈ after →
          (error_get (error_run error_table ERR_OK (before ++ ErrorCall.set kind :: after)
            (error_initial ERR_OK errno))).1 = ERR_OK)) ∧
    (∀ (error_table : List error_info_t) (ERR_OK : error_code_t) (errno : Int)
        (calls : List ErrorCall), (∀ k, ErrorCall.set k ∉ calls) →
      (error_get (error_run error_table ERR_OK calls (error_initial ERR_OK errno))).1 = ERR_OK) ∧
    (∀ s : ErrorState, (error_get s).2 = s) := by
  refine ⟨?_, ?_, fun s => rfl⟩
  · intro error_table ERR_OK errno before kind after hset
    have hall := no_set_all_clear after hset
    have hrun : (error_run error_table ERR_OK (before ++ ErrorCall.set kind :: after)
        (error_initial ERR_OK errno)).last_error = if after = [] then kind else ERR_OK := by
      rw [error_run_append, error_run, error_run_clears _ _ _ _ hall]
      rfl
    constructor
    · intro hclear
      have : after = [] := by
        cases after with
        | nil => rfl
        | cons c cs =>
          have := hall c (List.mem_cons_self _ _)
          subst this
          exact absurd (List.mem_cons_self _ _) hclear
      show (error_run _ _ _ _).last_error = kind
      rw [hrun, if_pos this]
    · intro hclear
      have : after ≠ [] := by
        intro h
        rw [h] at hclear
        exact absurd hclear (List.not_mem_nil _)
      show (error_run _ _ _ _).last_error = ERR_OK
      rw [hrun, if_neg this]
  · intro error_table ERR_OK errno calls hset
    show (error_run _ _ _ _).last_error = ERR_OK
    rw [error_run_clears _ _ _ _ (no_set_all_clear calls hset)]
    by_cases h : calls = []
    · rw [if_pos h]; rfl
    · rw [if_neg h]

/-- C26 at the calls set 1, clear, set 2 and at the calls set 1, set 2, clear,
with 0 for `ERR_OK`. -/
theorem C26_get_returns_last_witness :
    (error_get (error_run sample_table 0
      ([ErrorCall.set 1, ErrorCall.clear] ++ ErrorCall.set 2 :: []) (error_initial 0 0))).1 = 2 ∧
    (error_get (error_run sample_table 0
      ([ErrorCall.set 1] ++ ErrorCall.set 2 :: [ErrorCall.clear]) (error_initial 0 0))).1 = 0 :=
  ⟨(C26_get_returns_last.1 sample_table 0 0 [ErrorCall.set 1, ErrorCall.clear] 2 []
      (fun k hk => absurd hk (by simp))).1 (by decide),
   (C26_get_returns_last.1 sample_table 0 0 [ErrorCall.set 1] 2 [ErrorCall.clear]
      (fun k hk => absurd hk (by simp))).2 (by decide)⟩

/-- C27. `error_set` always stores the kind in the cell. When the table has an
entry for the kind with a non-zero platform code, `errno` becomes the code of
such an entry (of the only one when the kinds of the table are distinct, of the
last one in general); when it has none, because the kind has no entry or its
entries have the code 0, `errno` is left as it was. -/
theorem C27_set_stores_and_maps :
    ∀ (error_table : List error_info_t) (kind : error_code_t) (s : ErrorState),
      (error_set error_table kind s).last_error = kind ∧
      ((∃ e ∈ error_table, e.code = kind ∧ e.posix_errno ≠ 0) →
        ∃ e ∈ error_table, e.code = kind ∧ e.posix_errno ≠ 0 ∧
          (error_set error_table kind s).errno = e.posix_errno) ∧
      ((error_table.map (fun e => e.code)).Nodup →
        ∀ e ∈ error_table, e.code = kind → e.posix_errno ≠ 0 →
          (error_set error_table kind s).errno = e.posix_errno) ∧
      (∀ (pre : List error_info_t) (e : error_info_t) (post : List error_info_t),
        error_table = pre ++ e :: post → (e.code = kind ∧ e.posix_errno ≠ 0) →
        (∀ x ∈ post, ¬ (x.code = kind ∧ x.posix_errno ≠ 0)) →
          (error_set error_table kind s).errno = e.posix_errno) ∧
      ((¬ ∃ e ∈ error_table, e.code = kind ∧ e.posix_errno ≠ 0) →
        (error_set error_table kind s).errno = s.errno) := by
  intro error_table kind s
  refine ⟨rfl, fun h => error_set_loop_some kind error_table s.errno h,
    fun hn e he hc hp => error_set_loop_unique kind error_table s.errno hn e he hc hp,
    fun pre e post ht he hpost => ?_, fun h => ?_⟩
  · subst ht
    exact error_set_loop_last kind pre e post s.errno he hpost
  · exact error_set_loop_none kind error_table s.errno (fun e he hc => h ⟨e, he, hc⟩)

/-- C27 on the sample catalog: the kind 1 sets `errno` to 22, the kind 2, whose
entry has the code 0, and the kind 7, which has no entry, leave it at 5. -/
theorem C27_set_stores_and_maps_witness :
    (error_set sample_table 1 ⟨0, 5⟩).errno = 22 ∧
    (error_set sample_table 2 ⟨0, 5⟩).errno = 5 ∧
    (error_set sample_table 7 ⟨0, 5⟩).errno = 5 :=
  ⟨(C27_set_stores_and_maps sample_table 1 ⟨0, 5⟩).2.2.1 (by decide)
      ⟨"Invalid argument".toList, 1, 22⟩ (by simp [sample_table]) rfl (by decide),
   (C27_set_stores_and_maps sample_table 2 ⟨0, 5⟩).2.2.2.2 (by decide),
   (C27_set_stores_and_maps sample_table 7 ⟨0, 5⟩).2.2.2.2 (by decide)⟩

/-! ## Lemmas on fs.c -/

theorem gnu_dirname_examples :
    gnu_dirname "/usr/lib".toList = "/usr".toList ∧ gnu_dirname "/usr/".toList = ['/'] ∧
    gnu_dirname "usr".toList = dot ∧ gnu_dirname "usr/".toList = dot ∧
    gnu_dirname ['/'] = ['/'] ∧ gnu_dirname dot = dot ∧ gnu_dirname dotdot = dot ∧
    gnu_dirname [] = dot ∧ gnu_dirname "a/b/".toList = ['a'] ∧
    gnu_dirname "a//b".toList = ['a'] ∧ gnu_dirname "//".toList = "//".toList ∧
    gnu_dirname "///".toList = ['/'] ∧ gnu_dirname "//a".toList = "//".toList ∧
    gnu_dirname "///a".toList = ['/'] ∧ gnu_dirname "a/b/c".toList = "a/b".toList := by
  decide

theorem put_files_self (st : FileStore) (path : CStr) (f : FileNode) :
    (st.put path f).files path = some f := by
  simp [FileStore.put]

theorem fopen_wb_ok (st st1 : FileStore) (path : CStr) (h : fopen_wb st path = Except.ok st1) :
    ∃ r w, st1 = st.put path ⟨[], r, w⟩ := by
  unfold fopen_wb at h
  cases hf : st.files path with
  | some f =>
    rw [hf] at h
    dsimp only at h
    by_cases hw : f.writable = true
    · rw [if_pos hw] at h
      exact ⟨f.readable, f.writable, (Except.ok.inj h).symm⟩
    · rw [if_neg hw] at h
      exact Except.noConfusion h
  | none =>
    rw [hf] at h
    dsimp only at h
    cases hc : st.create path with
    | error e =>
      rw [hc] at h
      exact Except.noConfusion h
    | ok rw =>
      rw [hc] at h
      exact ⟨rw.1, rw.2, (Except.ok.inj h).symm⟩

theorem fopen_wb_error (st : FileStore) (path : CStr) (e : Nat)
    (h : fopen_wb st path = Except.error e) :
    e = EACCES ∨ st.create path = Except.error e := by
  unfold fopen_wb at h
  cases hf : st.files path with
  | some f =>
    rw [hf] at h
    dsimp only at h
    by_cases hw : f.writable = true
    · rw [if_pos hw] at h
      exact Except.noConfusion h
    · rw [if_neg hw] at h
      exact Or.inl (Except.error.inj h).symm
  | none =>
    rw [hf] at h
    dsimp only at h
    cases hc : st.create path with
    | error e' =>
      rw [hc] at h
      exact Or.inr (by rw [Except.error.inj h])
    | ok rw =>
      rw [hc] at h
      exact Except.noConfusion h

theorem fs_write_file_zero (st : FileStore) (path : CStr) (content : List (Fin 256))
    (size fwrite_count flushed : Nat)
    (herr : ∀ e, st.create path = Except.error e → e % 256 ≠ 0)
    (h : (fs_write_file st path content size fwrite_count flushed).2 = 0) :
    fwrite_count = size ∧ ∃ r w, (fs_write_file st path content size fwrite_count flushed).1 =
      st.put path ⟨(content.take size).take flushed, r, w⟩ := by
  unfold fs_write_file at h ⊢
  cases ho : fopen_wb st path with
  | error e =>
    rw [ho] at h
    dsimp only at h
    rcases fopen_wb_error st path e ho with he | he
    · rw [he] at h
      exact absurd h (by decide)
    · exact absurd h (herr e he)
  | ok st1 =>
    rw [ho] at h
    dsimp only at h ⊢
    obtain ⟨r, w, hst1⟩ := fopen_wb_ok st st1 path ho
    by_cases hc : fwrite_count = size
    · refine ⟨hc, r, w, ?_⟩
      rw [if_neg (not_not.2 hc), hst1]
      simp only [FileStore.store, put_files_self]
      simp only [FileStore.put]
      congr 1
      funext p
      by_cases hp : p = path <;> simp [hp]
    · rw [if_pos hc] at h
      have h0 : EIO = 0 := h
      exact absurd h0 (by decide)

theorem fs_read_file_ok (st : FileStore) (path : CStr) (f : FileNode)
    (hf : st.files path = some f) (hr : f.readable = true) :
    fs_read_file st path true f.content.length =
      ⟨0, some f.content, some f.content.length⟩ := by
  simp [fs_read_file, hf, hr]

/-- C29 as stated fails on a file that the caller may write and not read:
`fs_write_file` of the bytes `00 01 ff` returns 0, and `fs_read_file` on the
same path then returns `EACCES`. It also fails when `fwrite` takes the three
bytes and none has reached the file when `fclose` returns: `fs_write_file`
returns 0 and `fs_read_file` then returns 0 with size 0. -/
theorem C29_counterexample :
    ((fs_write_file write_only_store ['f'] [0, 1, 255] 3 3 3).2 = 0 ∧
      (fs_read_file (fs_write_file write_only_store ['f'] [0, 1, 255] 3 3 3).1 ['f'] true 3).ret =
        EACCES ∧ EACCES ≠ 0) ∧
    ((fs_write_file (empty_store true true) ['f'] [0, 1, 255] 3 3 0).2 = 0 ∧
      fs_read_file (fs_write_file (empty_store true true) ['f'] [0, 1, 255] 3 3 0).1 ['f'] true 0 =
        ⟨0, some [], some 0⟩) := by
  decide

/-- C29 (amended). Over a store of regular files that nothing else modifies and
a platform whose error codes are not multiples of 256, for every byte sequence
`b` and every path on which `fs_write_file(path, b, |b|)` returns 0 and has all
its bytes in the file when the stream is closed, the file at `path` holds
exactly `b`, whatever the store held before; and if the caller may read that
file, `fs_read_file` with a successful allocation and a complete read returns
0 with size `|b|` and content `b`. A second write replaces the content of the
first entirely. -/
theorem C29_write_read_round_trip :
    (∀ (st : FileStore) (path : CStr) (b : List (Fin 256)) (fwrite_count flushed : Nat),
      (∀ e, st.create path = Except.error e → e % 256 ≠ 0) →
      (fs_write_file st path b b.length fwrite_count flushed).2 = 0 →
      b.length ≤ flushed →
      ∃ f, (fs_write_file st path b b.length fwrite_count flushed).1.files path = some f ∧
        f.content = b ∧
        (f.readable = true →
          fs_read_file (fs_write_file st path b b.length fwrite_count flushed).1 path true
            b.length = ⟨0, some b, some b.length⟩)) ∧
    (∀ (st : FileStore) (path : CStr) (b1 b2 : List (Fin 256)) (w1 f1 w2 f2 : Nat),
      (∀ e, st.create path = Except.error e → e % 256 ≠ 0) →
      (fs_write_file st path b1 b1.length w1 f1).2 = 0 →
      (fs_write_file (fs_write_file st path b1 b1.length w1 f1).1 path b2 b2.length w2 f2).2 = 0 →
      b2.length ≤ f2 →
      ∃ f, (fs_write_file (fs_write_file st path b1 b1.length w1 f1).1 path b2 b2.length
          w2 f2).1.files path = some f ∧ f.content = b2) ∧
    fs_read_file (fs_write_file (empty_store true true) ['f'] [0, 1, 255] 3 3 3).1 ['f'] true 3 =
      ⟨0, some [0, 1, 255], some 3⟩ ∧
    fs_read_file (fs_write_file (empty_store true true) ['f'] [] 0 0 0).1 ['f'] true 0 =
      ⟨0, some [], some 0⟩ := by
  have key : ∀ (st : FileStore) (path : CStr) (b : List (Fin 256)) (fwrite_count flushed : Nat),
      (∀ e, st.create path = Except.error e → e % 256 ≠ 0) →
      (fs_write_file st path b b.length fwrite_count flushed).2 = 0 →
      b.length ≤ flushed →
      ∃ f, (fs_write_file st path b b.length fwrite_count flushed).1.files path = some f ∧
        f.content = b := by
    intro st path b fwrite_count flushed herr h hfl
    obtain ⟨_, r, w, hst⟩ := fs_write_file_zero st path b b.length fwrite_count flushed herr h
    refine ⟨⟨b, r, w⟩, ?_, rfl⟩
    rw [hst, put_files_self, List.take_length, List.take_of_length_le hfl]
  refine ⟨?_, ?_, by decide, by decide⟩
  · intro st path b fwrite_count flushed herr h hfl
    obtain ⟨f, hf, hb⟩ := key st path b fwrite_count flushed herr h hfl
    refine ⟨f, hf, hb, fun hr => ?_⟩
    have := fs_read_file_ok _ path f hf hr
    rw [hb] at this
    exact this
  · intro st path b1 b2 w1 f1 w2 f2 herr h1 h2 hfl
    obtain ⟨_, r, w, hst⟩ := fs_write_file_zero st path b1 b1.length w1 f1 herr h1
    apply key _ path b2 w2 f2 _ h2 hfl
    intro e he
    rw [hst] at he
    exact herr e he

/-- C29 (amended) at the bytes `00 01 ff` written to a new readable file. -/
theorem C29_write_read_round_trip_witness :
    ∃ f, (fs_write_file (empty_store true true) ['f'] [0, 1, 255] 3 3 3).1.files ['f'] = some f ∧
      f.content = [0, 1, 255] ∧
      (f.readable = true →
        fs_read_file (fs_write_file (empty_store true true) ['f'] [0, 1, 255] 3 3 3).1 ['f'] true
          3 = ⟨0, some [0, 1, 255], some 3⟩) :=
  C29_write_read_round_trip.1 (empty_store true true) ['f'] [0, 1, 255] 3 3
    (fun e he => Except.noConfusion he) (by decide) (by decide)

theorem mkdir_or_exists_present {σ : Type} (P : DirPlatform σ) (fs : σ) (path : CStr)
    (h : P.mkdir fs path = (fs, some EEXIST)) : mkdir_or_exists P fs path = (fs, 0) := by
  simp [mkdir_or_exists, h]

theorem mkdir_or_exists_zero {σ : Type} (P : DirPlatform σ) (hP : P.Steady) (fs fs1 : σ)
    (path : CStr) (h : mkdir_or_exists P fs path = (fs1, 0)) :
    P.mkdir fs1 path = (fs1, some EEXIST) ∧
      ∀ q, P.mkdir fs q = (fs, some EEXIST) → P.mkdir fs1 q = (fs1, some EEXIST) := by
  unfold mkdir_or_exists at h
  cases hm : P.mkdir fs path with
  | mk fs2 r =>
    rw [hm] at h
    cases r with
    | none =>
      dsimp only at h
      have e : fs2 = fs1 := (Prod.mk.inj h).1
      subst e
      exact ⟨hP.created_exists fs path fs2 hm, fun q hq => hP.exists_persists fs path fs2 q hm hq⟩
    | some e =>
      dsimp only at h
      have hk := hP.failure_keeps fs path fs2 e hm
      have hr := hP.errno_range fs path fs2 e hm
      by_cases he : e = EEXIST
      · rw [if_neg (not_not.2 he)] at h
        have e2 : fs2 = fs1 := (Prod.mk.inj h).1
        subst e2
        subst hk
        subst he
        exact ⟨hm, fun q hq => hq⟩
      · rw [if_pos he, hP.stderr_quiet] at h
        have h0 : to_uint8 e = 0 := (Prod.mk.inj h).2
        unfold to_uint8 at h0
        omega

theorem mkdir_or_exists_ne_eexist {σ : Type} (P : DirPlatform σ) (hP : P.Steady) (fs : σ)
    (path : CStr) : (mkdir_or_exists P fs path).2 ≠ EEXIST := by
  unfold mkdir_or_exists
  cases hm : P.mkdir fs path with
  | mk fs2 r =>
    cases r with
    | none =>
      show (0 : Nat) ≠ EEXIST
      decide
    | some e =>
      dsimp only
      have hr := hP.errno_range fs path fs2 e hm
      by_cases he : e = EEXIST
      · rw [if_neg (not_not.2 he)]
        show (0 : Nat) ≠ EEXIST
        decide
      · rw [if_pos he, hP.stderr_quiet]
        show to_uint8 e ≠ EEXIST
        unfold to_uint8
        rw [Nat.mod_eq_of_lt hr.2]
        exact he

theorem fs_mkdir_recursive_ne_eexist {σ : Type} (P : DirPlatform σ) (hP : P.Steady) :
    ∀ (depth : Nat) (fs : σ) (path : CStr) (fs1 : σ) (r : Nat),
      fs_mkdir_recursive P depth fs path = some (fs1, r) → r ≠ EEXIST := by
  intro depth
  induction depth with
  | zero =>
    intro fs path fs1 r h
    exact Option.noConfusion h
  | succ n ih =>
    intro fs path fs1 r h
    unfold fs_mkdir_recursive at h
    dsimp only at h
    split at h
    · split at h
      · exact Option.noConfusion h
      · rename_i fs2 res hrec
        split at h
        · rename_i hres
          have := Option.some.inj h
          rw [← (Prod.mk.inj this).2]
          exact hres.2
        · have hr : r = (mkdir_or_exists P fs2 path).2 := by rw [Option.some.inj h]
          rw [hr]
          exact mkdir_or_exists_ne_eexist P hP _ _
    · have hr : r = (mkdir_or_exists P fs path).2 := by rw [Option.some.inj h]
      rw [hr]
      exact mkdir_or_exists_ne_eexist P hP _ _

theorem fs_mkdir_recursive_all_present {σ : Type} (P : DirPlatform σ) :
    ∀ (depth : Nat) (fs : σ) (path : CStr) (ls : List CStr),
      mkdir_levels P depth path = some ls →
      (∀ q ∈ ls, P.mkdir fs q = (fs, some EEXIST)) →
      fs_mkdir_recursive P depth fs path = some (fs, 0) := by
  intro depth
  induction depth with
  | zero =>
    intro fs path ls h
    exact Option.noConfusion h
  | succ n ih =>
    intro fs path ls h hall
    unfold mkdir_levels at h
    unfold fs_mkdir_recursive
    dsimp only at h ⊢
    by_cases hc : P.dirname (List.take (PATH_MAX - 1) path) ≠ dot ∧
        P.dirname (List.take (PATH_MAX - 1) path) ≠ ['/']
    · rw [if_pos hc] at h ⊢
      cases hl : mkdir_levels P n (P.dirname (List.take (PATH_MAX - 1) path)) with
      | none =>
        rw [hl] at h
        exact Option.noConfusion h
      | some ls0 =>
        rw [hl] at h
        have e : ls0 ++ [path] = ls := Option.some.inj h
        subst e
        rw [ih fs _ ls0 hl (fun q hq => hall q (List.mem_append_left _ hq))]
        dsimp only
        rw [if_neg (fun hh => hh.1 rfl),
          mkdir_or_exists_present P fs path (hall path (by simp))]
    · rw [if_neg hc] at h ⊢
      have e : [path] = ls := Option.some.inj h
      subst e
      rw [mkdir_or_exists_present P fs path (hall path (by simp))]

theorem fs_mkdir_recursive_zero {σ : Type} (P : DirPlatform σ) (hP : P.Steady) :
    ∀ (depth : Nat) (fs : σ) (path : CStr) (fs1 : σ),
      fs_mkdir_recursive P depth fs path = some (fs1, 0) →
      (∀ q, P.mkdir fs q = (fs, some EEXIST) → P.mkdir fs1 q = (fs1, some EEXIST)) ∧
      ∃ ls, mkdir_levels P depth path = some ls ∧
        ∀ q ∈ ls, P.mkdir fs1 q = (fs1, some EEXIST) := by
  intro depth
  induction depth with
  | zero =>
    intro fs path fs1 h
    exact Option.noConfusion h
  | succ n ih =>
    intro fs path fs1 h
    unfold fs_mkdir_recursive at h
    unfold mkdir_levels
    dsimp only at h ⊢
    by_cases hc : P.dirname (List.take (PATH_MAX - 1) path) ≠ dot ∧
        P.dirname (List.take (PATH_MAX - 1) path) ≠ ['/']
    · rw [if_pos hc] at h ⊢
      cases hrec : fs_mkdir_recursive P n fs (P.dirname (List.take (PATH_MAX - 1) path)) with
      | none =>
        rw [hrec] at h
        exact Option.noConfusion h
      | some pr =>
        obtain ⟨fs2, res⟩ := pr
        rw [hrec] at h
        dsimp only at h
        have hne := fs_mkdir_recursive_ne_eexist P hP n fs _ fs2 res hrec
        by_cases hres : res = 0
        · subst hres
          rw [if_neg (fun hh => hh.1 rfl)] at h
          obtain ⟨hmono, ls0, hl, hall⟩ := ih fs _ fs2 hrec
          obtain ⟨hp, hmono2⟩ := mkdir_or_exists_zero P hP fs2 fs1 path (Option.some.inj h)
          refine ⟨fun q hq => hmono2 q (hmono q hq), ls0 ++ [path], by rw [hl]; rfl, ?_⟩
          intro q hq
          rcases List.mem_append.1 hq with hq | hq
          · exact hmono2 q (hall q hq)
          · rw [List.mem_singleton.1 hq]
            exact hp
        · rw [if_pos ⟨hres, hne⟩] at h
          exact absurd (Prod.mk.inj (Option.some.inj h)).2 hres
    · rw [if_neg hc] at h ⊢
      obtain ⟨hp, hmono2⟩ := mkdir_or_exists_zero P hP fs fs1 path (Option.some.inj h)
      refine ⟨hmono2, [path], rfl, ?_⟩
      intro q hq
      rw [List.mem_singleton.1 hq]
      exact hp

theorem list_platform_steady : list_platform.Steady := by
  refine ⟨fun e => rfl, ?_, ?_, ?_, ?_⟩
  · intro fs p fs1 e h
    simp only [list_platform] at h
    by_cases hp : p ∈ fs
    · rw [if_pos hp] at h
      have := (Prod.mk.inj h).2
      have he : EEXIST = e := Option.some.inj this
      rw [← he]
      decide
    · rw [if_neg hp] at h
      exact Option.noConfusion (Prod.mk.inj h).2
  · intro fs p fs1 e h
    simp only [list_platform] at h
    by_cases hp : p ∈ fs
    · rw [if_pos hp] at h
      exact (Prod.mk.inj h).1.symm
    · rw [if_neg hp] at h
      exact Option.noConfusion (Prod.mk.inj h).2
  · intro fs p fs1 h
    simp only [list_platform] at h ⊢
    by_cases hp : p ∈ fs
    · rw [if_pos hp] at h
      exact Option.noConfusion (Prod.mk.inj h).2
    · rw [if_neg hp] at h
      rw [← (Prod.mk.inj h).1]
      simp
  · intro fs p fs1 q h hq
    simp only [list_platform] at h hq ⊢
    by_cases hp : p ∈ fs
    · rw [if_pos hp] at h
      exact Option.noConfusion (Prod.mk.inj h).2
    · rw [if_neg hp] at h
      rw [← (Prod.mk.inj h).1]
      by_cases hqf : q ∈ fs
      · simp [hqf]
      · rw [if_neg hqf] at hq
        exact Option.noConfusion (Prod.mk.inj hq).2

/-- C30. `fs_mkdir_recursive` is idempotent on success: on a file system that
nothing else modifies, if a call returns 0 then a call on the same path right
after it returns 0 as well. More generally, when `mkdir` reports `EEXIST` at
every level of the path the call returns 0, so it does on `.` and on `/`, where
no parent is visited; and no call returns `EEXIST`. -/
theorem C30_mkdir_recursive_idempotent :
    (∀ (σ : Type) (P : DirPlatform σ), P.Steady →
      ∀ (depth : Nat) (fs : σ) (path : CStr) (fs1 : σ),
        fs_mkdir_recursive P depth fs path = some (fs1, 0) →
        fs_mkdir_recursive P depth fs1 path = some (fs1, 0)) ∧
    (∀ (σ : Type) (P : DirPlatform σ) (depth : Nat) (fs : σ) (path : CStr) (ls : List CStr),
      mkdir_levels P depth path = some ls →
      (∀ q ∈ ls, P.mkdir fs q = (fs, some EEXIST)) →
      fs_mkdir_recursive P depth fs path = some (fs, 0)) ∧
    (∀ (σ : Type) (P : DirPlatform σ) (depth : Nat) (fs : σ) (path : CStr),
      (path = dot ∨ path = ['/']) → P.dirname path = path →
      P.mkdir fs path = (fs, some EEXIST) →
      fs_mkdir_recursive P (depth + 1) fs path = some (fs, 0)) ∧
    (∀ (σ : Type) (P : DirPlatform σ), P.Steady →
      ∀ (depth : Nat) (fs : σ) (path : CStr) (fs1 : σ) (r : Nat),
        fs_mkdir_recursive P depth fs path = some (fs1, r) → r ≠ EEXIST) ∧
    gnu_dirname dot = dot ∧ gnu_dirname ['/'] = ['/'] := by
  refine ⟨?_, ?_, ?_, ?_, by decide, by decide⟩
  · intro σ P hP depth fs path fs1 h
    obtain ⟨_, ls, hl, hall⟩ := fs_mkdir_recursive_zero P hP depth fs path fs1 h
    exact fs_mkdir_recursive_all_present P depth fs1 path ls hl hall
  · intro σ P depth fs path ls hl hall
    exact fs_mkdir_recursive_all_present P depth fs path ls hl hall
  · intro σ P depth fs path hpath hd hm
    have htake : List.take (PATH_MAX - 1) path = path := by
      rcases hpath with h | h <;> subst h <;> decide
    have hc : ¬ (P.dirname (List.take (PATH_MAX - 1) path) ≠ dot ∧
        P.dirname (List.take (PATH_MAX - 1) path) ≠ ['/']) := by
      rw [htake, hd]
      rcases hpath with h | h <;> subst h
      · exact fun hh => hh.1 rfl
      · exact fun hh => hh.2 rfl
    unfold fs_mkdir_recursive
    dsimp only
    rw [if_neg hc, mkdir_or_exists_present P fs path hm]
  · intro σ P hP
    exact fs_mkdir_recursive_ne_eexist P hP

/-- C30 on the path `a/b/c` and a file system with no directory yet: the first
call creates the three levels and returns 0, and so does the call after it. -/
theorem C30_mkdir_recursive_idempotent_witness :
    fs_mkdir_recursive list_platform 3 [] "a/b/c".toList =
      some (["a/b/c".toList, "a/b".toList, "a".toList], 0) ∧
    fs_mkdir_recursive list_platform 3 ["a/b/c".toList, "a/b".toList, "a".toList]
      "a/b/c".toList = some (["a/b/c".toList, "a/b".toList, "a".toList], 0) :=
  ⟨by decide,
   C30_mkdir_recursive_idempotent.1 (List CStr) list_platform list_platform_steady 3 []
     "a/b/c".toList ["a/b/c".toList, "a/b".toList, "a".toList] (by decide)⟩

/-! ## Lemmas on the creation of directories -/

theorem mkdir_each_snoc {σ : Type} (P : DirPlatform σ) (path : CStr) :
    ∀ (ls : List CStr) (fs : σ), ls ≠ [] →
      mkdir_each P (ls ++ [path]) fs =
        if (mkdir_each P ls fs).2 ≠ 0 ∧ (mkdir_each P ls fs).2 ≠ EEXIST then mkdir_each P ls fs
        else mkdir_or_exists P (mkdir_each P ls fs).1 path := by
  intro ls
  induction ls with
  | nil => intro fs h; exact absurd rfl h
  | cons q rest ih =>
    intro fs _
    cases rest with
    | nil => rfl
    | cons r rest2 =>
      have ih2 := ih (mkdir_or_exists P fs q).1 (by simp)
      have e1 : mkdir_each P ((q :: r :: rest2) ++ [path]) fs =
          if (mkdir_or_exists P fs q).2 ≠ 0 ∧ (mkdir_or_exists P fs q).2 ≠ EEXIST then
            mkdir_or_exists P fs q
          else mkdir_each P ((r :: rest2) ++ [path]) (mkdir_or_exists P fs q).1 := by
        show mkdir_each P (q :: r :: (rest2 ++ [path])) fs = _
        rw [mkdir_each]
        rfl
      have e2 : mkdir_each P (q :: r :: rest2) fs =
          if (mkdir_or_exists P fs q).2 ≠ 0 ∧ (mkdir_or_exists P fs q).2 ≠ EEXIST then
            mkdir_or_exists P fs q
          else mkdir_each P (r :: rest2) (mkdir_or_exists P fs q).1 := by
        rw [mkdir_each]
      rw [e1, e2]
      by_cases hb : (mkdir_or_exists P fs q).2 ≠ 0 ∧ (mkdir_or_exists P fs q).2 ≠ EEXIST
      · simp only [if_pos hb]
      · simp only [if_neg hb]
        exact ih2

theorem mkdir_levels_ne_nil {σ : Type} (P : DirPlatform σ) :
    ∀ (depth : Nat) (path : CStr) (ls : List CStr),
      mkdir_levels P depth path = some ls → ∃ ls0, ls = ls0 ++ [path] := by
  intro depth
  cases depth with
  | zero =>
    intro path ls h
    exact Option.noConfusion h
  | succ n =>
    intro path ls h
    unfold mkdir_levels at h
    dsimp only at h
    split at h
    · cases hl : mkdir_levels P n (P.dirname (List.take (PATH_MAX - 1) path)) with
      | none =>
        rw [hl] at h
        exact Option.noConfusion h
      | some ls0 =>
        rw [hl] at h
        exact ⟨ls0, (Option.some.inj h).symm⟩
    · exact ⟨[], (Option.some.inj h).symm⟩

theorem fs_mkdir_recursive_eq_each {σ : Type} (P : DirPlatform σ) :
    ∀ (depth : Nat) (fs : σ) (path : CStr) (ls : List CStr),
      mkdir_levels P depth path = some ls →
      fs_mkdir_recursive P depth fs path = some (mkdir_each P ls fs) := by
  intro depth
  induction depth with
  | zero =>
    intro fs path ls h
    exact Option.noConfusion h
  | succ n ih =>
    intro fs path ls h
    unfold mkdir_levels at h
    unfold fs_mkdir_recursive
    dsimp only at h ⊢
    by_cases hc : P.dirname (List.take (PATH_MAX - 1) path) ≠ dot ∧
        P.dirname (List.take (PATH_MAX - 1) path) ≠ ['/']
    · rw [if_pos hc] at h ⊢
      cases hl : mkdir_levels P n (P.dirname (List.take (PATH_MAX - 1) path)) with
      | none =>
        rw [hl] at h
        exact Option.noConfusion h
      | some ls0 =>
        rw [hl] at h
        have e : ls0 ++ [path] = ls := Option.some.inj h
        subst e
        have hne : ls0 ≠ [] := by
          obtain ⟨l, hl0⟩ := mkdir_levels_ne_nil P n _ ls0 hl
          rw [hl0]
          simp
        rw [ih fs _ ls0 hl, mkdir_each_snoc P path ls0 fs hne]
        dsimp only
        by_cases hb : (mkdir_each P ls0 fs).2 ≠ 0 ∧ (mkdir_each P ls0 fs).2 ≠ EEXIST
        · rw [if_pos hb, if_pos hb]
        · rw [if_neg hb, if_neg hb]
    · rw [if_neg hc] at h ⊢
      have e : [path] = ls := Option.some.inj h
      subst e
      rfl

theorem mkdir_levels_shortening {σ : Type} (P : DirPlatform σ)
    (hshort : ∀ t : CStr, P.dirname t ≠ dot → P.dirname t ≠ ['/'] →
      (P.dirname t).length < t.length) :
    ∀ (depth : Nat) (path : CStr), path.length < depth →
      ∃ ls, mkdir_levels P depth path = some ls ∧ ls.length ≤ path.length + 1 := by
  intro depth
  induction depth with
  | zero =>
    intro path h
    exact absurd h (Nat.not_lt_zero _)
  | succ n ih =>
    intro path h
    unfold mkdir_levels
    dsimp only
    by_cases hc : P.dirname (List.take (PATH_MAX - 1) path) ≠ dot ∧
        P.dirname (List.take (PATH_MAX - 1) path) ≠ ['/']
    · rw [if_pos hc]
      have h1 := hshort _ hc.1 hc.2
      have h2 : (List.take (PATH_MAX - 1) path).length ≤ path.length := by
        rw [List.length_take]
        exact Nat.min_le_right _ _
      obtain ⟨ls, hl, hlen⟩ := ih (P.dirname (List.take (PATH_MAX - 1) path)) (by omega)
      refine ⟨ls ++ [path], by rw [hl]; rfl, ?_⟩
      rw [List.length_append, List.length_singleton]
      omega
    · rw [if_neg hc]
      exact ⟨[path], rfl, by simp⟩

theorem fs_mkdir_recursive_loops {σ : Type} (P : DirPlatform σ) (t : CStr)
    (ht : t.length < PATH_MAX) (hfix : P.dirname t = t) (h1 : t ≠ dot) (h2 : t ≠ ['/']) :
    ∀ (depth : Nat) (fs : σ), fs_mkdir_recursive P depth fs t = none := by
  intro depth
  induction depth with
  | zero =>
    intro fs
    rfl
  | succ n ih =>
    intro fs
    have htake : List.take (PATH_MAX - 1) t = t :=
      List.take_of_length_le (by omega)
    unfold fs_mkdir_recursive
    dsimp only
    rw [htake, hfix, if_pos ⟨h1, h2⟩, ih fs]

/-! ## The claims C31 to C40 -/

/-- C40 (the code). With a `dirname` that maps `//` to `//`, as POSIX allows
and the GNU C library does, `fs_mkdir_recursive` on `//` calls itself on `//`
again and has no result at any depth of the stack; the same holds on `//a`,
whose `dirname` is `//`. With a `dirname` whose result is shorter than its
argument whenever it is neither `.` nor `/`, the recursion on a path ends
within as many levels as the path has characters plus one, and at every depth
that the recursion does not exceed the result is that of the calls of `mkdir`
on the levels in order, ancestors first, ended by the first result that is
neither 0 nor `EEXIST`. -/
theorem C40_mkdir_recursive_termination :
    (∀ (σ : Type) (P : DirPlatform σ) (t : CStr), t.length < PATH_MAX → P.dirname t = t →
      t ≠ dot → t ≠ ['/'] → ∀ (depth : Nat) (fs : σ), fs_mkdir_recursive P depth fs t = none) ∧
    (gnu_dirname "//".toList = "//".toList ∧ gnu_dirname "//a".toList = "//".toList ∧
      ∀ (depth : Nat) (fs : List CStr),
        fs_mkdir_recursive list_platform depth fs "//".toList = none ∧
        fs_mkdir_recursive list_platform depth fs "//a".toList = none) ∧
    (∀ (σ : Type) (P : DirPlatform σ),
      (∀ t : CStr, P.dirname t ≠ dot → P.dirname t ≠ ['/'] →
        (P.dirname t).length < t.length) →
      ∀ (path : CStr) (fs : σ), ∃ ls, mkdir_levels P (path.length + 1) path = some ls ∧
        ls.length ≤ path.length + 1 ∧
        fs_mkdir_recursive P (path.length + 1) fs path = some (mkdir_each P ls fs)) ∧
    (∀ (σ : Type) (P : DirPlatform σ) (depth : Nat) (fs : σ) (path : CStr) (ls : List CStr),
      mkdir_levels P depth path = some ls →
      fs_mkdir_recursive P depth fs path = some (mkdir_each P ls fs)) := by
  have hloop : ∀ (depth : Nat) (fs : List CStr),
      fs_mkdir_recursive list_platform depth fs "//".toList = none :=
    fs_mkdir_recursive_loops list_platform "//".toList (by decide) (by decide) (by decide)
      (by decide)
  refine ⟨fun σ P t ht hfix h1 h2 => fs_mkdir_recursive_loops P t ht hfix h1 h2,
    ⟨by decide, by decide, fun depth fs => ⟨hloop depth fs, ?_⟩⟩, ?_,
    fun σ P => fs_mkdir_recursive_eq_each P⟩
  · cases depth with
    | zero => rfl
    | succ n =>
      have hd : list_platform.dirname (List.take (PATH_MAX - 1) "//a".toList) = "//".toList := by
        decide
      unfold fs_mkdir_recursive
      dsimp only
      rw [hd, if_pos (by decide), hloop n fs]
  · intro σ P hshort path fs
    obtain ⟨ls, hl, hlen⟩ := mkdir_levels_shortening P hshort (path.length + 1) path
      (Nat.lt_succ_self _)
    exact ⟨ls, hl, hlen, fs_mkdir_recursive_eq_each P _ fs path ls hl⟩

/-- C40 at the path `a/b/c` with the `dirname` of the GNU C library: the levels
are `a`, `a/b` and `a/b/c`, in this order. -/
theorem C40_mkdir_recursive_termination_witness :
    fs_mkdir_recursive list_platform 3 [] "a/b/c".toList =
      some (mkdir_each list_platform ["a".toList, "a/b".toList, "a/b/c".toList] []) :=
  C40_mkdir_recursive_termination.2.2.2 (List CStr) list_platform 3 [] "a/b/c".toList
    ["a".toList, "a/b".toList, "a/b/c".toList] (by decide)

/-! ## Lemmas on the probes and on `fs_mkdir` -/

theorem to_uint8_bit (b : Nat) (h : b = 0 ∨ b = 1) : to_uint8 b = b := by
  rcases h with h | h <;> subst h <;> rfl

/-- C33 as stated fails when the probe fails with `EPERM`, whose value is 1:
`fs_is_dir` and `fs_is_file` then return 1. -/
theorem C33_counterexample :
    fs_is_dir (some ['p']) (Except.error EPERM) = 1 ∧
    fs_is_file (some ['p']) (Except.error EPERM) = 1 := by
  decide

/-- C33 (amended). For every non-null path: when the probe succeeds,
`fs_is_dir` returns 1 if the entry is a directory and 0 otherwise, and
`fs_is_file` returns 1 if the entry is a regular file and 0 otherwise; when the
probe fails with the error code `e`, both return `e` converted to `uint8_t`.
So each returns 1 exactly when the probe succeeded on an entry of its type or
failed with a code that is 1 modulo 256, such as `EPERM`. -/
theorem C33_probe_results :
    ∀ (p : CStr),
      (∀ st_mode : Nat,
        fs_is_dir (some p) (Except.ok st_mode) =
          (if st_mode &&& S_IFMT = S_IFDIR then 1 else 0) ∧
        fs_is_file (some p) (Except.ok st_mode) =
          (if st_mode &&& S_IFMT = S_IFREG then 1 else 0)) ∧
      (∀ e : Nat, fs_is_dir (some p) (Except.error e) = e % 256 ∧
        fs_is_file (some p) (Except.error e) = e % 256) ∧
      (∀ stat : Except Nat Nat, fs_is_dir (some p) stat = 1 ↔
        (∃ st_mode, stat = Except.ok st_mode ∧ st_mode &&& S_IFMT = S_IFDIR) ∨
        (∃ e, stat = Except.error e ∧ e % 256 = 1)) ∧
      (∀ stat : Except Nat Nat, fs_is_file (some p) stat = 1 ↔
        (∃ st_mode, stat = Except.ok st_mode ∧ st_mode &&& S_IFMT = S_IFREG) ∨
        (∃ e, stat = Except.error e ∧ e % 256 = 1)) := by
  intro p
  have hd : ∀ st_mode : Nat, fs_is_dir (some p) (Except.ok st_mode) =
      (if st_mode &&& S_IFMT = S_IFDIR then 1 else 0) := by
    intro st_mode
    show to_uint8 (S_ISDIR st_mode) = _
    unfold S_ISDIR
    split <;> rfl
  have hf : ∀ st_mode : Nat, fs_is_file (some p) (Except.ok st_mode) =
      (if st_mode &&& S_IFMT = S_IFREG then 1 else 0) := by
    intro st_mode
    show to_uint8 (S_ISREG st_mode) = _
    unfold S_ISREG
    split <;> rfl
  refine ⟨fun st_mode => ⟨hd st_mode, hf st_mode⟩, fun e => ⟨rfl, rfl⟩, ?_, ?_⟩
  · intro stat
    cases stat with
    | error e =>
      show e % 256 = 1 ↔ _
      constructor
      · intro h
        exact Or.inr ⟨e, rfl, h⟩
      · rintro (⟨m, hm, _⟩ | ⟨e', he, h⟩)
        · exact Except.noConfusion hm
        · rw [Except.error.inj he]
          exact h
    | ok st_mode =>
      rw [hd]
      constructor
      · intro h
        by_cases hm : st_mode &&& S_IFMT = S_IFDIR
        · exact Or.inl ⟨st_mode, rfl, hm⟩
        · rw [if_neg hm] at h
          exact absurd h (by decide)
      · rintro (⟨m, hm, h⟩ | ⟨e', he, _⟩)
        · rw [Except.ok.inj hm, if_pos h]
        · exact Except.noConfusion he
  · intro stat
    cases stat with
    | error e =>
      show e % 256 = 1 ↔ _
      constructor
      · intro h
        exact Or.inr ⟨e, rfl, h⟩
      · rintro (⟨m, hm, _⟩ | ⟨e', he, h⟩)
        · exact Except.noConfusion hm
        · rw [Except.error.inj he]
          exact h
    | ok st_mode =>
      rw [hf]
      constructor
      · intro h
        by_cases hm : st_mode &&& S_IFMT = S_IFREG
        · exact Or.inl ⟨st_mode, rfl, hm⟩
        · rw [if_neg hm] at h
          exact absurd h (by decide)
      · rintro (⟨m, hm, h⟩ | ⟨e', he, _⟩)
        · rw [Except.ok.inj hm, if_pos h]
        · exact Except.noConfusion he

/-- C34 as stated fails on every path at which nothing exists: the probe fails
with `ENOENT` and `fs_is_dir` returns 2, not 0. -/
theorem C34_counterexample :
    fs_is_dir (some "non_existent_dir_xyz".toList) (Except.error ENOENT) = 2 ∧ (2 : Nat) ≠ 0 := by
  decide

/-- C34 (amended). For every non-null path at which no entry exists, so that
the probe fails with `ENOENT`, `fs_is_dir` returns `ENOENT`, which is neither 0
nor 1; a failure of the probe is propagated as its error code, converted to
`uint8_t`, whatever the code is. -/
theorem C34_not_found_is_propagated :
    ∀ (p : CStr),
      fs_is_dir (some p) (Except.error ENOENT) = ENOENT ∧
      fs_is_dir (some p) (Except.error ENOENT) ≠ 0 ∧
      fs_is_dir (some p) (Except.error ENOENT) ≠ 1 ∧
      (∀ e : Nat, fs_is_dir (some p) (Except.error e) = to_uint8 e) ∧
      (∀ e : Nat, 0 < e → e < 256 → fs_is_dir (some p) (Except.error e) = e) := by
  intro p
  refine ⟨rfl, (by show to_uint8 ENOENT ≠ 0; decide), (by show to_uint8 ENOENT ≠ 1; decide),
    fun e => rfl, fun e _ h2 => ?_⟩
  show e % 256 = e
  exact Nat.mod_eq_of_lt h2

/-- C35 (the code). `fs_mkdir` returns 0 when `mkdir` succeeds. When `mkdir`
fails with the code `e`, it returns the value that `errno` holds after the
message has been written to `stderr`, converted to `uint8_t`: this is `e`
itself when the write leaves `errno` as it is and `e` lies between 1 and 255,
and it is `EBADF` in place of `EEXIST` on an existing directory when `stderr`
is closed. -/
theorem C35_mkdir_returns_errno :
    (∀ (σ : Type) (P : DirPlatform σ) (fs : σ) (path : CStr),
      (P.mkdir fs path).2 = none → (fs_mkdir P fs path).2 = 0) ∧
    (∀ (σ : Type) (P : DirPlatform σ) (fs : σ) (path : CStr) (e : Nat),
      (P.mkdir fs path).2 = some e →
      (fs_mkdir P fs path).2 = to_uint8 (P.fprintf_errno e) ∧
      (P.fprintf_errno e = e → 0 < e → e < 256 →
        (fs_mkdir P fs path).2 = e ∧ (fs_mkdir P fs path).2 ≠ 0)) ∧
    (closed_stderr_platform.mkdir ["d".toList] "d".toList = (["d".toList], some EEXIST) ∧
      (fs_mkdir closed_stderr_platform ["d".toList] "d".toList).2 = EBADF ∧ EBADF ≠ EEXIST) := by
  refine ⟨?_, ?_, by decide⟩
  · intro σ P fs path h
    unfold fs_mkdir
    cases hm : P.mkdir fs path with
    | mk fs1 r =>
      rw [hm] at h
      have hr : r = none := h
      subst hr
      rfl
  · intro σ P fs path e h
    have hv : (fs_mkdir P fs path).2 = to_uint8 (P.fprintf_errno e) := by
      unfold fs_mkdir
      cases hm : P.mkdir fs path with
      | mk fs1 r =>
        rw [hm] at h
        have hr : r = some e := h
        subst hr
        rfl
    refine ⟨hv, fun hq h1 h2 => ?_⟩
    rw [hv, hq]
    have : to_uint8 e = e := Nat.mod_eq_of_lt h2
    rw [this]
    exact ⟨rfl, Nat.pos_iff_ne_zero.1 h1⟩

/-- C35 on an existing directory with a `stderr` that takes the message: the
result is `EEXIST`. -/
theorem C35_mkdir_returns_errno_witness :
    (fs_mkdir list_platform ["d".toList] "d".toList).2 = EEXIST ∧
    (fs_mkdir list_platform ["d".toList] "d".toList).2 ≠ 0 :=
  (C35_mkdir_returns_errno.2.1 (List CStr) list_platform ["d".toList] "d".toList EEXIST
    (by decide)).2 rfl (by decide) (by decide)

/-! ## Lemmas on `fs_list_dir` -/

theorem listed_names_skip (d : CStr) (rest : List CStr) (hd : d = dot ∨ d = dotdot) :
    listed_names (d :: rest) = listed_names rest := by
  unfold listed_names
  rw [List.filter_cons_of_neg (by simp only [decide_eq_true_eq]; exact not_not.2 hd)]

theorem listed_names_keep (d : CStr) (rest : List CStr) (hd : ¬ (d = dot ∨ d = dotdot)) :
    listed_names (d :: rest) = d :: listed_names rest := by
  unfold listed_names
  rw [List.filter_cons_of_pos (by simp only [decide_eq_true_eq]; exact hd)]

theorem counting_pass_eq (entries : List CStr) :
    ∀ n, counting_pass entries n = n + (listed_names entries).length := by
  induction entries with
  | nil => intro n; rfl
  | cons d rest ih =>
    intro n
    by_cases hd : d = dot ∨ d = dotdot
    · rw [counting_pass, if_pos hd, ih, listed_names_skip d rest hd]
    · rw [counting_pass, if_neg hd, ih, listed_names_keep d rest hd, List.length_cons]
      omega

theorem set_append_length (a : List Slot) (x v : Slot) (b : List Slot) :
    (a ++ x :: b).set a.length v = a ++ v :: b := by
  induction a with
  | nil => rfl
  | cons y ys ih => simp [List.set, ih]

theorem array_store_append (a : List Slot) (x v : Slot) (b : List Slot) (n : Nat)
    (hn : n = a.length) : array_store (a ++ x :: b) n v = some (a ++ v :: b) := by
  subst hn
  unfold array_store
  rw [if_pos (by simp), set_append_length]

theorem filling_pass_all (entries : List CStr) :
    ∀ (done : List CStr),
      filling_pass (fun _ => true) entries done.length
          (done.map Slot.str ++
            (List.replicate (listed_names entries).length Slot.garbage ++ [Slot.null])) =
        some (some ((done ++ listed_names entries).map Slot.str ++ [Slot.null],
          done.length + (listed_names entries).length)) := by
  induction entries with
  | nil =>
    intro done
    simp [filling_pass, listed_names]
  | cons d rest ih =>
    intro done
    by_cases hd : d = dot ∨ d = dotdot
    · rw [filling_pass, if_pos hd, listed_names_skip d rest hd]
      exact ih done
    · rw [filling_pass, if_neg hd, listed_names_keep d rest hd]
      have harr : List.replicate (d :: listed_names rest).length Slot.garbage ++ [Slot.null] =
          Slot.garbage ::
            (List.replicate (listed_names rest).length Slot.garbage ++ [Slot.null]) := by
        simp [List.replicate_succ]
      rw [harr, array_store_append _ _ _ _ _ (by simp)]
      dsimp only
      have ih2 := ih (done ++ [d])
      have e1 : (done ++ [d]).length = done.length + 1 := by simp
      have e2 : List.map Slot.str (done ++ [d]) ++
          (List.replicate (listed_names rest).length Slot.garbage ++ [Slot.null]) =
          List.map Slot.str done ++ Slot.str d ::
            (List.replicate (listed_names rest).length Slot.garbage ++ [Slot.null]) := by
        simp
      rw [e1, e2] at ih2
      have e3 : (if (fun _ : Nat => true) done.length = true then Slot.str d else Slot.null) =
          Slot.str d := rfl
      have e4 : (!(fun _ : Nat => true) done.length) = false := rfl
      rw [e3, e4, if_neg (by decide), ih2]
      have e5 : done ++ [d] ++ listed_names rest = done ++ d :: listed_names rest := by simp
      rw [e5, List.length_cons]
      have e6 : done.length + 1 + (listed_names rest).length =
          done.length + ((listed_names rest).length + 1) := by omega
      rw [e6]

theorem fs_list_dir_same (entries : List CStr) :
    fs_list_dir (some entries) (some entries) true (fun _ => true) =
      some ⟨some ((listed_names entries).map Slot.str ++ [Slot.null]),
        some (listed_names entries).length⟩ := by
  unfold fs_list_dir
  dsimp only
  rw [counting_pass_eq entries 0, Nat.zero_add]
  have h1 : List.replicate ((listed_names entries).length + 1) Slot.garbage =
      List.replicate (listed_names entries).length Slot.garbage ++ Slot.garbage :: [] := by
    rw [List.replicate_succ']
  rw [h1, array_store_append _ _ _ _ _ (by simp)]
  have h3 := filling_pass_all entries []
  simp only [List.map_nil, List.nil_append, List.length_nil, Nat.zero_add] at h3
  simp only [Bool.not_true, Bool.false_eq_true, if_false]
  rw [h3]

theorem array_store_length (list list1 : List Slot) (n : Nat) (v : Slot)
    (h : array_store list n v = some list1) : list1.length = list.length := by
  unfold array_store at h
  by_cases hn : n < list.length
  · rw [if_pos hn] at h
    rw [← Option.some.inj h, List.length_set]
  · rw [if_neg hn] at h
    exact Option.noConfusion h

theorem filling_pass_overflow (entries : List CStr) :
    ∀ (n : Nat) (list : List Slot), n ≤ list.length →
      list.length < n + (listed_names entries).length →
      filling_pass (fun _ => true) entries n list = none := by
  induction entries with
  | nil =>
    intro n list h1 h2
    simp only [listed_names, List.filter_nil, List.length_nil, Nat.add_zero] at h2
    omega
  | cons d rest ih =>
    intro n list h1 h2
    by_cases hd : d = dot ∨ d = dotdot
    · rw [filling_pass, if_pos hd]
      rw [listed_names_skip d rest hd] at h2
      exact ih n list h1 h2
    · rw [filling_pass, if_neg hd]
      rw [listed_names_keep d rest hd, List.length_cons] at h2
      cases hst : array_store list n (if (fun _ : Nat => true) n = true then Slot.str d
          else Slot.null) with
      | none => rfl
      | some list1 =>
        have hlen := array_store_length _ _ _ _ hst
        have hn : n < list.length := by
          unfold array_store at hst
          by_cases hn : n < list.length
          · exact hn
          · rw [if_neg hn] at hst
            exact Option.noConfusion hst
        dsimp only
        have e4 : (!(fun _ : Nat => true) n) = false := rfl
        rw [e4, if_neg (by decide)]
        exact ih (n + 1) list1 (by omega) (by omega)

theorem fs_list_dir_overflow (entries1 entries2 : List CStr)
    (h : (listed_names entries1).length + 1 < (listed_names entries2).length) :
    fs_list_dir (some entries1) (some entries2) true (fun _ => true) = none := by
  unfold fs_list_dir
  dsimp only
  rw [counting_pass_eq entries1 0, Nat.zero_add]
  have h1 : List.replicate ((listed_names entries1).length + 1) Slot.garbage =
      List.replicate (listed_names entries1).length Slot.garbage ++ Slot.garbage :: [] := by
    rw [List.replicate_succ']
  rw [h1, array_store_append _ _ _ _ _ (by simp)]
  simp only [Bool.not_true, Bool.false_eq_true, if_false]
  rw [filling_pass_overflow entries2 0 _ (Nat.zero_le _) (by simp; omega)]

/-- C32. When both passes enumerate the same names and the allocations
succeed, `fs_list_dir` returns the enumerated names without every `.` and `..`,
in the order of the enumeration, none dropped and none twice, followed by one
NULL slot; `*count` is the number of these names, and a directory that holds
nothing else gives an array whose only slot is NULL, with a count of 0. -/
theorem C32_list_dir_names :
    (∀ entries : List CStr,
      fs_list_dir (some entries) (some entries) true (fun _ => true) =
        some ⟨some ((listed_names entries).map Slot.str ++ [Slot.null]),
          some (listed_names entries).length⟩ ∧
      ((listed_names entries).map Slot.str ++ [Slot.null]).getD (listed_names entries).length
        Slot.garbage = Slot.null ∧
      (∀ d, d ∈ listed_names entries ↔ d ∈ entries ∧ d ≠ dot ∧ d ≠ dotdot) ∧
      (∀ d, d ≠ dot → d ≠ dotdot → (listed_names entries).count d = entries.count d) ∧
      (listed_names entries).Sublist entries) ∧
    fs_list_dir (some [dot, dotdot]) (some [dot, dotdot]) true (fun _ => true) =
      some ⟨some [Slot.null], some 0⟩ ∧
    fs_list_dir (some ["b".toList, dot, "a".toList, dotdot, "c".toList])
      (some ["b".toList, dot, "a".toList, dotdot, "c".toList]) true (fun _ => true) =
      some ⟨some [Slot.str "b".toList, Slot.str "a".toList, Slot.str "c".toList, Slot.null],
        some 3⟩ := by
  refine ⟨fun entries => ⟨fs_list_dir_same entries, ?_, ?_, ?_, ?_⟩, by decide, by decide⟩
  · have hlen : (listed_names entries).length = ((listed_names entries).map Slot.str).length := by
      simp
    conv_lhs => rw [hlen]
    simp
  · intro d
    simp only [listed_names, List.mem_filter, decide_eq_true_eq, not_or]
  · intro d h1 h2
    unfold listed_names
    rw [List.count_filter]
    simp [h1, h2]
  · exact List.filter_sublist _

/-- C39 (the code). The filling pass of `fs_list_dir` does not compare its
index with the number of slots: whenever the second enumeration holds at least
two names more than the first, a store falls outside the array. With one name
counted and three names to fill, the third store is outside the array of two
slots; with one name counted and two to fill, the second name takes the place
of the NULL terminator and the slot at index `*count` is outside the array;
with two names counted and one to fill, the slot at index `*count` holds what
`malloc` left there. -/
theorem C39_list_dir_overflow :
    (∀ entries1 entries2 : List CStr,
      (listed_names entries1).length + 1 < (listed_names entries2).length →
      fs_list_dir (some entries1) (some entries2) true (fun _ => true) = none) ∧
    fs_list_dir (some [dot, dotdot, "a".toList])
      (some [dot, dotdot, "a".toList, "b".toList, "c".toList]) true (fun _ => true) = none ∧
    fs_list_dir (some [dot, dotdot, "a".toList])
      (some [dot, dotdot, "a".toList, "b".toList]) true (fun _ => true) =
      some ⟨some [Slot.str "a".toList, Slot.str "b".toList], some 2⟩ ∧
    fs_list_dir (some [dot, dotdot, "a".toList, "b".toList])
      (some [dot, dotdot, "a".toList]) true (fun _ => true) =
      some ⟨some [Slot.str "a".toList, Slot.garbage, Slot.null], some 1⟩ := by
  refine ⟨fs_list_dir_overflow, ?_, ?_, ?_⟩
  · decide
  · decide
  · decide

/-- C39 at a directory that is empty in the counting pass and holds `x` and `y`
in the filling pass. -/
theorem C39_list_dir_overflow_witness :
    fs_list_dir (some [dot, dotdot]) (some [dot, "x".toList, dotdot, "y".toList]) true
      (fun _ => true) = none :=
  C39_list_dir_overflow.1 [dot, dotdot] [dot, "x".toList, dotdot, "y".toList] (by decide)

/-! ## Lemmas on the shape of `path_dirname` -/

theorem back_over_slashes_le (t : CStr) (i : Nat) : back_over_slashes t i ≤ i := by
  induction i with
  | zero => exact Nat.le_refl _
  | succ i ih =>
    rw [back_over_slashes]
    split
    · omega
    · exact Nat.le_refl _

theorem back_over_slashes_spec (t : CStr) (i : Nat) :
    back_over_slashes t i = 0 ∨ t.getD (back_over_slashes t i) nul ≠ '/' := by
  induction i with
  | zero => exact Or.inl rfl
  | succ i ih =>
    rw [back_over_slashes]
    split
    · exact ih
    · rename_i h
      exact Or.inr h

theorem take_succ_ne_nil (t : CStr) (k : Nat) (h : t ≠ []) : t.take (k + 1) ≠ [] := by
  cases t with
  | nil => exact absurd rfl h
  | cons c cs => simp

theorem head?_take_succ (t : CStr) (k : Nat) : (t.take (k + 1)).head? = t.head? := by
  cases t <;> simp

theorem getLast?_take_succ (t : CStr) (j : Nat) (h : j < t.length) :
    (t.take (j + 1)).getLast? = some (t.getD j nul) := by
  rw [take_succ_eq t j h]
  simp

theorem prefix_take_take (p : CStr) (k j : Nat) : ∃ rest, p = (p.take k).take j ++ rest :=
  ⟨(p.take k).drop j ++ p.drop k, by
    rw [← List.append_assoc, List.take_append_drop, List.take_append_drop]⟩

theorem dirname_cut_shape (t : CStr) (slash : Nat) (ht : t ≠ []) (hs : slash < t.length) :
    t.take (back_over_slashes t slash + 1) ≠ [] ∧
    ((t.take (back_over_slashes t slash + 1)).getLast? = some '/' →
      t.take (back_over_slashes t slash + 1) = ['/']) := by
  refine ⟨take_succ_ne_nil t _ ht, fun hl => ?_⟩
  have hle := back_over_slashes_le t slash
  rw [getLast?_take_succ t _ (by omega)] at hl
  have hc : t.getD (back_over_slashes t slash) nul = '/' := Option.some.inj hl
  rcases back_over_slashes_spec t slash with h0 | hne
  · rw [h0] at hc ⊢
    rw [take_succ_eq t 0 (by omega), hc]
    rfl
  · exact absurd hc hne

/-- C38. For every path `p`, `path_dirname p` is `.` or a prefix of `p` that
ends with `/` only when it is exactly `/`; it is never the empty string, the
string cut at line 189 being non-empty whatever the path and the index of the
last `/`, so that the branch at lines 190-193 is never taken; and the result
starts with `/` if and only if `p` does. -/
theorem C38_dirname_shape :
    ∀ p : CStr,
      (path_dirname p = dot ∨
        ((∃ rest, p = path_dirname p ++ rest) ∧
          ((path_dirname p).getLast? = some '/' → path_dirname p = ['/']))) ∧
      path_dirname p ≠ [] ∧
      first_is_slash (path_dirname p) = first_is_slash p ∧
      (p ≠ [] → ∀ slash : Nat,
        (p.take (back_over_slashes p (p.length - 1) + 1)).take
          (back_over_slashes (p.take (back_over_slashes p (p.length - 1) + 1)) slash + 1) ≠
          []) := by
  intro p
  by_cases hp : p = []
  · subst hp
    exact ⟨Or.inl rfl, by decide, rfl, fun h => absurd rfl h⟩
  · have htmp : p.take (back_over_slashes p (p.length - 1) + 1) ≠ [] := take_succ_ne_nil p _ hp
    have hpre : p = p.take (back_over_slashes p (p.length - 1) + 1) ++
        p.drop (back_over_slashes p (p.length - 1) + 1) := (List.take_append_drop _ _).symm
    have hhead : (p.take (back_over_slashes p (p.length - 1) + 1)).head? = p.head? :=
      head?_take_succ p _
    have hcut : ∀ slash : Nat,
        (p.take (back_over_slashes p (p.length - 1) + 1)).take
          (back_over_slashes (p.take (back_over_slashes p (p.length - 1) + 1)) slash + 1) ≠
          [] := fun slash => take_succ_ne_nil _ _ htmp
    refine ⟨?_, ?_, ?_, fun _ => hcut⟩
    · unfold path_dirname
      rw [if_neg hp]
      dsimp only
      split
      · rename_i h1
        exact Or.inr ⟨⟨_, hpre⟩, fun _ => (head_tail_iff _).1 h1⟩
      · split
        · exact Or.inl rfl
        · rename_i slash hs
          rw [if_neg (hcut slash)]
          obtain ⟨a, b, hab, _, hk⟩ := strrchr_some _ _ slash hs
          have hlt : slash < (p.take (back_over_slashes p (p.length - 1) + 1)).length := by
            rw [hab, hk]
            simp
          exact Or.inr ⟨prefix_take_take p _ _, (dirname_cut_shape _ slash htmp hlt).2⟩
    · unfold path_dirname
      rw [if_neg hp]
      dsimp only
      split
      · exact htmp
      · split
        · decide
        · rename_i slash hs
          rw [if_neg (hcut slash)]
          exact hcut slash
    · unfold path_dirname
      rw [if_neg hp]
      dsimp only
      split
      · unfold first_is_slash
        rw [hhead]
      · split
        · rename_i hs
          have hno : '/' ∉ p.take (back_over_slashes p (p.length - 1) + 1) :=
            (strrchr_none _ _).1 hs
          have h1 : first_is_slash p = false := by
            unfold first_is_slash
            rw [← hhead]
            cases hc : p.take (back_over_slashes p (p.length - 1) + 1) with
            | nil => rfl
            | cons c cs =>
              rw [hc] at hno
              have : c ≠ '/' := fun h => hno (by rw [h]; exact List.mem_cons_self _ _)
              simp [this]
          rw [h1]
          rfl
        · rename_i slash hs
          rw [if_neg (hcut slash)]
          unfold first_is_slash
          rw [head?_take_succ, hhead]

/-- C38 at the path `//usr//lib//`, whose directory name is the prefix
`//usr`. -/
theorem C38_dirname_shape_witness :
    path_dirname "//usr//lib//".toList = "//usr".toList ∧
    (path_dirname "//usr//lib//".toList = dot ∨
      ((∃ rest, "//usr//lib//".toList = path_dirname "//usr//lib//".toList ++ rest) ∧
        ((path_dirname "//usr//lib//".toList).getLast? = some '/' →
          path_dirname "//usr//lib//".toList = ['/']))) :=
  ⟨by decide, (C38_dirname_shape "//usr//lib//".toList).1⟩

/-! ## Lemmas on the length of the result of `path_normalize` -/

theorem normalize_step_some (abs : Bool) (stack : List CStr) (token : CStr) (s1 : List CStr)
    (h : normalize_step abs stack token = some s1) :
    s1 = resolve_step abs stack token ∧ (stack.length ≤ PATH_MAX → s1.length ≤ PATH_MAX) := by
  have hpush : ∀ x, stack_push stack token = some x →
      x = token :: stack ∧ (stack.length ≤ PATH_MAX → x.length ≤ PATH_MAX) := by
    intro x hx
    unfold stack_push at hx
    by_cases hl : stack.length < PATH_MAX
    · rw [if_pos hl] at hx
      have e := Option.some.inj hx
      subst e
      exact ⟨rfl, fun _ => by rw [List.length_cons]; omega⟩
    · rw [if_neg hl] at hx
      exact Option.noConfusion hx
  unfold normalize_step at h
  unfold resolve_step
  split at h
  · rename_i h1
    rw [if_pos h1]
    have e := Option.some.inj h
    subst e
    exact ⟨rfl, fun hl => hl⟩
  · rename_i h1
    rw [if_neg h1]
    split at h
    · rename_i h2
      rw [if_pos h2]
      split at h
      · rename_i h3
        rw [if_pos h3]
        have e := Option.some.inj h
        subst e
        exact ⟨rfl, fun hl => by rw [List.length_tail]; omega⟩
      · rename_i h3
        rw [if_neg h3]
        split at h
        · rename_i h4
          rw [if_pos h4]
          exact hpush s1 h
        · rename_i h4
          rw [if_neg h4]
          have e := Option.some.inj h
          subst e
          exact ⟨rfl, fun hl => hl⟩
    · rename_i h2
      rw [if_neg h2]
      exact hpush s1 h

theorem normalize_loop_some (abs : Bool) (tokens : List CStr) :
    ∀ (stack s : List CStr), normalize_loop abs tokens stack = some s →
      s = resolve abs tokens stack ∧ (stack.length ≤ PATH_MAX → s.length ≤ PATH_MAX) := by
  induction tokens with
  | nil =>
    intro stack s h
    have e : stack = s := Option.some.inj h
    subst e
    exact ⟨rfl, fun hl => hl⟩
  | cons t rest ih =>
    intro stack s h
    rw [normalize_loop] at h
    cases hs : normalize_step abs stack t with
    | none =>
      rw [hs] at h
      exact Option.noConfusion h
    | some s1 =>
      rw [hs] at h
      obtain ⟨e1, hl1⟩ := normalize_step_some abs stack t s1 hs
      obtain ⟨e2, hl2⟩ := ih s1 s h
      rw [resolve, ← e1]
      exact ⟨e2, fun hl => hl2 (hl1 hl)⟩

theorem path_normalize_some (q p : CStr) (h : path_normalize q = some p) :
    p = assemble (first_is_slash q) (resolve (first_is_slash q) (strtok_all q) []) ∧
      (resolve (first_is_slash q) (strtok_all q) []).length ≤ PATH_MAX := by
  unfold path_normalize at h
  cases hl : normalize_loop (first_is_slash q) (strtok_all q) [] with
  | none =>
    rw [hl] at h
    exact Option.noConfusion h
  | some s =>
    rw [hl] at h
    obtain ⟨e, hlen⟩ := normalize_loop_some _ _ [] s hl
    rw [← e]
    exact ⟨(Option.some.inj h).symm, hlen (Nat.zero_le _)⟩

theorem total_weight_append (a b : List CStr) :
    total_weight (a ++ b) = total_weight a + total_weight b := by
  induction a with
  | nil => simp [total_weight]
  | cons t ts ih =>
    show t.length + 1 + total_weight (ts ++ b) = t.length + 1 + total_weight ts + total_weight b
    rw [ih]
    omega

theorem total_weight_reverse (a : List CStr) : total_weight a.reverse = total_weight a := by
  induction a with
  | nil => rfl
  | cons t ts ih =>
    rw [List.reverse_cons, total_weight_append, ih]
    simp only [total_weight]
    omega

theorem total_weight_tail (a : List CStr) : total_weight a.tail ≤ total_weight a := by
  cases a with
  | nil => exact Nat.le_refl _
  | cons t ts =>
    simp only [List.tail_cons, total_weight]
    omega

theorem total_weight_resolve_step (abs : Bool) (stack : List CStr) (t : CStr) :
    total_weight (resolve_step abs stack t) ≤ total_weight stack + (t.length + 1) := by
  have ht := total_weight_tail stack
  unfold resolve_step
  split
  · omega
  · split
    · split
      · omega
      · split
        · simp only [total_weight]
          omega
        · omega
    · simp only [total_weight]
      omega

theorem total_weight_resolve (abs : Bool) (tokens : List CStr) :
    ∀ stack, total_weight (resolve abs tokens stack) ≤ total_weight stack + total_weight tokens := by
  induction tokens with
  | nil =>
    intro stack
    exact Nat.le_add_right _ _
  | cons t rest ih =>
    intro stack
    rw [resolve]
    have h1 := ih (resolve_step abs stack t)
    have h2 := total_weight_resolve_step abs stack t
    simp only [total_weight]
    omega

theorem join_segments_length (ts : List CStr) (h : ts ≠ []) :
    (join_segments ts).length + 1 = total_weight ts := by
  induction ts with
  | nil => exact absurd rfl h
  | cons t rest ih =>
    cases rest with
    | nil => simp [join_segments, total_weight]
    | cons r rest2 =>
      have := ih (by simp)
      simp only [join_segments, total_weight, List.length_append, List.length_cons] at this ⊢
      omega

theorem stack_len_loop_eq (ts : List CStr) : stack_len_loop ts = (join_segments ts).length := by
  induction ts with
  | nil => rfl
  | cons t rest ih =>
    cases rest with
    | nil => rfl
    | cons r rest2 =>
      simp only [stack_len_loop, join_segments, List.length_append, List.length_cons, ih]
      omega

theorem total_weight_segments (p : CStr) : total_weight (segments p) = p.length + 1 := by
  induction p with
  | nil => rfl
  | cons c cs ih =>
    rw [segments]
    by_cases hc : c = '/'
    · rw [if_pos hc]
      simp only [total_weight, ih, List.length_nil, List.length_cons]
      omega
    · rw [if_neg hc]
      cases hs : segments cs with
      | nil =>
        rw [hs] at ih
        simp only [total_weight] at ih
        omega
      | cons t ts =>
        rw [hs] at ih
        simp only [total_weight, List.length_cons] at ih ⊢
        omega

theorem total_weight_filter (l : List CStr) (f : CStr → Bool) :
    total_weight (l.filter f) ≤ total_weight l := by
  induction l with
  | nil => exact Nat.le_refl _
  | cons t ts ih =>
    by_cases hf : f t = true
    · rw [List.filter_cons_of_pos hf]
      simp only [total_weight]
      omega
    · rw [List.filter_cons_of_neg hf]
      simp only [total_weight]
      omega

theorem total_weight_strtok_all (p : CStr) :
    total_weight (strtok_all p) + (if first_is_slash p = true then 1 else 0) ≤ p.length + 1 := by
  cases p with
  | nil => decide
  | cons c cs =>
    by_cases hc : c = '/'
    · subst hc
      have h1 : first_is_slash ('/' :: cs) = true := rfl
      have h2 : strtok_all ('/' :: cs) = strtok_all cs := strtok_all_slash_cons cs
      have h3 := total_weight_filter (segments cs) (fun t => !t.isEmpty)
      have h4 := total_weight_segments cs
      rw [h1, h2, if_pos rfl, List.length_cons]
      unfold strtok_all
      omega
    · have h1 : first_is_slash (c :: cs) = false := by
        simp [first_is_slash, hc]
      have h3 := total_weight_filter (segments (c :: cs)) (fun t => !t.isEmpty)
      have h4 := total_weight_segments (c :: cs)
      rw [h1, if_neg (by decide)]
      unfold strtok_all
      omega

theorem assemble_length (abs : Bool) (s : List CStr) (hs : s ≠ []) :
    (assemble abs s).length = stack_len abs s.reverse := by
  have hl : ¬ s.length = 0 := fun h => hs (List.length_eq_zero.1 h)
  unfold assemble stack_len
  rw [if_neg hl, List.length_append, stack_len_loop_eq]
  cases abs <;> rfl

theorem assemble_length_le (p : CStr) (hp : p ≠ []) :
    (assemble (first_is_slash p) (resolve (first_is_slash p) (strtok_all p) [])).length ≤
      p.length := by
  have hpl : 0 < p.length := List.length_pos.2 hp
  by_cases hs : resolve (first_is_slash p) (strtok_all p) [] = []
  · rw [hs]
    cases first_is_slash p <;> exact hpl
  · rw [assemble_length _ _ hs]
    unfold stack_len
    rw [stack_len_loop_eq]
    have h1 := join_segments_length (resolve (first_is_slash p) (strtok_all p) []).reverse
      (by simpa using hs)
    rw [total_weight_reverse] at h1
    have h2 := total_weight_resolve (first_is_slash p) (strtok_all p) []
    have h3 := total_weight_strtok_all p
    simp only [total_weight, Nat.zero_add] at h2
    cases hf : first_is_slash p
    · rw [hf] at h1 h2 h3
      simp only [Bool.false_eq_true, if_false] at h3 ⊢
      omega
    · rw [hf] at h1 h2 h3
      simp only [if_true] at h3 ⊢
      omega

/-! ## Lemmas on the recomposition of a normalized path -/

theorem path_normalize_assemble (abs : Bool) (s : List CStr) (hok : StackOK abs s)
    (hlen : s.length ≤ PATH_MAX) : path_normalize (assemble abs s) = some (assemble abs s) := by
  rw [path_normalize_eq _ (strtok_all_assemble_length abs s hok hlen),
    first_is_slash_assemble abs s hok, resolve_assemble abs s hok]

theorem join_segments_snoc (b : CStr) (xs : List CStr) (h : xs ≠ []) :
    join_segments (xs ++ [b]) = join_segments xs ++ '/' :: b := by
  induction xs with
  | nil => exact absurd rfl h
  | cons x rest ih =>
    cases rest with
    | nil => rfl
    | cons y r =>
      have := ih (by simp)
      show x ++ '/' :: join_segments ((y :: r) ++ [b]) = (x ++ '/' :: join_segments (y :: r)) ++ _
      rw [this, List.append_assoc]
      rfl

theorem assemble_cons (abs : Bool) (b : CStr) (s : List CStr) (hs : s ≠ []) :
    assemble abs (b :: s) = assemble abs s ++ '/' :: b := by
  have h1 : ¬ (b :: s).length = 0 := by simp
  have h2 : ¬ s.length = 0 := fun h => hs (List.length_eq_zero.1 h)
  unfold assemble
  rw [if_neg h1, if_neg h2, List.reverse_cons, join_segments_snoc b _ (by simpa using hs),
    List.append_assoc]

theorem assemble_singleton (abs : Bool) (b : CStr) :
    assemble abs [b] = (if abs = true then ['/'] else []) ++ b := rfl

theorem assemble_ne_slash (abs : Bool) (s : List CStr) (hok : StackOK abs s) (hs : s ≠ []) :
    assemble abs s ≠ ['/'] := by
  intro h
  have h1 := strtok_all_assemble abs s hok hs
  rw [h] at h1
  have h2 : strtok_all ['/'] = [] := by decide
  rw [h2] at h1
  exact hs (List.reverse_eq_nil_iff.1 h1.symm)

theorem assemble_getLast (abs : Bool) (s : List CStr) (hok : StackOK abs s) (hs : s ≠ []) :
    (assemble abs s).getLast? ≠ some '/' :=
  fun h => assemble_ne_slash abs s hok hs ((assemble_shape abs s hok).2.1 h)

theorem drop_trailing_slashes_fixed (x : CStr) (h : x.getLast? ≠ some '/') :
    drop_trailing_slashes x = x := by
  rcases List.eq_nil_or_concat x with hx | ⟨init, c, hx⟩
  · subst hx
    rfl
  · subst hx
    have hc : c ≠ '/' := by
      intro e
      apply h
      rw [e]
      simp
    have := drop_trailing_slashes_append_other init c hc
    simpa using this

theorem path_dirname_assemble_cons (abs : Bool) (b : CStr) (s : List CStr)
    (hok : StackOK abs (b :: s)) (hs : s ≠ []) :
    path_dirname (assemble abs (b :: s)) = assemble abs s := by
  have hok2 : StackOK abs s := StackOK_suffix abs [b] s hok
  have hb : '/' ∉ b := (StackOK_isToken abs _ hok b (List.mem_cons_self _ _)).2
  have hp := assemble_getLast abs (b :: s) hok (by simp)
  have ha := assemble_getLast abs s hok2 hs
  have hane := assemble_ne_nil abs s hok2
  have hne := assemble_ne_nil abs (b :: s) hok
  have hns := assemble_ne_slash abs (b :: s) hok (by simp)
  have hcons := assemble_cons abs b s hs
  rw [path_dirname_eq_words]
  unfold dirname_words
  rw [if_neg hne]
  have ht : strip_keeping_first (assemble abs (b :: s)) (assemble abs (b :: s)) =
      assemble abs (b :: s) := by
    unfold strip_keeping_first
    rw [drop_trailing_slashes_fixed _ hp, if_neg hne]
  dsimp only
  rw [ht, if_neg hns]
  have hmem : ¬ '/' ∉ assemble abs (b :: s) := by
    rw [hcons]
    simp
  rw [if_neg hmem]
  have hbl : before_last_slash (assemble abs (b :: s)) = assemble abs s := by
    rw [hcons]
    exact before_last_slash_eq _ _ hb
  rw [hbl]
  unfold strip_keeping_first
  rw [drop_trailing_slashes_fixed _ ha, if_neg hane]

theorem path_dirname_slash_token (b : CStr) (hb : IsToken b) :
    path_dirname ('/' :: b) = ['/'] := by
  have hlast : ('/' :: b).getLast? ≠ some '/' := by
    cases hbc : b with
    | nil => exact absurd hbc hb.1
    | cons c cs =>
      rw [List.getLast?_cons_cons, ← hbc]
      intro h
      exact hb.2 (List.mem_of_mem_getLast? h)
  have hns : '/' :: b ≠ ['/'] := by
    intro h
    exact hb.1 (List.cons.inj h).2
  rw [path_dirname_eq_words]
  unfold dirname_words
  rw [if_neg (by simp)]
  have ht : strip_keeping_first ('/' :: b) ('/' :: b) = '/' :: b := by
    unfold strip_keeping_first
    rw [drop_trailing_slashes_fixed _ hlast, if_neg (by simp)]
  dsimp only
  rw [ht, if_neg hns, if_neg (by simp)]
  have hbl : before_last_slash ('/' :: b) = [] := before_last_slash_eq [] b hb.2
  rw [hbl]
  rfl

theorem path_dirname_token (b : CStr) (hb : IsToken b) : path_dirname b = ['.'] := by
  have hlast : b.getLast? ≠ some '/' := by
    intro h
    exact hb.2 (List.mem_of_mem_getLast? h)
  have hns : b ≠ ['/'] := by
    intro h
    apply hb.2
    rw [h]
    simp
  rw [path_dirname_eq_words]
  unfold dirname_words
  rw [if_neg hb.1]
  have ht : strip_keeping_first b b = b := by
    unfold strip_keeping_first
    rw [drop_trailing_slashes_fixed _ hlast, if_neg hb.1]
  dsimp only
  rw [ht, if_neg hns, if_pos hb.2]

theorem segments_assemble_getLast (abs : Bool) (b : CStr) (s : List CStr)
    (hok : StackOK abs (b :: s)) : (segments (assemble abs (b :: s))).getLast? = some b := by
  cases abs with
  | true =>
    rw [segments_assemble_abs _ hok (by simp), List.reverse_cons]
    have : ([] : CStr) :: (s.reverse ++ [b]) = ([] :: s.reverse) ++ [b] := rfl
    rw [this, List.getLast?_concat]
  | false =>
    rw [segments_assemble_rel _ hok (by simp), List.reverse_cons, List.getLast?_concat]

theorem path_basename_assemble_cons (abs : Bool) (b : CStr) (s : List CStr)
    (hok : StackOK abs (b :: s)) (hlen : (b :: s).length ≤ PATH_MAX) :
    path_basename (assemble abs (b :: s)) = some b := by
  obtain ⟨b', h1, _, h3⟩ := path_basename_of_normalize (assemble abs (b :: s))
    (assemble abs (b :: s)) (assemble_ne_nil abs _ hok)
    (path_normalize_assemble abs _ hok hlen)
  have h4 := (h3 (assemble_ne_slash abs _ hok (by simp))).2.2
  rw [segments_assemble_getLast abs b s hok] at h4
  rw [h1, Option.some.inj h4]

theorem recompose_stack (abs : Bool) (s : List CStr) (hok : StackOK abs s)
    (hlen : s.length ≤ PATH_MAX) :
    ∃ b, path_basename (assemble abs s) = some b ∧
      path_normalize (path_join (path_dirname (assemble abs s)) b) = some (assemble abs s) := by
  cases s with
  | nil =>
    cases abs with
    | true => exact ⟨['/'], by decide, by decide⟩
    | false => exact ⟨['.'], by decide, by decide⟩
  | cons b s' =>
    refine ⟨b, path_basename_assemble_cons abs b s' hok hlen, ?_⟩
    have hb : IsToken b := StackOK_isToken abs _ hok b (List.mem_cons_self _ _)
    by_cases hs : s' = []
    · subst hs
      cases abs with
      | true =>
        have hp : assemble true [b] = '/' :: b := rfl
        rw [hp, path_dirname_slash_token b hb, path_join_eq]
        have hj : ['/'] ++ (if (['/'] : CStr) ≠ [] ∧ (['/'] : CStr).getLast? ≠ some '/' then ['/']
            else []) ++ b = '/' :: b := by
          rw [if_neg (by simp)]
          rfl
        rw [hj, ← hp]
        exact path_normalize_assemble true [b] hok hlen
      | false =>
        have hp : assemble false [b] = b := rfl
        rw [hp, path_dirname_token b hb, path_join_eq]
        have hj : ['.'] ++ (if (['.'] : CStr) ≠ [] ∧ (['.'] : CStr).getLast? ≠ some '/' then ['/']
            else []) ++ b = ['.'] ++ '/' :: b := by
          rw [if_pos (by simp)]
          rfl
        rw [hj]
        have htok : strtok_all (['.'] ++ '/' :: b) = [dot, b] := by
          rw [strtok_all_append_slash, strtok_all_token b hb]
          rfl
        have hf : first_is_slash (['.'] ++ '/' :: b) = false := rfl
        rw [path_normalize_eq _ (by rw [htok]; show 2 ≤ PATH_MAX; decide), htok, hf]
        have hr : resolve false [dot, b] [] = [b] := by
          have h1 : resolve false [dot, b] [] = resolve false [b] [] := rfl
          rw [h1]
          exact resolve_fixed false [b] [] hok
        rw [hr]
        rfl
    · have hok2 : StackOK abs s' := StackOK_suffix abs [b] s' hok
      rw [path_dirname_assemble_cons abs b s' hok hs, path_join_eq,
        if_pos ⟨assemble_ne_nil abs s' hok2, assemble_getLast abs s' hok2 hs⟩,
        List.append_assoc]
      have : assemble abs s' ++ (['/'] ++ b) = assemble abs (b :: s') := by
        rw [assemble_cons abs b s' hs]
        rfl
      rw [this]
      exact path_normalize_assemble abs _ hok hlen

/-- C36. `path_dirname` and `path_basename` recompose a normalized path: for
every string `p` that `path_normalize` returns for some path `q`,
`path_basename p` returns a string `b`, and `path_normalize` of
`path_join (path_dirname p) b` returns `p`. This holds for `/`, for `.`, for a
single segment and for a run of `..` segments. -/
theorem C36_dirname_basename_recompose :
    (∀ q p : CStr, path_normalize q = some p →
      ∃ b, path_basename p = some b ∧
        path_normalize (path_join (path_dirname p) b) = some p) ∧
    (path_basename ['/'] = some ['/'] ∧
      path_normalize (path_join (path_dirname ['/']) ['/']) = some ['/']) ∧
    (path_basename dot = some dot ∧
      path_normalize (path_join (path_dirname dot) dot) = some dot) ∧
    (path_basename "name".toList = some "name".toList ∧
      path_normalize (path_join (path_dirname "name".toList) "name".toList) =
        some "name".toList) ∧
    (path_basename "../../..".toList = some dotdot ∧
      path_dirname "../../..".toList = "../..".toList ∧
      path_normalize (path_join (path_dirname "../../..".toList) dotdot) =
        some "../../..".toList) := by
  refine ⟨fun q p h => ?_, by decide, by decide, by decide, by decide⟩
  obtain ⟨e, hlen⟩ := path_normalize_some q p h
  rw [e]
  exact recompose_stack _ _ (resolve_stack_ok q) hlen

/-- C36 at the result `/a/c` of `path_normalize` on `/a/./b/../c/`. -/
theorem C36_dirname_basename_recompose_witness :
    ∃ b, path_basename "/a/c".toList = some b ∧
      path_normalize (path_join (path_dirname "/a/c".toList) b) = some "/a/c".toList :=
  C36_dirname_basename_recompose.1 "/a/./b/../c/".toList "/a/c".toList (by decide)

/-! ## Lemmas on the depth of the stack of `path_normalize` -/

theorem peak_depth_cons (abs : Bool) (t : CStr) (rest stack : List CStr) :
    peak_depth abs (t :: rest) stack =
      max stack.length (peak_depth abs rest (resolve_step abs stack t)) := rfl

theorem length_le_peak_depth (abs : Bool) (tokens stack : List CStr) :
    stack.length ≤ peak_depth abs tokens stack := by
  cases tokens with
  | nil => exact Nat.le_refl _
  | cons t rest => exact Nat.le_max_left _ _

theorem resolve_length_le_peak_depth (abs : Bool) (tokens : List CStr) :
    ∀ stack, (resolve abs tokens stack).length ≤ peak_depth abs tokens stack := by
  induction tokens with
  | nil => exact fun stack => Nat.le_refl _
  | cons t rest ih =>
    intro stack
    exact Nat.le_trans (ih _) (Nat.le_max_right _ _)

theorem peak_depth_append (abs : Bool) (a b : List CStr) :
    ∀ stack, peak_depth abs (a ++ b) stack =
      max (peak_depth abs a stack) (peak_depth abs b (resolve abs a stack)) := by
  induction a with
  | nil =>
    intro stack
    have h := length_le_peak_depth abs b stack
    simp only [List.nil_append, peak_depth, resolve]
    omega
  | cons t rest ih =>
    intro stack
    show max stack.length (peak_depth abs (rest ++ b) (resolve_step abs stack t)) =
      max (max stack.length (peak_depth abs rest (resolve_step abs stack t)))
        (peak_depth abs b (resolve abs rest (resolve_step abs stack t)))
    rw [ih]
    omega

/-- A token `.` stores nothing: the depth never exceeds the initial depth plus
the number of tokens other than `.`. -/
theorem peak_depth_le_other (abs : Bool) (tokens : List CStr) :
    ∀ stack, peak_depth abs tokens stack ≤
      stack.length + (tokens.filter (fun t => decide (t ≠ dot))).length := by
  induction tokens with
  | nil => exact fun stack => Nat.le_refl _
  | cons t rest ih =>
    intro stack
    have h1 := ih (resolve_step abs stack t)
    by_cases ht : t = dot
    · subst ht
      rw [resolve_step_dot] at h1
      have hf : (dot :: rest).filter (fun t => decide (t ≠ dot)) =
          rest.filter (fun t => decide (t ≠ dot)) :=
        List.filter_cons_of_neg (by simp)
      rw [hf]
      simp only [peak_depth, resolve_step_dot]
      omega
    · have h2 := resolve_step_length abs stack t
      have hf : (t :: rest).filter (fun t => decide (t ≠ dot)) =
          t :: rest.filter (fun t => decide (t ≠ dot)) :=
        List.filter_cons_of_pos (by simpa using ht)
      rw [hf, List.length_cons]
      simp only [peak_depth]
      omega

theorem peak_depth_le (abs : Bool) (tokens stack : List CStr) :
    peak_depth abs tokens stack ≤ stack.length + tokens.length := by
  have h1 := peak_depth_le_other abs tokens stack
  have h2 := List.length_filter_le (fun t => decide (t ≠ dot)) tokens
  omega

/-- One step of the loop stays inside the array exactly when the stack it
leaves has at most `PATH_MAX` entries. -/
theorem normalize_step_fits (abs : Bool) (stack : List CStr) (token : CStr)
    (hs : stack.length ≤ PATH_MAX) (h : (resolve_step abs stack token).length ≤ PATH_MAX) :
    normalize_step abs stack token = some (resolve_step abs stack token) := by
  by_cases hl : stack.length < PATH_MAX
  · exact normalize_step_eq abs stack token hl
  · have hpush : (token :: stack).length ≤ PATH_MAX → False := by
      rw [List.length_cons]
      omega
    unfold resolve_step at h ⊢
    unfold normalize_step
    by_cases h1 : token = dot
    · rw [if_pos h1, if_pos h1]
    · rw [if_neg h1] at h ⊢
      rw [if_neg h1]
      by_cases h2 : token = dotdot
      · rw [if_pos h2] at h ⊢
        rw [if_pos h2]
        by_cases h3 : 0 < stack.length ∧ stack.head? ≠ some dotdot
        · rw [if_pos h3, if_pos h3]
        · rw [if_neg h3] at h ⊢
          rw [if_neg h3]
          by_cases h4 : (!abs) = true
          · rw [if_pos h4] at h
            exact absurd h hpush
          · rw [if_neg h4, if_neg h4]
      · rw [if_neg h2] at h
        exact absurd h hpush

theorem normalize_loop_fits (abs : Bool) (tokens : List CStr) :
    ∀ stack, peak_depth abs tokens stack ≤ PATH_MAX →
      normalize_loop abs tokens stack = some (resolve abs tokens stack) := by
  induction tokens with
  | nil => exact fun stack _ => rfl
  | cons t rest ih =>
    intro stack h
    have h1 : stack.length ≤ PATH_MAX := Nat.le_trans (Nat.le_max_left _ _) h
    have h2 : peak_depth abs rest (resolve_step abs stack t) ≤ PATH_MAX :=
      Nat.le_trans (Nat.le_max_right _ _) h
    have h3 := length_le_peak_depth abs rest (resolve_step abs stack t)
    rw [normalize_loop, normalize_step_fits abs stack t h1 (Nat.le_trans h3 h2), resolve]
    exact ih _ h2

theorem normalize_loop_peak_depth (abs : Bool) (tokens : List CStr) :
    ∀ (stack s : List CStr), stack.length ≤ PATH_MAX →
      normalize_loop abs tokens stack = some s → peak_depth abs tokens stack ≤ PATH_MAX := by
  induction tokens with
  | nil => exact fun stack s hl _ => hl
  | cons t rest ih =>
    intro stack s hl h
    rw [normalize_loop] at h
    cases hs : normalize_step abs stack t with
    | none =>
      rw [hs] at h
      exact Option.noConfusion h
    | some s1 =>
      rw [hs] at h
      obtain ⟨e1, hl1⟩ := normalize_step_some abs stack t s1 hs
      have h2 := ih s1 s (hl1 hl) h
      rw [e1] at h2
      exact Nat.max_le.2 ⟨hl, h2⟩

/-- On a path that keeps the stack inside its array, `path_normalize` returns
the assembled survivors. -/
theorem path_normalize_fits (p : CStr) (h : fits_stack p) :
    path_normalize p =
      some (assemble (first_is_slash p) (resolve (first_is_slash p) (strtok_all p) [])) := by
  simp only [path_normalize, normalize_loop_fits (first_is_slash p) (strtok_all p) [] h]

/-- On every other path a store falls outside the array and no result is
defined. -/
theorem path_normalize_overflows (p : CStr) (h : ¬ fits_stack p) : path_normalize p = none := by
  cases hl : normalize_loop (first_is_slash p) (strtok_all p) [] with
  | none => simp only [path_normalize, hl]
  | some s =>
    exact absurd (normalize_loop_peak_depth _ _ [] s (Nat.zero_le _) hl) h

theorem not_fits_stack_of_none (p : CStr) (h : path_normalize p = none) : ¬ fits_stack p := by
  intro hf
  rw [path_normalize_fits p hf] at h
  exact Option.noConfusion h

theorem fits_stack_of_length (p : CStr) (h : (strtok_all p).length ≤ PATH_MAX) :
    fits_stack p := by
  have h1 := peak_depth_le (first_is_slash p) (strtok_all p) []
  simp only [List.length_nil, Nat.zero_add] at h1
  exact Nat.le_trans h1 h

theorem fits_stack_of_dots (p : CStr) (h : ∀ t ∈ strtok_all p, t = dot) : fits_stack p := by
  have h1 := peak_depth_le_other (first_is_slash p) (strtok_all p) []
  have h2 : (strtok_all p).filter (fun t => decide (t ≠ dot)) = [] := by
    rw [List.filter_eq_nil_iff]
    intro t ht
    simp [h t ht]
  rw [h2] at h1
  exact Nat.le_trans h1 (Nat.zero_le _)

theorem resolve_length_of_fits (p : CStr) (h : fits_stack p) :
    (resolve (first_is_slash p) (strtok_all p) []).length ≤ PATH_MAX :=
  Nat.le_trans (resolve_length_le_peak_depth _ _ []) h

/-- The result on a path that fits the stack is a fixed point. -/
theorem path_normalize_fixed_fits (p : CStr) (h : fits_stack p) :
    path_normalize (assemble (first_is_slash p) (resolve (first_is_slash p) (strtok_all p) [])) =
      some (assemble (first_is_slash p) (resolve (first_is_slash p) (strtok_all p) [])) :=
  path_normalize_assemble _ _ (resolve_stack_ok p) (resolve_length_of_fits p h)

/-- Two paths with the same first-character test and the same survivors are
normalized to the same string, as soon as both keep the stack inside its
array. -/
theorem path_normalize_congr_fits (a b : CStr) (hf : first_is_slash a = first_is_slash b)
    (hr : resolve (first_is_slash a) (strtok_all a) [] =
      resolve (first_is_slash a) (strtok_all b) [])
    (ha : fits_stack a) (hb : fits_stack b) :
    ∃ r, path_normalize a = some r ∧ path_normalize b = some r := by
  refine ⟨_, path_normalize_fits a ha, ?_⟩
  rw [path_normalize_fits b hb, ← hf, hr]

theorem path_normalize_abs_head_fits (x : CStr) (habs : x.head? = some '/')
    (hfit : fits_stack x) : ∃ r, path_normalize x = some r ∧ r.head? = some '/' := by
  have hf : first_is_slash x = true := (first_is_slash_iff x).2 habs
  have hok := resolve_stack_ok x
  refine ⟨_, path_normalize_fits x hfit, ?_⟩
  rw [hf] at hok ⊢
  exact (first_is_slash_iff _).1 (first_is_slash_assemble true _ hok)

/-- The working directory joined to a path and normalized, in terms of the
segments of the directory and the tokens of the path. -/
theorem path_absolute_in_cwd_fits (segs : List CStr) (p : CStr) (hsegs : ∀ s ∈ segs, IsName s)
    (hrel : p.head? ≠ some '/') (hdd : dotdot ∉ segments p)
    (hfit : fits_stack (path_join ('/' :: join_segments segs) p)) :
    path_absolute ('/' :: join_segments segs) p =
      some (assemble true (((strtok_all p).filter (fun t => decide (t ≠ dot))).reverse ++
        segs.reverse)) := by
  have hcwd : strtok_all ('/' :: join_segments segs) = segs := by
    rw [strtok_all_slash_cons, strtok_all_join _ (fun t ht => (hsegs t ht).isToken)]
  have htok : strtok_all (path_join ('/' :: join_segments segs) p) = segs ++ strtok_all p := by
    rw [strtok_all_path_join, hcwd]
  have hf : first_is_slash (path_join ('/' :: join_segments segs) p) = true :=
    (first_is_slash_iff _).2 (head?_path_join _ p rfl)
  have hno : ∀ t ∈ strtok_all p, t ≠ dotdot := by
    intro t ht e
    simp only [strtok_all, List.mem_filter] at ht
    exact hdd (e ▸ ht.1)
  rw [path_absolute_of_rel _ p hrel, path_normalize_fits _ hfit, htok, hf,
    resolve_append, resolve_names true segs [] hsegs, List.append_nil,
    resolve_no_dotdot true _ _ hno]

/-- In a working directory of named segments, a path without `..` keeps the
stack inside its array as soon as the segments of the directory and the
segments of the path other than `.` are together at most `PATH_MAX`. -/
theorem fits_stack_in_cwd (segs : List CStr) (p : CStr) (hsegs : ∀ s ∈ segs, IsName s)
    (h : segs.length + ((strtok_all p).filter (fun t => decide (t ≠ dot))).length ≤ PATH_MAX) :
    fits_stack (path_join ('/' :: join_segments segs) p) := by
  have hcwd : strtok_all ('/' :: join_segments segs) = segs := by
    rw [strtok_all_slash_cons, strtok_all_join _ (fun t ht => (hsegs t ht).isToken)]
  have hnd : segs.filter (fun t => decide (t ≠ dot)) = segs := by
    rw [List.filter_eq_self]
    intro t ht
    simpa using (hsegs t ht).2.2.1
  have h1 := peak_depth_le_other (first_is_slash (path_join ('/' :: join_segments segs) p))
    (strtok_all (path_join ('/' :: join_segments segs) p)) []
  rw [strtok_all_path_join, hcwd, List.filter_append, hnd, List.length_append] at h1
  simp only [List.length_nil, Nat.zero_add] at h1
  unfold fits_stack
  rw [strtok_all_path_join, hcwd]
  exact Nat.le_trans h1 h

theorem not_fits_stack_deep_path (k : Nat) (h : PATH_MAX < k) : ¬ fits_stack (deep_path k) :=
  not_fits_stack_of_none _ (path_normalize_deep_path k h)

theorem deep_path_ne_nil (k : Nat) : deep_path (k + 1) ≠ [] := by
  intro e
  have h := deep_path_succ_head k []
  rw [List.append_nil, e] at h
  exact Option.noConfusion h

theorem deep_path_relative (k : Nat) : (deep_path k).head? ≠ some '/' := by
  have h : first_is_slash (deep_path k) = false :=
    first_is_slash_join _ (tokens_replicate_a k)
  intro e
  rw [(first_is_slash_iff _).2 e] at h
  exact absurd h (by decide)

theorem path_normalize_cancelled_overflow (k : Nat) (h : PATH_MAX < k) :
    path_normalize (cancelled_path k) = none := by
  unfold path_normalize
  rw [strtok_all_cancelled_path, normalize_loop_append,
    normalize_loop_overflow _ ['a'] isName_a k [] (by simp) (by simpa using h)]
  rfl

theorem segments_deep_path (k : Nat) : segments (deep_path (k + 1)) = List.replicate (k + 1) ['a'] :=
  segments_join _ (fun e => by
    have := congrArg List.length e
    rw [List.length_replicate] at this
    exact absurd this (by simp))
    (fun t ht => (tokens_replicate_a (k + 1) t ht).2)

theorem dotdot_not_mem_deep_path (k : Nat) : dotdot ∉ segments (deep_path (k + 1)) := by
  rw [segments_deep_path]
  intro hm
  exact absurd (List.mem_replicate.1 hm).2 (by decide)

theorem path_absolute_root_deep_path (k : Nat) (h : PATH_MAX < k) :
    path_absolute ['/'] (deep_path k) = none := by
  rw [path_absolute_of_rel ['/'] (deep_path k) (deep_path_relative k)]
  have hj : path_join ['/'] (deep_path k) = '/' :: deep_path k := by
    rw [path_join_eq]
    rfl
  rw [hj]
  exact path_normalize_slash_deep_path k h

/-! ## The claims on paths deeper than the stack of `path_normalize`

The array `char *stack[PATH_MAX]` of `path_normalize` receives its tokens by
`stack[depth++] = token` without a test of `depth`. The claims below hold on
every path that keeps the depth within `PATH_MAX` (`fits_stack`), which is
exactly the set of paths on which a result is defined, and each one is
evaluated on a path that does not. -/

/-- C1 (the code). `path_normalize` returns a string exactly on the paths that
keep every store inside `stack[PATH_MAX]`, and on each of them the string that
it returns is returned again by a second call. A path with at most `PATH_MAX`
non-empty segments keeps the stores inside, and so does a path whose segments
are all `.`, whatever their number. The empty path is mapped to `.`, a fixed
point. On the path of 4097 segments `a` the 4097th store falls outside the
array and no result is defined. -/
theorem C1_normalize_idempotent :
    (∀ p : CStr, fits_stack p →
      ∃ r, path_normalize p = some r ∧ path_normalize r = some r) ∧
    (∀ p : CStr, ¬ fits_stack p → path_normalize p = none) ∧
    (∀ p : CStr, (strtok_all p).length ≤ PATH_MAX → fits_stack p) ∧
    (∀ p : CStr, (∀ t ∈ strtok_all p, t = dot) → fits_stack p) ∧
    path_normalize [] = some dot ∧ path_normalize dot = some dot ∧
    (¬ fits_stack (deep_path 4097) ∧ path_normalize (deep_path 4097) = none) := by
  refine ⟨fun p h => ⟨_, path_normalize_fits p h, path_normalize_fixed_fits p h⟩,
    path_normalize_overflows, fits_stack_of_length, fits_stack_of_dots, by decide, by decide,
    not_fits_stack_deep_path 4097 (by decide), path_normalize_deep_path 4097 (by decide)⟩

/-- C1 at the path `a/b/../../../c//.`, whose result `../c` is returned again. -/
theorem C1_normalize_idempotent_witness :
    fits_stack ("a/b/../../../c//.".toList) ∧
      ∃ r, path_normalize ("a/b/../../../c//.".toList) = some r ∧ path_normalize r = some r :=
  ⟨by decide, C1_normalize_idempotent.1 _ (by decide)⟩

/-- C5 (the code). For every absolute path that keeps the stores inside
`stack[PATH_MAX]`, `path_normalize` returns a string that starts with `/` and
has no `..` segment; `/../a` gives `/a` and `/..` gives `/`. On the absolute
path of 4097 segments `a` the 4097th store falls outside the array and no
result is defined. -/
theorem C5_absolute_drops_dotdot :
    (∀ p : CStr, p.head? = some '/' → fits_stack p →
      ∃ r, path_normalize p = some r ∧ r.head? = some '/' ∧ dotdot ∉ segments r) ∧
    path_normalize ("/../a".toList) = some ("/a".toList) ∧
    path_normalize ("/..".toList) = some ("/".toList) ∧
    (('/' :: deep_path 4097).head? = some '/' ∧
      path_normalize ('/' :: deep_path 4097) = none) := by
  refine ⟨?_, by decide, by decide, rfl, path_normalize_slash_deep_path 4097 (by decide)⟩
  intro p habs hfit
  have hf : first_is_slash p = true := by simp [first_is_slash, habs]
  have hok := resolve_stack_ok p
  rw [hf] at hok
  refine ⟨_, path_normalize_fits p hfit, ?_, ?_⟩
  · rw [hf]
    have := first_is_slash_assemble true _ hok
    simpa [first_is_slash] using this
  · rw [hf]
    by_cases hs : resolve true (strtok_all p) [] = []
    · rw [hs]; decide
    · rw [segments_assemble_abs _ hok hs]
      intro hm
      rcases List.mem_cons.1 hm with e | e
      · exact absurd e (by decide)
      · exact (StackOK_abs_names _ hok _ (List.mem_reverse.1 e)).2.2.2 rfl

/-- C5 at the path `/a/../../b/..`, which normalizes to `/`. -/
theorem C5_absolute_drops_dotdot_witness :
    ("/a/../../b/..".toList).head? = some '/' ∧ fits_stack ("/a/../../b/..".toList) ∧
      ∃ r, path_normalize ("/a/../../b/..".toList) = some r ∧ r.head? = some '/' ∧
        dotdot ∉ segments r :=
  ⟨by decide, by decide, C5_absolute_drops_dotdot.1 _ (by decide) (by decide)⟩

/-- C6 (the code). For every relative path that keeps the stores inside
`stack[PATH_MAX]`, `path_normalize` returns a string that does not start with
`/` and whose `..` segments form a leading run: its segments are some number of
`..` followed by segments none of which is `..`. `a/../../b` gives `../b` and
`../..` is kept. On the relative path of 4097 segments `a` the 4097th store
falls outside the array and no result is defined. -/
theorem C6_relative_keeps_leading_dotdot :
    (∀ p : CStr, p.head? ≠ some '/' → fits_stack p →
      ∃ r, path_normalize p = some r ∧ r.head? ≠ some '/' ∧
        ∃ k rest, segments r = List.replicate k dotdot ++ rest ∧ dotdot ∉ rest) ∧
    path_normalize ("a/../../b".toList) = some ("../b".toList) ∧
    path_normalize ("../..".toList) = some ("../..".toList) ∧
    ((deep_path 4097).head? ≠ some '/' ∧ path_normalize (deep_path 4097) = none) := by
  refine ⟨?_, by decide, by decide, deep_path_relative 4097,
    path_normalize_deep_path 4097 (by decide)⟩
  intro p hrel hfit
  have hf : first_is_slash p = false := by simp [first_is_slash, hrel]
  have hok := resolve_stack_ok p
  rw [hf] at hok
  refine ⟨_, path_normalize_fits p hfit, ?_, ?_⟩
  · rw [hf]
    have := first_is_slash_assemble false _ hok
    simpa [first_is_slash] using this
  · rw [hf]
    by_cases hs : resolve false (strtok_all p) [] = []
    · rw [hs]
      exact ⟨0, [dot], by decide, by decide⟩
    · rw [segments_assemble_rel _ hok hs]
      exact StackOK_reverse_shape _ hok

/-- C6 at the path `a/../../../b/c`, which normalizes to `../../b/c`. -/
theorem C6_relative_keeps_leading_dotdot_witness :
    ("a/../../../b/c".toList).head? ≠ some '/' ∧ fits_stack ("a/../../../b/c".toList) ∧
      ∃ r, path_normalize ("a/../../../b/c".toList) = some r ∧ r.head? ≠ some '/' ∧
        ∃ k rest, segments r = List.replicate k dotdot ++ rest ∧ dotdot ∉ rest :=
  ⟨by decide, by decide, C6_relative_keeps_leading_dotdot.1 _ (by decide) (by decide)⟩

/-- C7 (the code). A named segment followed by `..` cancels: for all strings
`p` and `q` and every segment `s` that is non-empty, has no `/` and is neither
`.` nor `..`, if `p/s/../q` keeps the stores inside `stack[PATH_MAX]` then
`path_normalize` returns the same string on `p/s/../q` and on `p/q`. In
particular `a/b/../c` gives `a/c` and `/a/b/../c` gives `/a/c`. With `p` the
path of 4097 segments `a`, `s = b` and `q` empty, the 4097th store falls
outside the array and no result is defined on `p/b/../`; with `p` the path of
4096 segments `a`, the store of `b` is the one that falls outside, while `p/`
keeps its stores inside and gives `p`. -/
theorem C7_name_dotdot_cancels :
    (∀ p q s : CStr, IsName s →
      fits_stack (p ++ ['/'] ++ s ++ ['/', '.', '.', '/'] ++ q) →
      ∃ r, path_normalize (p ++ ['/'] ++ s ++ ['/', '.', '.', '/'] ++ q) = some r ∧
        path_normalize (p ++ ['/'] ++ q) = some r) ∧
    path_normalize ("a/b/../c".toList) = some ("a/c".toList) ∧
    path_normalize ("/a/b/../c".toList) = some ("/a/c".toList) ∧
    (IsName ['b'] ∧
      path_normalize (deep_path 4097 ++ ['/'] ++ ['b'] ++ ['/', '.', '.', '/'] ++ []) = none ∧
      path_normalize (deep_path 4096 ++ ['/'] ++ ['b'] ++ ['/', '.', '.', '/'] ++ []) = none ∧
      path_normalize (deep_path 4096 ++ ['/'] ++ []) = some (deep_path 4096)) := by
  have hb : IsName ['b'] := ⟨by decide, by decide, by decide, by decide⟩
  refine ⟨?_, by decide, by decide, hb, ?_, ?_, ?_⟩
  · intro p q s hs hfit
    have e1 : p ++ ['/'] ++ s ++ ['/', '.', '.', '/'] ++ q =
        p ++ '/' :: (s ++ '/' :: (dotdot ++ '/' :: q)) := by simp [dotdot]
    have e2 : p ++ ['/'] ++ q = p ++ '/' :: q := by simp
    rw [e1] at hfit ⊢
    rw [e2]
    have ht : strtok_all (p ++ '/' :: (s ++ '/' :: (dotdot ++ '/' :: q))) =
        strtok_all p ++ ([s] ++ ([dotdot] ++ strtok_all q)) := by
      rw [strtok_all_append_slash, strtok_all_append_slash, strtok_all_append_slash,
        strtok_all_token s hs.isToken, strtok_all_dotdot]
    have hfs := first_is_slash_append_slash p (s ++ '/' :: (dotdot ++ '/' :: q)) q
    apply path_normalize_congr_fits _ _ hfs
    · rw [ht, strtok_all_append_slash, resolve_append, resolve_append, resolve_append,
        resolve_append]
      simp only [resolve]
      rw [resolve_step_name _ _ s hs, resolve_step_pop _ _ s hs.2.2.2]
    · exact hfit
    · unfold fits_stack at hfit ⊢
      rw [ht, hfs, peak_depth_append] at hfit
      rw [strtok_all_append_slash, peak_depth_append]
      have h3 : peak_depth (first_is_slash (p ++ '/' :: q)) (strtok_all q)
            (resolve (first_is_slash (p ++ '/' :: q)) (strtok_all p) []) ≤
          peak_depth (first_is_slash (p ++ '/' :: q)) ([s] ++ ([dotdot] ++ strtok_all q))
            (resolve (first_is_slash (p ++ '/' :: q)) (strtok_all p) []) := by
        have e3 : [s] ++ ([dotdot] ++ strtok_all q) = s :: dotdot :: strtok_all q := rfl
        rw [e3, peak_depth_cons, peak_depth_cons, resolve_step_name _ _ s hs,
          resolve_step_pop _ _ s hs.2.2.2]
        omega
      omega
  · have e1 : deep_path 4097 ++ ['/'] ++ ['b'] ++ ['/', '.', '.', '/'] ++ [] =
        deep_path 4097 ++ '/' :: (['b'] ++ '/' :: ['.', '.', '/']) := by
      simp only [List.append_assoc, List.cons_append, List.nil_append, List.append_nil]
    rw [e1]
    exact path_normalize_deep_path_append 4097 (by decide) _
  · have e1 : deep_path 4096 ++ ['/'] ++ ['b'] ++ ['/', '.', '.', '/'] ++ [] =
        deep_path 4096 ++ '/' :: (['b'] ++ '/' :: ['.', '.', '/']) := by
      simp only [List.append_assoc, List.cons_append, List.nil_append, List.append_nil]
    rw [e1]
    exact path_normalize_full_stack 4096 rfl ['b'] hb _
  · have e2 : deep_path 4096 ++ ['/'] ++ [] = deep_path (4095 + 1) ++ '/' :: [] := by
      simp only [List.append_assoc, List.cons_append, List.nil_append, List.append_nil]
    rw [e2]
    exact path_normalize_deep_path_slash 4095 (by decide)

/-- C7 at `p = x`, `s = yy`, `q = ../z`: both `x/yy/../../z` and `x/../z`
normalize to `z`. -/
theorem C7_name_dotdot_cancels_witness :
    IsName ("yy".toList) ∧
      fits_stack ("x".toList ++ ['/'] ++ "yy".toList ++ ['/', '.', '.', '/'] ++ "../z".toList) ∧
      ∃ r, path_normalize ("x".toList ++ ['/'] ++ "yy".toList ++ ['/', '.', '.', '/'] ++
          "../z".toList) = some r ∧
        path_normalize ("x".toList ++ ['/'] ++ "../z".toList) = some r :=
  ⟨⟨by decide, by decide, by decide, by decide⟩, by decide,
    C7_name_dotdot_cancels.1 _ _ _ ⟨by decide, by decide, by decide, by decide⟩ (by decide)⟩

/-- C8 (the code). `.` segments are dropped without any other effect: for all
strings `p` and `q` such that `p/./q` keeps the stores inside
`stack[PATH_MAX]`, `path_normalize` returns the same string on `p/./q` and on
`p/q`; and for every `q` that does not start with `/`, with `./q` under the
same condition, it returns the same string on `./q` and on `q`. In particular
`./a/./b` gives `a/b`. With `p` the path of 4097 segments `a` and `q` empty,
the 4097th store falls outside the array and no result is defined on `p/./`,
nor on `p/`. -/
theorem C8_dot_is_dropped :
    (∀ p q : CStr, fits_stack (p ++ ['/', '.', '/'] ++ q) →
      ∃ r, path_normalize (p ++ ['/', '.', '/'] ++ q) = some r ∧
        path_normalize (p ++ ['/'] ++ q) = some r) ∧
    (∀ q : CStr, q.head? ≠ some '/' → fits_stack (['.', '/'] ++ q) →
      ∃ r, path_normalize (['.', '/'] ++ q) = some r ∧ path_normalize q = some r) ∧
    path_normalize ("./a/./b".toList) = some ("a/b".toList) ∧
    (path_normalize (deep_path 4097 ++ ['/', '.', '/'] ++ []) = none ∧
      path_normalize (deep_path 4097 ++ ['/'] ++ []) = none) := by
  refine ⟨?_, ?_, by decide, ?_, ?_⟩
  · intro p q hfit
    have e1 : p ++ ['/', '.', '/'] ++ q = p ++ '/' :: (dot ++ '/' :: q) := by simp [dot]
    have e2 : p ++ ['/'] ++ q = p ++ '/' :: q := by simp
    rw [e1] at hfit ⊢
    rw [e2]
    have ht : strtok_all (p ++ '/' :: (dot ++ '/' :: q)) =
        strtok_all p ++ ([dot] ++ strtok_all q) := by
      rw [strtok_all_append_slash, strtok_all_append_slash, strtok_all_dot]
    have hfs := first_is_slash_append_slash p (dot ++ '/' :: q) q
    apply path_normalize_congr_fits _ _ hfs
    · rw [ht, strtok_all_append_slash, resolve_append, resolve_append, resolve_append]
      simp only [resolve]
      rw [resolve_step_dot]
    · exact hfit
    · unfold fits_stack at hfit ⊢
      rw [ht, hfs, peak_depth_append] at hfit
      rw [strtok_all_append_slash, peak_depth_append]
      have h3 : peak_depth (first_is_slash (p ++ '/' :: q)) (strtok_all q)
            (resolve (first_is_slash (p ++ '/' :: q)) (strtok_all p) []) ≤
          peak_depth (first_is_slash (p ++ '/' :: q)) ([dot] ++ strtok_all q)
            (resolve (first_is_slash (p ++ '/' :: q)) (strtok_all p) []) := by
        have e3 : [dot] ++ strtok_all q = dot :: strtok_all q := rfl
        rw [e3, peak_depth_cons, resolve_step_dot]
        omega
      omega
  · intro q hq hfit
    have e1 : ['.', '/'] ++ q = dot ++ '/' :: q := by simp [dot]
    rw [e1] at hfit ⊢
    have ht : strtok_all (dot ++ '/' :: q) = [dot] ++ strtok_all q := by
      rw [strtok_all_append_slash, strtok_all_dot]
    have hf1 : first_is_slash (dot ++ '/' :: q) = false := rfl
    have hf2 : first_is_slash q = false := by simp [first_is_slash, hq]
    apply path_normalize_congr_fits _ _ (by rw [hf1, hf2])
    · rw [ht, resolve_append]
      simp only [resolve]
      rw [resolve_step_dot]
    · exact hfit
    · unfold fits_stack at hfit ⊢
      rw [ht, hf1] at hfit
      rw [hf2]
      have h3 : peak_depth false (strtok_all q) [] ≤
          peak_depth false ([dot] ++ strtok_all q) [] := by
        have e3 : [dot] ++ strtok_all q = dot :: strtok_all q := rfl
        rw [e3, peak_depth_cons, resolve_step_dot]
        omega
      omega
  · have e1 : deep_path 4097 ++ ['/', '.', '/'] ++ [] = deep_path 4097 ++ '/' :: ['.', '/'] := by
      simp only [List.append_assoc, List.cons_append, List.nil_append, List.append_nil]
    rw [e1]
    exact path_normalize_deep_path_append 4097 (by decide) ['.', '/']
  · have e2 : deep_path 4097 ++ ['/'] ++ [] = deep_path 4097 ++ '/' :: [] := by
      simp only [List.append_assoc, List.cons_append, List.nil_append, List.append_nil]
    rw [e2]
    exact path_normalize_deep_path_append 4097 (by decide) []

/-- C8 at `p = /a/..`, `q = b` (both `/a/.././b` and `/a/../b` give `/b`) and
at `q = ../c` (both `./../c` and `../c` give `../c`). -/
theorem C8_dot_is_dropped_witness :
    fits_stack ("/a/..".toList ++ ['/', '.', '/'] ++ "b".toList) ∧
      (∃ r, path_normalize ("/a/..".toList ++ ['/', '.', '/'] ++ "b".toList) = some r ∧
        path_normalize ("/a/..".toList ++ ['/'] ++ "b".toList) = some r) ∧
      ("../c".toList).head? ≠ some '/' ∧ fits_stack (['.', '/'] ++ "../c".toList) ∧
      ∃ r, path_normalize (['.', '/'] ++ "../c".toList) = some r ∧
        path_normalize ("../c".toList) = some r :=
  ⟨by decide, C8_dot_is_dropped.1 _ _ (by decide), by decide, by decide,
    C8_dot_is_dropped.2.1 _ (by decide) (by decide)⟩

/-- C9 (the code). `path_normalize` is the identity on the paths in normal form
that keep the stores inside `stack[PATH_MAX]`: for every path made of an
optional leading `/` followed by one or more (at most `PATH_MAX`) non-empty
segments joined by single `/`, where no segment is `.`, no segment of an
absolute path is `..`, and in a relative path the `..` segments form a leading
run, `path_normalize` returns the path itself. In particular `a/b/c` is
returned unchanged. The path of 4097 segments `a` joined by single `/` is in
normal form, its 4097th store falls outside the array, and no result is
defined. -/
theorem C9_identity_on_normal_form :
    (∀ (abs : Bool) (segs : List CStr), segs ≠ [] →
      (∀ s ∈ segs, s ≠ [] ∧ '/' ∉ s ∧ s ≠ dot) →
      (abs = true → dotdot ∉ segs) →
      (abs = false → ∃ k rest, segs = List.replicate k dotdot ++ rest ∧ dotdot ∉ rest) →
      segs.length ≤ PATH_MAX →
      path_normalize ((if abs then ['/'] else []) ++ join_segments segs) =
        some ((if abs then ['/'] else []) ++ join_segments segs)) ∧
    path_normalize ("a/b/c".toList) = some ("a/b/c".toList) ∧
    ((∀ s ∈ List.replicate 4097 ['a'], s ≠ [] ∧ '/' ∉ s ∧ s ≠ dot ∧ s ≠ dotdot) ∧
      path_normalize (join_segments (List.replicate 4097 ['a'])) = none) := by
  refine ⟨?_, by decide, fun s hs => ?_, path_normalize_deep_path 4097 (by decide)⟩
  · intro abs segs hne hseg habs hrel hcap
    have hname : ∀ s ∈ segs, s ≠ dotdot → IsName s :=
      fun s hs hd => ⟨(hseg s hs).1, (hseg s hs).2.1, (hseg s hs).2.2, hd⟩
    have htok : ∀ s ∈ segs, IsToken s := fun s hs => ⟨(hseg s hs).1, (hseg s hs).2.1⟩
    have hok : StackOK abs (segs.reverse ++ []) := by
      rw [List.append_nil]
      cases abs with
      | true =>
        apply StackOK_of_names
        intro t ht
        have hm := List.mem_reverse.1 ht
        exact hname t hm (fun e => habs rfl (e ▸ hm))
      | false =>
        obtain ⟨k, rest, hk, hr⟩ := hrel rfl
        rw [hk, List.reverse_append, List.reverse_replicate]
        apply StackOK_names_append
        intro t ht
        have hm := List.mem_reverse.1 ht
        exact hname t (by rw [hk]; exact List.mem_append_right _ hm) (fun e => hr (e ▸ hm))
    have hts : strtok_all ((if abs then ['/'] else []) ++ join_segments segs) = segs := by
      cases abs with
      | true =>
        simp only [if_true, List.singleton_append]
        rw [strtok_all_slash_cons, strtok_all_join _ htok]
      | false => simpa using strtok_all_join _ htok
    have hf : first_is_slash ((if abs then ['/'] else []) ++ join_segments segs) = abs := by
      cases abs with
      | true => rfl
      | false => simpa using first_is_slash_join _ htok
    have hl : ¬ segs.reverse.length = 0 := by
      rw [List.length_reverse]
      exact fun e => hne (List.length_eq_zero.1 e)
    rw [path_normalize_eq _ (by rw [hts]; exact hcap), hts, hf, resolve_fixed abs segs [] hok,
      List.append_nil]
    simp only [assemble, hl, if_false, List.reverse_reverse]
  · rw [(List.mem_replicate.1 hs).2]
    exact isName_a

/-- C9 at the relative path `../../a/..b` and the absolute path `/x/y`. -/
theorem C9_identity_on_normal_form_witness :
    path_normalize ("../../a/..b".toList) = some ("../../a/..b".toList) ∧
      path_normalize ("/x/y".toList) = some ("/x/y".toList) :=
  ⟨C9_identity_on_normal_form.1 false [dotdot, dotdot, ['a'], ['.', '.', 'b']] (by decide)
      (by decide) (by decide) (fun _ => ⟨2, [['a'], ['.', '.', 'b']], by decide, by decide⟩)
      (by decide),
    C9_identity_on_normal_form.1 true [['x'], ['y']] (by decide) (by decide)
      (fun _ => by decide) (fun h => absurd h (by decide)) (by decide)⟩

/-- C10 (the code). Whenever `path_normalize` returns a string, the string is
not empty. On every path that keeps the stores inside `stack[PATH_MAX]` it
returns one, and when no segment survives this is `/` if the path starts with
`/` and `.` otherwise. No segment survives, whatever the length of the path,
when every segment is empty or `.`; and none survives in `a/.../a/../.../..`
with as many `..` as `a`, up to `PATH_MAX` of each. In particular the empty
path gives `.` and `/` gives `/`. On the path of 4097 segments `a` followed by
4097 segments `..` no segment survives either, but the 4097th store falls
outside the array and no result is defined. -/
theorem C10_never_empty :
    (∀ p r : CStr, path_normalize p = some r → r ≠ []) ∧
    (∀ p : CStr, fits_stack p → ∃ r, path_normalize p = some r ∧ r ≠ []) ∧
    (∀ p : CStr, fits_stack p →
      resolve (first_is_slash p) (strtok_all p) [] = [] →
      path_normalize p = some (if first_is_slash p then ['/'] else ['.'])) ∧
    (∀ p : CStr, (∀ t ∈ segments p, t = [] ∨ t = dot) →
      path_normalize p = some (if first_is_slash p then ['/'] else ['.'])) ∧
    (∀ k : Nat, k ≤ PATH_MAX → path_normalize (cancelled_path k) = some ['.']) ∧
    path_normalize [] = some ['.'] ∧ path_normalize ['/'] = some ['/'] ∧
    (resolve (first_is_slash (cancelled_path 4097)) (strtok_all (cancelled_path 4097)) [] = [] ∧
      ¬ fits_stack (cancelled_path 4097) ∧ path_normalize (cancelled_path 4097) = none) := by
  refine ⟨?_, ?_, ?_, ?_, ?_, by decide, by decide, ?_, ?_, ?_⟩
  · intro p r h
    rw [(path_normalize_some p r h).1]
    exact assemble_ne_nil _ _ (resolve_stack_ok p)
  · intro p hfit
    exact ⟨_, path_normalize_fits p hfit, assemble_ne_nil _ _ (resolve_stack_ok p)⟩
  · intro p hfit hres
    rw [path_normalize_fits p hfit, hres]
    rfl
  · intro p hall
    have hdots : ∀ t ∈ strtok_all p, t = dot := by
      intro t ht
      have hne := (mem_strtok_all p t ht).1
      simp only [strtok_all, List.mem_filter] at ht
      rcases hall t ht.1 with e | e
      · exact absurd e hne
      · exact e
    simp only [path_normalize, normalize_loop_dots _ _ _ hdots]
    rfl
  · intro k hk
    exact path_normalize_cancelled_path k hk
  · rw [first_is_slash_cancelled_path]
    exact resolve_cancelled_path 4097
  · exact not_fits_stack_of_none _ (path_normalize_cancelled_overflow 4097 (by decide))
  · exact path_normalize_cancelled_overflow 4097 (by decide)

/-- C10 at the path `/.//./` (every segment empty or `.`) and at the path
`a/b/../..` (every named segment cancelled). -/
theorem C10_never_empty_witness :
    path_normalize ("/.//./".toList) = some ['/'] ∧
      path_normalize ("a/b/../..".toList) = some ['.'] ∧
      ∃ r, path_normalize ("a//b".toList) = some r ∧ r ≠ [] :=
  ⟨C10_never_empty.2.2.2.1 _ (by decide), C10_never_empty.2.2.1 _ (by decide) (by decide),
    C10_never_empty.2.1 _ (by decide)⟩

/-- C11 (the code). For every path that keeps the stores inside
`stack[PATH_MAX]`, the result of `path_normalize` contains no `//`, does not
end with `/` unless it is exactly `/`, and has no segment equal to `.` unless
the whole result is exactly `.`. In particular `//a/.//b/./` gives `/a/b`. On
the path of 4097 segments `a` the 4097th store falls outside the array and no
result is defined. -/
theorem C11_normalized_shape :
    (∀ p : CStr, fits_stack p →
      ∃ r, path_normalize p = some r ∧
        (∀ a b : CStr, r ≠ a ++ '/' :: '/' :: b) ∧
        (r.getLast? = some '/' → r = ['/']) ∧
        (dot ∈ segments r → r = dot)) ∧
    path_normalize ("//a/.//b/./".toList) = some ("/a/b".toList) ∧
    path_normalize (deep_path 4097) = none := by
  refine ⟨fun p hfit => ?_, by decide, path_normalize_deep_path 4097 (by decide)⟩
  exact ⟨_, path_normalize_fits p hfit, assemble_shape _ _ (resolve_stack_ok p)⟩

/-- C11 at the path `.//./`, whose result is `.`, and at `x//y/`, whose result
is `x/y`. -/
theorem C11_normalized_shape_witness :
    (∃ r, path_normalize (".//./".toList) = some r ∧
        (∀ a b : CStr, r ≠ a ++ '/' :: '/' :: b) ∧
        (r.getLast? = some '/' → r = ['/']) ∧ (dot ∈ segments r → r = dot)) ∧
      path_normalize (".//./".toList) = some dot ∧
      path_normalize ("x//y/".toList) = some ("x/y".toList) :=
  ⟨C11_normalized_shape.1 _ (by decide), by decide, by decide⟩

/-- C13 (the code). `path_basename` returns the empty string if the path is
empty. For every non-empty path that keeps the stores of `path_normalize`
inside `stack[PATH_MAX]` it returns a value: `/` if `path_normalize` of the
path is `/`; otherwise the last segment of `path_normalize` of the path, i.e.
the part after its last `/` (the whole normalized path if it has no `/`). So
`a/b/c/` gives `c`, `.` gives `.` and `/` gives `/`. On the path of 4097
segments `a` the 4097th store of `path_normalize` falls outside the array and
`path_basename` has no value to return. -/
theorem C13_basename_is_last_segment :
    path_basename [] = some [] ∧
    (∀ p : CStr, p ≠ [] → fits_stack p →
      ∃ norm b, path_normalize p = some norm ∧ path_basename p = some b ∧
        (norm = ['/'] → b = ['/']) ∧
        (norm ≠ ['/'] → '/' ∉ b ∧ (norm = b ∨ ∃ a, norm = a ++ '/' :: b) ∧
          (segments norm).getLast? = some b)) ∧
    path_basename ("a/b/c/".toList) = some ("c".toList) ∧
    path_basename (".".toList) = some (".".toList) ∧
    path_basename ("/".toList) = some ("/".toList) ∧
    (deep_path 4097 ≠ [] ∧ path_basename (deep_path 4097) = none) := by
  refine ⟨rfl, fun p hp hfit => ?_, by decide, by decide, by decide, deep_path_ne_nil 4096,
    path_basename_deep_path 4097 (by decide) (by decide)⟩
  obtain ⟨b, hb⟩ := path_basename_of_normalize p _ hp (path_normalize_fits p hfit)
  exact ⟨_, b, path_normalize_fits p hfit, hb⟩

/-- C13 at the path `/x/../y/z.txt/`, whose base name is `z.txt`. -/
theorem C13_basename_is_last_segment_witness :
    (∃ norm b, path_normalize ("/x/../y/z.txt/".toList) = some norm ∧
        path_basename ("/x/../y/z.txt/".toList) = some b ∧
        (norm = ['/'] → b = ['/']) ∧
        (norm ≠ ['/'] → '/' ∉ b ∧ (norm = b ∨ ∃ a, norm = a ++ '/' :: b) ∧
          (segments norm).getLast? = some b)) ∧
      path_basename ("/x/../y/z.txt/".toList) = some ("z.txt".toList) :=
  ⟨C13_basename_is_last_segment.2.1 _ (by decide) (by decide), by decide⟩

/-- C16 (the code). With the working directory `cwd` taken as an input: for
every path, `path_absolute` is the call of `path_normalize` on the path when
the path starts with `/`, and on `path_join cwd path` otherwise; when `cwd` is
absolute and the string handed to `path_normalize` keeps the stores inside
`stack[PATH_MAX]`, the result starts with `/`. In particular `/a/b` gives
`/a/b` in every working directory. In the working directory `/`, on the
absolute path of 4097 segments `a`, the 4097th store of `path_normalize` falls
outside the array and no result is defined. -/
theorem C16_absolute_is_normalize :
    (∀ cwd p : CStr, p.head? = some '/' → path_absolute cwd p = path_normalize p) ∧
    (∀ cwd p : CStr, p.head? ≠ some '/' →
      path_absolute cwd p = path_normalize (path_join cwd p)) ∧
    (∀ cwd p : CStr, cwd.head? = some '/' →
      fits_stack (if p.head? = some '/' then p else path_join cwd p) →
      ∃ r, path_absolute cwd p = some r ∧ r.head? = some '/') ∧
    (∀ cwd : CStr, path_absolute cwd ("/a/b".toList) = some ("/a/b".toList)) ∧
    path_absolute ['/'] ('/' :: deep_path 4097) = none := by
  refine ⟨path_absolute_of_abs, path_absolute_of_rel, ?_, ?_, ?_⟩
  · intro cwd p hcwd hfit
    by_cases hp : p.head? = some '/'
    · rw [if_pos hp] at hfit
      rw [path_absolute_of_abs cwd p hp]
      exact path_normalize_abs_head_fits p hp hfit
    · rw [if_neg hp] at hfit
      rw [path_absolute_of_rel cwd p hp]
      exact path_normalize_abs_head_fits _ (head?_path_join cwd p hcwd) hfit
  · intro cwd
    rw [path_absolute_of_abs cwd _ (by decide)]
    decide
  · rw [path_absolute_of_abs ['/'] ('/' :: deep_path 4097) rfl]
    exact path_normalize_slash_deep_path 4097 (by decide)

/-- C16 at the relative path `../x/./y` in the working directory `/home/u`:
the result is `/home/x/y`. -/
theorem C16_absolute_is_normalize_witness :
    ("../x/./y".toList).head? ≠ some '/' ∧
      path_absolute ("/home/u".toList) ("../x/./y".toList) =
        path_normalize (path_join ("/home/u".toList) ("../x/./y".toList)) ∧
      (∃ r, path_absolute ("/home/u".toList) ("../x/./y".toList) = some r ∧
        r.head? = some '/') ∧
      path_absolute ("/home/u".toList) ("../x/./y".toList) = some ("/home/x/y".toList) :=
  ⟨by decide, C16_absolute_is_normalize.2.1 _ _ (by decide),
    C16_absolute_is_normalize.2.2.1 _ _ (by decide) (by decide), by decide⟩

/-- C17 (the code). For every working directory `cwd` that is an absolute path
in normal form (`/` followed by named segments joined by single `/`) and every
relative path `p` that has no `..` segment, if `cwd` joined to `p` keeps the
stores of `path_normalize` inside `stack[PATH_MAX]` then `path_absolute p`
returns a string that starts with `cwd`. The stores stay inside as soon as the
segments of `cwd` and the segments of `p` other than `.` are together at most
`PATH_MAX`; so, if `cwd` has at most `PATH_MAX` segments, `path_absolute` of
`.` is exactly `cwd`. In the working directory `/`, on the relative path of
4097 segments `a`, which has no `..` segment, the 4097th store falls outside
the array and no result is defined. -/
theorem C17_absolute_extends_cwd :
    (∀ (segs : List CStr) (p : CStr), (∀ s ∈ segs, IsName s) → p.head? ≠ some '/' →
      dotdot ∉ segments p → fits_stack (path_join ('/' :: join_segments segs) p) →
      ∃ r rest, path_absolute ('/' :: join_segments segs) p = some r ∧
        r = ('/' :: join_segments segs) ++ rest) ∧
    (∀ (segs : List CStr) (p : CStr), (∀ s ∈ segs, IsName s) →
      segs.length + ((strtok_all p).filter (fun t => decide (t ≠ dot))).length ≤ PATH_MAX →
      fits_stack (path_join ('/' :: join_segments segs) p)) ∧
    (∀ segs : List CStr, (∀ s ∈ segs, IsName s) → segs.length ≤ PATH_MAX →
      path_absolute ('/' :: join_segments segs) dot = some ('/' :: join_segments segs)) ∧
    ((deep_path 4097).head? ≠ some '/' ∧ dotdot ∉ segments (deep_path 4097) ∧
      path_absolute ('/' :: join_segments []) (deep_path 4097) = none) := by
  refine ⟨?_, fits_stack_in_cwd, ?_, deep_path_relative 4097, dotdot_not_mem_deep_path 4096,
    path_absolute_root_deep_path 4097 (by decide)⟩
  · intro segs p hsegs hrel hdd hfit
    obtain ⟨rest, hrest⟩ :=
      assemble_extends_cwd segs ((strtok_all p).filter (fun t => decide (t ≠ dot)))
    exact ⟨_, rest, path_absolute_in_cwd_fits segs p hsegs hrel hdd hfit, hrest⟩
  · intro segs hsegs hcap
    have hf : ([dot].filter (fun t => decide (t ≠ dot))) = [] := by decide
    have h := path_absolute_in_cwd_fits segs dot hsegs (by decide) (by decide)
      (fits_stack_in_cwd segs dot hsegs (by rw [strtok_all_dot, hf]; exact hcap))
    rw [h, strtok_all_dot, hf, List.reverse_nil, List.nil_append]
    by_cases hs : segs = []
    · subst hs; rfl
    · have hl : ¬ segs.reverse.length = 0 := by
        rw [List.length_reverse]
        exact fun e => hs (List.length_eq_zero.1 e)
      simp only [assemble, hl, if_false, if_true, List.reverse_reverse]
      rfl

/-- C17 in the working directory `/home/u`: `test/./x` gives
`/home/u/test/x`, and `.` gives `/home/u`. -/
theorem C17_absolute_extends_cwd_witness :
    (∃ r rest, path_absolute ('/' :: join_segments ["home".toList, "u".toList])
        ("test/./x".toList) = some r ∧
        r = ('/' :: join_segments ["home".toList, "u".toList]) ++ rest) ∧
      path_absolute ("/home/u".toList) ("test/./x".toList) = some ("/home/u/test/x".toList) ∧
      path_absolute ('/' :: join_segments ["home".toList, "u".toList]) dot =
        some ("/home/u".toList) := by
  have hn : ∀ s ∈ ["home".toList, "u".toList], IsName s := by
    intro s hs
    simp only [List.mem_cons, List.mem_singleton, List.not_mem_nil, or_false] at hs
    rcases hs with e | e <;> subst e <;> exact ⟨by decide, by decide, by decide, by decide⟩
  exact ⟨C17_absolute_extends_cwd.1 ["home".toList, "u".toList] ("test/./x".toList)
      hn (by decide) (by decide) (by decide),
    by decide,
    C17_absolute_extends_cwd.2.2.1 ["home".toList, "u".toList] hn (by decide)⟩

/-- C37 (the code). Whenever `path_normalize` returns a string for a non-empty
path, the string has at least one character and at most as many as the path;
it returns one for every non-empty path that keeps the stores inside
`stack[PATH_MAX]`. The empty path is mapped to the one character `.`. When
segments remain on the stack, the length computed at lines 91-94 is the number
of characters written. On the non-empty path of 4097 segments `a` the 4097th
store falls outside the array and there is no string whose length could be
compared. -/
theorem C37_never_lengthens :
    (∀ p : CStr, p ≠ [] → fits_stack p →
      ∃ r, path_normalize p = some r ∧ 1 ≤ r.length ∧ r.length ≤ p.length) ∧
    (∀ p r : CStr, p ≠ [] → path_normalize p = some r → 1 ≤ r.length ∧ r.length ≤ p.length) ∧
    (path_normalize [] = some dot ∧ ([] : CStr).length < dot.length) ∧
    (∀ (q r : CStr), path_normalize q = some r →
      resolve (first_is_slash q) (strtok_all q) [] ≠ [] →
      r.length = stack_len (first_is_slash q)
        (resolve (first_is_slash q) (strtok_all q) []).reverse) ∧
    (deep_path 4097 ≠ [] ∧ path_normalize (deep_path 4097) = none) := by
  refine ⟨fun p hp hfit => ?_, fun p r hp h => ?_, ⟨by decide, by decide⟩, fun q r h hs => ?_,
    deep_path_ne_nil 4096, path_normalize_deep_path 4097 (by decide)⟩
  · refine ⟨_, path_normalize_fits p hfit, ?_, assemble_length_le p hp⟩
    exact List.length_pos.2 (assemble_ne_nil _ _ (resolve_stack_ok p))
  · obtain ⟨e, _⟩ := path_normalize_some p r h
    rw [e]
    exact ⟨List.length_pos.2 (assemble_ne_nil _ _ (resolve_stack_ok p)), assemble_length_le p hp⟩
  · obtain ⟨e, _⟩ := path_normalize_some q r h
    rw [e]
    exact assemble_length _ _ hs

/-- C37 at the path `/a/./b/../c/`, whose result `/a/c` has 4 characters. -/
theorem C37_never_lengthens_witness :
    fits_stack "/a/./b/../c/".toList ∧
      ∃ r, path_normalize "/a/./b/../c/".toList = some r ∧ 1 ≤ r.length ∧
        r.length ≤ "/a/./b/../c/".toList.length :=
  ⟨by decide, C37_never_lengthens.1 "/a/./b/../c/".toList (by decide) (by decide)⟩

end Just
